import Mathlib

/-!
# Micronucleus bootloader (firmware/main.c): embedding and verified properties

The firmware is embedded as pure functions over an explicit machine state.
Machine integers are natural numbers reduced modulo `2^8` / `2^16` where the
C code can wrap.  Loops whose termination depends on the data carry a fuel
counter and return `none` when the C loop would not terminate.
-/

namespace Micronucleus

/-! ## Build configuration and machine state -/

/-- Build-time constants of `bootloaderconfig.h` and the Makefile, which are not
part of the sources and are therefore taken as parameters. -/
structure Config where
  BOOTLOADER_ADDRESS : Nat
  SPM_PAGESIZE : Nat
  RESET_VECTOR_OFFSET : Nat
  TINYVECTOR_RESET_OFFSET : Nat
  TINYVECTOR_OSCCAL_OFFSET : Nat
  FLASHEND : Nat
  PROGMEM_SIZE : Nat
  OSCCAL_RESTORE : Bool
  OSCCAL_16_5MHz : Bool

/-- Self-programming operations issued to the flash controller, in program order. -/
inductive SpmOp where
  | fill (addr data : Nat)
  | erase (addr : Nat)
  | write (addr : Nat)
  | clear
  deriving DecidableEq

/-- Machine state: the register variables `command`, `currentAddress`, `idlePolls`,
the static `vectorTemp`, the `OSCCAL` register, program memory (one 16-bit word per
word index, i.e. byte address divided by two), the hardware page buffer (one word
per slot), the reply pointer handed to the USB driver, the log of self-programming
operations issued so far and the number of times `leaveBootloader` was entered. -/
@[ext] structure State where
  command : Nat
  currentAddress : Nat
  idlePolls : Nat
  vectorTemp : Nat
  OSCCAL : Nat
  flash : Nat → Nat
  pageBuffer : Nat → Nat
  usbMsgPtr : List Nat
  spmLog : List SpmOp
  leaveCalls : Nat

/-- The two fields of `usbRequest_t` that `usbFunctionSetup` reads. -/
structure usbRequest where
  bRequest : Nat
  wIndex : Nat

def cmd_local_nop : Nat := 0
def cmd_device_info : Nat := 0
def cmd_transfer_page : Nat := 1
def cmd_erase_application : Nat := 2
def cmd_exit : Nat := 4
def cmd_write_page : Nat := 64
def MICRONUCLEUS_WRITE_SLEEP : Nat := 5
def USB_NO_MSG : Nat := 255

/-! ## Flash programmer primitives -/

/-- Modelled from the spec: `boot_page_fill` of avr/boot.h is not in the sources.
Spec 4.4 `fillWord(addr, word)`: stages one word in the page buffer and does not touch
flash.  The slot is selected by the word offset of `addr` inside its page. -/
def boot_page_fill (cfg : Config) (s : State) (addr data : Nat) : State :=
  { s with
    pageBuffer := fun i => if i = (addr % cfg.SPM_PAGESIZE) / 2 then data else s.pageBuffer i
    spmLog := s.spmLog ++ [SpmOp.fill addr data] }

/-- Modelled from the spec: `boot_page_erase` of avr/boot.h is not in the sources.
Spec 4.4 `erasePage(addr)`: erases the page containing `addr`; erased words read 0xFFFF. -/
def boot_page_erase (cfg : Config) (s : State) (addr : Nat) : State :=
  { s with
    flash := fun w =>
      if (2 * w) / cfg.SPM_PAGESIZE = addr / cfg.SPM_PAGESIZE then 0xFFFF else s.flash w
    spmLog := s.spmLog ++ [SpmOp.erase addr] }

/-- Modelled from the spec: `boot_page_write` of avr/boot.h is not in the sources.
Spec 4.4 `commitPage(addr)`: writes the staged buffer into the page containing `addr`. -/
def boot_page_write (cfg : Config) (s : State) (addr : Nat) : State :=
  { s with
    flash := fun w =>
      if (2 * w) / cfg.SPM_PAGESIZE = addr / cfg.SPM_PAGESIZE
      then s.pageBuffer ((2 * w % cfg.SPM_PAGESIZE) / 2) else s.flash w
    spmLog := s.spmLog ++ [SpmOp.write addr] }

/-- Macro `__boot_page_fill_clear` (main.c 106-116): sets CTPB, which resets every slot of
the page buffer to the erased value. -/
def boot_page_fill_clear (s : State) : State :=
  { s with pageBuffer := fun _ => 0xFFFF, spmLog := s.spmLog ++ [SpmOp.clear] }

/-- Read of one program-memory byte (`pgm_read_byte`), little-endian within a word. -/
def pgm_read_byte (s : State) (addr : Nat) : Nat :=
  if addr % 2 = 0 then s.flash (addr / 2) % 256 else s.flash (addr / 2) / 256 % 256

/-- Read of one program-memory word at a byte address. -/
def pgm_read_word (s : State) (addr : Nat) : Nat := s.flash (addr / 2)

/-! ## Page accumulator and vector relocator -/

/-- The word written at the tinyvector slot (main.c 132):
`vectorTemp + ((FLASHEND + 1) - BOOTLOADER_ADDRESS)/2 + 2 + RESET_VECTOR_OFFSET`,
the constant part evaluated over the integers with C division, the sum truncated to
16 bits by the assignment to `data`. -/
def tinyvectorWord (cfg : Config) (vectorTemp : Nat) : Nat :=
  (((vectorTemp : Int)
      + Int.tdiv ((cfg.FLASHEND : Int) + 1 - (cfg.BOOTLOADER_ADDRESS : Int)) 2
      + 2 + (cfg.RESET_VECTOR_OFFSET : Int)) % 65536).toNat

/-- The rewrite rules of `writeWordToPageBuffer` (main.c 123-138): the value of `data`
that reaches `boot_page_fill` when the function is entered in state `s`. -/
def relocatedWord (cfg : Config) (s : State) (data : Nat) : Nat :=
  let atReset : Bool := s.currentAddress = cfg.RESET_VECTOR_OFFSET * 2
  let vectorTemp := if atReset then data else s.vectorTemp
  let data := if atReset then (0xC000 + cfg.BOOTLOADER_ADDRESS / 2 - 1) % 65536 else data
  if (s.currentAddress : Int)
      = (cfg.BOOTLOADER_ADDRESS : Int) - (cfg.TINYVECTOR_RESET_OFFSET : Int) then
    tinyvectorWord cfg vectorTemp
  else if (!cfg.OSCCAL_RESTORE && cfg.OSCCAL_16_5MHz) ∧
      (s.currentAddress : Int)
        = (cfg.BOOTLOADER_ADDRESS : Int) - (cfg.TINYVECTOR_OSCCAL_OFFSET : Int) then
    s.OSCCAL
  else data

/-- Function `writeWordToPageBuffer` (main.c 119-148): save the reset vector, stage the
rewritten word at `currentAddress` and advance `currentAddress` by one word (16-bit). -/
def writeWordToPageBuffer (cfg : Config) (s : State) (data : Nat) : State :=
  let vectorTemp :=
    if s.currentAddress = cfg.RESET_VECTOR_OFFSET * 2 then data else s.vectorTemp
  let s1 := boot_page_fill cfg { s with vectorTemp := vectorTemp } s.currentAddress
    (relocatedWord cfg s data)
  { s1 with currentAddress := (s1.currentAddress + 2) % 65536 }

/-- State after the first `n` words of the stream `ws` went through
`writeWordToPageBuffer`, one after the other. -/
def writeWords (cfg : Config) (s : State) (ws : Nat → Nat) : Nat → State
  | 0 => s
  | n + 1 => writeWordToPageBuffer cfg (writeWords cfg s ws n) (ws n)

/-- Function `writeFlashPage` (main.c 99-103): commit at `currentAddress.w - 2` (16-bit). -/
def writeFlashPage (cfg : Config) (s : State) : State :=
  boot_page_write cfg s ((s.currentAddress + 65536 - 2) % 65536)

/-- The 16-bit word `*(uint16_t *) data` at byte offset `pos` of the data buffer. -/
def readWord (data : Nat → Nat) (pos : Nat) : Nat :=
  data pos % 256 + 256 * (data (pos + 1) % 256)

/-- The `do ... while (length)` loop of `usbFunctionWrite` (main.c 184-191); `length` is
the 8-bit counter, `pos` the offset the data pointer has advanced to. -/
def usbFunctionWriteLoop (cfg : Config) :
    Nat → State → (Nat → Nat) → Nat → Nat → Option State
  | 0, _, _, _, _ => none
  | fuel + 1, s, data, pos, length =>
    if s.currentAddress ≥ cfg.BOOTLOADER_ADDRESS then some s
    else
      let s1 := writeWordToPageBuffer cfg s (readWord data pos)
      let length1 := (length + 256 - 2) % 256
      if length1 ≠ 0 then usbFunctionWriteLoop cfg fuel s1 data (pos + 2) length1
      else some s1

/-- Function `usbFunctionWrite` (main.c 183-198).  The loop state (16-bit address, 8-bit
counter) takes fewer than `2^24` values, so a terminating run needs fewer iterations than
the fuel given here and `none` stands for a loop that never ends. -/
def usbFunctionWrite (cfg : Config) (s : State) (data : Nat → Nat) (length : Nat) :
    Option (Nat × State) :=
  match usbFunctionWriteLoop cfg 16777216 s data 0 (length % 256) with
  | none => none
  | some s1 =>
    let isLast : Nat := if (s1.currentAddress % 256) % cfg.SPM_PAGESIZE = 0 then 1 else 0
    some (isLast, if isLast ≠ 0 then { s1 with command := cmd_write_page } else s1)

/-- The page-complete rule in the words of the specification (4.2): after processing, if
CurrentAddress modulo the page size is 0 the page is complete, Command becomes WritePage and
"last" is reported; otherwise "not last" is reported. -/
def pageCompleteSpec (cfg : Config) (s1 : State) : Nat × State :=
  if s1.currentAddress % cfg.SPM_PAGESIZE = 0
  then (1, { s1 with command := cmd_write_page })
  else (0, s1)

/-! ## Command dispatcher -/

/-- The static `replyBuffer` of `usbFunctionSetup` (main.c 157-162). -/
def replyBuffer (cfg : Config) : List Nat :=
  [ (cfg.PROGMEM_SIZE % 65536) / 256 % 256,
    (cfg.PROGMEM_SIZE % 65536) % 256,
    cfg.SPM_PAGESIZE % 256,
    MICRONUCLEUS_WRITE_SLEEP ]

/-- Function `usbFunctionSetup` (main.c 154-180); returns the reply length and the state. -/
def usbFunctionSetup (cfg : Config) (s : State) (rq : usbRequest) : Nat × State :=
  let s := { s with idlePolls := s.idlePolls % 256 }
  if rq.bRequest % 256 = cmd_device_info then
    (4, { s with usbMsgPtr := replyBuffer cfg })
  else if rq.bRequest % 256 = cmd_transfer_page then
    let s := boot_page_fill_clear s
    (USB_NO_MSG, { s with currentAddress := rq.wIndex % 65536 })
  else
    (0, { s with command := rq.bRequest % 256 })

/-! ## Application eraser -/

/-- The `while (ptr)` loop of `eraseApplication` (main.c 87-90) on the 16-bit `ptr`. -/
def eraseLoop (cfg : Config) : Nat → Nat → State → Option State
  | 0, _, _ => none
  | fuel + 1, ptr, s =>
    if ptr ≠ 0 then
      let ptr1 := (ptr + 65536 - cfg.SPM_PAGESIZE % 65536) % 65536
      eraseLoop cfg fuel ptr1 (boot_page_erase cfg s ptr1)
    else some s

/-- The `for (i=0; i<8; i++) writeWordToPageBuffer(0xFFFF)` loop (main.c 93), with `n`
iterations left. -/
def writeFiller (cfg : Config) : Nat → State → State
  | 0, s => s
  | n + 1, s => writeFiller cfg n (writeWordToPageBuffer cfg s 0xFFFF)

/-- Function `eraseApplication` (main.c 78-95).  `ptr` takes fewer than `2^16 + 1` values,
so the fuel given here suffices for every terminating run of the erase loop. -/
def eraseApplication (cfg : Config) (s : State) : Option State :=
  match eraseLoop cfg 65537 (cfg.BOOTLOADER_ADDRESS % 65536) s with
  | none => none
  | some s1 => some (writeFlashPage cfg (writeFiller cfg 8 { s1 with currentAddress := 0 }))

/-! ## Scheduler -/

/-- What the transport driver delivers to the callbacks during one `usbPoll`. -/
inductive UsbEvent where
  | idle
  | setup (rq : usbRequest)
  | write (data : Nat → Nat) (length : Nat)

/-- Modelled from the spec: `usbPoll` of usbdrv.c is not in the sources.  Spec 5 and 6:
the driver runs the control-request callback or the data-phase callback synchronously
and to completion inside the poll. -/
def usbPoll (cfg : Config) (s : State) : UsbEvent → Option State
  | UsbEvent.idle => some s
  | UsbEvent.setup rq => some (usbFunctionSetup cfg s rq).2
  | UsbEvent.write data length =>
    match usbFunctionWrite cfg s data length with
    | none => none
    | some r => some r.2

/-- The command dispatch at the end of the loop body (main.c 352-355). -/
def dispatch (cfg : Config) (s : State) : Option State :=
  if s.command = cmd_erase_application then eraseApplication cfg s
  else if s.command = cmd_write_page then some (writeFlashPage cfg s)
  else some s

/-- Byte address read by the loop condition and the entry condition (main.c 262, 358):
`BOOTLOADER_ADDRESS - TINYVECTOR_RESET_OFFSET + 1`, taken as the 16-bit address that
`pgm_read_byte` receives. -/
def resetVectorHighByteAddress (cfg : Config) : Nat :=
  (((cfg.BOOTLOADER_ADDRESS : Int) - (cfg.TINYVECTOR_RESET_OFFSET : Int) + 1) % 65536).toNat

/-- The `while` condition of the main loop (main.c 358): `true` means the loop goes on. -/
def loopCondition (cfg : Config) (s : State) : Bool :=
  (s.command ≠ cmd_exit) || (pgm_read_byte s (resetVectorHighByteAddress cfg) = 0xFF)

/-- One pass through the body of the main `do ... while` loop (main.c 273-358) together
with the evaluation of the loop condition; `continue` jumps to that condition. -/
def tick (cfg : Config) (s : State) (ev : UsbEvent) : Option (State × Bool) :=
  match usbPoll cfg { s with command := cmd_local_nop } ev with
  | none => none
  | some s1 =>
    if s1.command = cmd_local_nop then some (s1, loopCondition cfg s1)
    else
      match dispatch cfg { s1 with idlePolls := (s1.idlePolls + 1) % 65536 } with
      | none => none
      | some s2 => some (s2, loopCondition cfg s2)

/-- Function `leaveBootloader` (main.c 226-252): hardware teardown and the jump into the
application; the embedding only records that it was entered. -/
def leaveBootloader (s : State) : State :=
  { s with leaveCalls := s.leaveCalls + 1 }

/-- The main loop followed by `leaveBootloader` (main.c 273-363), driven by the events of
successive polls.  `leaveBootloader` never returns, so events after the exit are not
consumed; when the events run out the loop is still running. -/
def mainLoop (cfg : Config) : State → List UsbEvent → Option State
  | s, [] => some s
  | s, ev :: evs =>
    match tick cfg s ev with
    | none => none
    | some (s1, true) => mainLoop cfg s1 evs
    | some (s1, false) => some (leaveBootloader s1)

/-- Entry condition of `main` (line 262): the bootloader is entered when the start condition
holds or the high byte of the tinyvector slot reads 0xFF (no application installed).
The macro `bootLoaderStartCondition()` belongs to the configuration header, which is not in
the sources (spec 4.6: an explicit bootloader-entry trigger); its value at boot is the
Boolean argument. -/
def bootLoaderEntry (cfg : Config) (s : State) (bootLoaderStartCondition : Bool) : Bool :=
  bootLoaderStartCondition || (pgm_read_byte s (resetVectorHighByteAddress cfg) = 0xFF)

/-! ## Host sessions -/

/-- The data phase of a page transfer as the transport delivers it: `j` successive calls of
`usbFunctionWrite`, call number `k` carrying the eight bytes `bytes (8k) .. bytes (8k+7)`.
Yields the values returned by the calls, in order, and the state after the last one. -/
def dataPhase (cfg : Config) (s : State) (bytes : Nat → Nat) : Nat → Option (List Nat × State)
  | 0 => some ([], s)
  | j + 1 =>
    match dataPhase cfg s bytes j with
    | none => none
    | some (rs, sj) =>
      match usbFunctionWrite cfg sj (fun i => bytes (8 * j + i)) 8 with
      | none => none
      | some (r, s1) => some (rs ++ [r], s1)

/-- Data-phase events of a page transfer: `k` packets of eight bytes, starting with packet
number `j` of the byte stream `bytes`. -/
def writeEvents (bytes : Nat → Nat) : Nat → Nat → List UsbEvent
  | _, 0 => []
  | j, k + 1 => UsbEvent.write (fun i => bytes (8 * j + i)) 8 :: writeEvents bytes (j + 1) k

/-- Events of one page transfer: the `TransferPage` request for address `a`, then the page
contents in eight-byte packets. -/
def pageEvents (cfg : Config) (a : Nat) (bytes : Nat → Nat) : List UsbEvent :=
  UsbEvent.setup ⟨cmd_transfer_page, a⟩ :: writeEvents bytes 0 (cfg.SPM_PAGESIZE / 8)

/-- Transfers of the `n` pages number `p`, `p + 1`, ... of an application image, in
ascending address order; `image i` is the byte the host supplies for flash address `i`. -/
def imageEvents (cfg : Config) (image : Nat → Nat) : Nat → Nat → List UsbEvent
  | _, 0 => []
  | p, n + 1 =>
    pageEvents cfg (p * cfg.SPM_PAGESIZE) (fun i => image (p * cfg.SPM_PAGESIZE + i))
      ++ imageEvents cfg image (p + 1) n

/-- A whole programming session: `EraseApplication`, then every application page. -/
def sessionEvents (cfg : Config) (image : Nat → Nat) : List UsbEvent :=
  UsbEvent.setup ⟨cmd_erase_application, 0⟩
    :: imageEvents cfg image 0 (cfg.BOOTLOADER_ADDRESS / cfg.SPM_PAGESIZE)

/-! ## Words staged since the last clear -/

/-- Byte addresses of the words staged, walking through a programmer trace: a clear forgets
what was staged before it, a fill adds its address, erases and commits change nothing. -/
def stagedFrom : List Nat → List SpmOp → List Nat
  | acc, [] => acc
  | _, SpmOp.clear :: rest => stagedFrom [] rest
  | acc, SpmOp.fill addr _ :: rest => stagedFrom (acc ++ [addr]) rest
  | acc, SpmOp.erase _ :: rest => stagedFrom acc rest
  | acc, SpmOp.write _ :: rest => stagedFrom acc rest

/-- Byte addresses of the words staged since the page buffer was last cleared, read off a
programmer trace (of all words staged in the trace if it holds no clear). -/
def stagedAddresses (log : List SpmOp) : List Nat := stagedFrom [] log

/-- The cursor invariant of a page transfer: `currentAddress` is an even 16-bit address, and
from some page-aligned start address up to `currentAddress` every word has been staged since
the page buffer was last cleared; while nothing has been staged beyond the start address,
that address lies below the bootloader. -/
def pageStaged (cfg : Config) (s : State) : Prop :=
  s.currentAddress % 2 = 0 ∧ s.currentAddress < 65536
  ∧ ∃ base, base ≤ s.currentAddress ∧ base % cfg.SPM_PAGESIZE = 0
      ∧ (s.currentAddress = base → s.currentAddress < cfg.BOOTLOADER_ADDRESS)
      ∧ ∀ x, x < s.currentAddress → x % 2 = 0 → base ≤ x → x ∈ stagedAddresses s.spmLog

/-- Host events of a session that keeps to the protocol in two points: no control request
carries the internal code 64, and the address parameter of a TransferPage request is the
start of a page below the bootloader.  Any other request code, any other address parameter
and any data-phase call are admitted. -/
def protocolEvent (cfg : Config) : UsbEvent → Prop
  | UsbEvent.setup rq =>
    rq.bRequest % 256 ≠ cmd_write_page
    ∧ (rq.bRequest % 256 = cmd_transfer_page →
        rq.wIndex % cfg.SPM_PAGESIZE = 0 ∧ rq.wIndex < cfg.BOOTLOADER_ADDRESS)
  | _ => True

instance (cfg : Config) (s : State) : Decidable (pageStaged cfg s) := by
  unfold pageStaged
  infer_instance

instance (cfg : Config) (ev : UsbEvent) : Decidable (protocolEvent cfg ev) := by
  cases ev <;> unfold protocolEvent <;> infer_instance

/-! ## AVR relative jumps -/

/-- An `rjmp` instruction word: opcode `0xC000 | k`, i.e. top nibble 0xC. -/
def isRjmp (word : Nat) : Prop := word / 4096 = 0xC

instance (word : Nat) : Decidable (isRjmp word) := by
  unfold isRjmp
  infer_instance

/-- The 12-bit offset field `k` of an `rjmp` word, read as a two's-complement number. -/
def signed12 (word : Nat) : Int :=
  if word % 4096 < 2048 then ((word % 4096 : Nat) : Int) else ((word % 4096 : Nat) : Int) - 4096

/-- Word address reached by the `rjmp` word `word` executed at word address `pc` on a flash
of `F` words: `pc + 1 + k` with `k` signed, wrapping around the end of flash. -/
def rjmpTarget (F pc word : Nat) : Nat :=
  (((pc : Int) + 1 + signed12 word) % (F : Int)).toNat

/-! ## Concrete configurations and states used in examples -/

/-- An ATtiny85 build: 8 KiB flash, 64-byte pages, bootloader at 0x1800. -/
def attiny85 : Config :=
  { BOOTLOADER_ADDRESS := 0x1800, SPM_PAGESIZE := 64, RESET_VECTOR_OFFSET := 0,
    TINYVECTOR_RESET_OFFSET := 4, TINYVECTOR_OSCCAL_OFFSET := 6, FLASHEND := 0x1FFF,
    PROGMEM_SIZE := 0x1800, OSCCAL_RESTORE := false, OSCCAL_16_5MHz := true }

/-- A build inside the range of bootloader addresses of the reset-vector rule in which
the tinyvector slot `BOOTLOADER_ADDRESS - 4` is address 0 itself. -/
def bootAtFour : Config :=
  { BOOTLOADER_ADDRESS := 4, SPM_PAGESIZE := 4, RESET_VECTOR_OFFSET := 0,
    TINYVECTOR_RESET_OFFSET := 4, TINYVECTOR_OSCCAL_OFFSET := 6, FLASHEND := 0x1FFF,
    PROGMEM_SIZE := 4, OSCCAL_RESTORE := false, OSCCAL_16_5MHz := false }

/-- A build with a single application page of 16 bytes below the bootloader. -/
def singlePage : Config :=
  { BOOTLOADER_ADDRESS := 16, SPM_PAGESIZE := 16, RESET_VECTOR_OFFSET := 0,
    TINYVECTOR_RESET_OFFSET := 4, TINYVECTOR_OSCCAL_OFFSET := 6, FLASHEND := 0x1FFF,
    PROGMEM_SIZE := 16, OSCCAL_RESTORE := false, OSCCAL_16_5MHz := false }

/-- A build with 256-byte pages, the largest page size the source admits, on 64 KiB of
flash with the bootloader at 0xF000. -/
def page256 : Config :=
  { BOOTLOADER_ADDRESS := 0xF000, SPM_PAGESIZE := 256, RESET_VECTOR_OFFSET := 0,
    TINYVECTOR_RESET_OFFSET := 4, TINYVECTOR_OSCCAL_OFFSET := 6, FLASHEND := 0xFFFF,
    PROGMEM_SIZE := 0xF000, OSCCAL_RESTORE := false, OSCCAL_16_5MHz := false }

/-- A build with two application pages of 8 bytes below the bootloader. -/
def twoSmallPages : Config :=
  { BOOTLOADER_ADDRESS := 16, SPM_PAGESIZE := 8, RESET_VECTOR_OFFSET := 0,
    TINYVECTOR_RESET_OFFSET := 4, TINYVECTOR_OSCCAL_OFFSET := 6, FLASHEND := 0x1FFF,
    PROGMEM_SIZE := 16, OSCCAL_RESTORE := false, OSCCAL_16_5MHz := false }

/-- A state with erased flash, a cleared page buffer and all registers zero. -/
def blankState : State :=
  { command := 0, currentAddress := 0, idlePolls := 0, vectorTemp := 0, OSCCAL := 0,
    flash := fun _ => 0xFFFF, pageBuffer := fun _ => 0xFFFF, usbMsgPtr := [], spmLog := [],
    leaveCalls := 0 }

/-- An application image whose reset vector is `rjmp .+20` (word 0xC00A, offset field 10);
all other bytes are zero. -/
def demoImage : Nat → Nat := fun i => if i = 0 then 0x0A else if i = 1 then 0xC0 else 0

/-- A state as an unfinished transfer leaves it: one word is still staged in slot 8 of the
page buffer. -/
def staleBufferState : State :=
  { blankState with pageBuffer := fun i => if i = 8 then 0x1234 else 0xFFFF }

/-! # Verified properties -/

set_option maxRecDepth 100000

/-! ## Basic facts about the page accumulator -/

@[simp] theorem writeWordToPageBuffer_currentAddress (cfg : Config) (s : State) (w : Nat) :
    (writeWordToPageBuffer cfg s w).currentAddress = (s.currentAddress + 2) % 65536 := rfl

@[simp] theorem writeWordToPageBuffer_flash (cfg : Config) (s : State) (w : Nat) :
    (writeWordToPageBuffer cfg s w).flash = s.flash := rfl

@[simp] theorem writeWordToPageBuffer_command (cfg : Config) (s : State) (w : Nat) :
    (writeWordToPageBuffer cfg s w).command = s.command := rfl

@[simp] theorem writeWordToPageBuffer_spmLog (cfg : Config) (s : State) (w : Nat) :
    (writeWordToPageBuffer cfg s w).spmLog
      = s.spmLog ++ [SpmOp.fill s.currentAddress (relocatedWord cfg s w)] := rfl

theorem writeWordToPageBuffer_pageBuffer (cfg : Config) (s : State) (w : Nat) (i : Nat) :
    (writeWordToPageBuffer cfg s w).pageBuffer i
      = if i = (s.currentAddress % cfg.SPM_PAGESIZE) / 2 then relocatedWord cfg s w
        else s.pageBuffer i := rfl

theorem writeWordToPageBuffer_vectorTemp (cfg : Config) (s : State) (w : Nat) :
    (writeWordToPageBuffer cfg s w).vectorTemp
      = if s.currentAddress = cfg.RESET_VECTOR_OFFSET * 2 then w else s.vectorTemp := rfl

/-- Unfolding `writeWords` at the front of the stream. -/
theorem writeWords_succ_front (cfg : Config) (s : State) (ws : Nat → Nat) (n : Nat) :
    writeWords cfg s ws (n + 1)
      = writeWords cfg (writeWordToPageBuffer cfg s (ws 0)) (fun i => ws (i + 1)) n := by
  induction n with
  | zero => rfl
  | succ k ih =>
    show writeWordToPageBuffer cfg (writeWords cfg s ws (k + 1)) (ws (k + 1)) = _
    rw [ih]
    rfl

theorem writeWords_add (cfg : Config) (s : State) (ws : Nat → Nat) (m n : Nat) :
    writeWords cfg s ws (m + n)
      = writeWords cfg (writeWords cfg s ws m) (fun i => ws (m + i)) n := by
  induction n with
  | zero => rfl
  | succ k ih =>
    show writeWordToPageBuffer cfg (writeWords cfg s ws (m + k)) (ws (m + k)) = _
    rw [ih]
    rfl

theorem writeWords_flash (cfg : Config) (s : State) (ws : Nat → Nat) (n : Nat) :
    (writeWords cfg s ws n).flash = s.flash := by
  induction n with
  | zero => rfl
  | succ k ih => simp [writeWords, ih]

theorem writeWords_command (cfg : Config) (s : State) (ws : Nat → Nat) (n : Nat) :
    (writeWords cfg s ws n).command = s.command := by
  induction n with
  | zero => rfl
  | succ k ih => simp [writeWords, ih]

theorem writeWords_currentAddress (cfg : Config) (s : State) (ws : Nat → Nat) (n : Nat)
    (h : n = 0 ∨ s.currentAddress + 2 * n ≤ 65535) :
    (writeWords cfg s ws n).currentAddress = s.currentAddress + 2 * n := by
  induction n with
  | zero => rfl
  | succ k ih =>
    simp only [writeWords, writeWordToPageBuffer_currentAddress]
    rw [ih (by omega)]
    omega

theorem writeWords_spmLog (cfg : Config) (s : State) (ws : Nat → Nat) (n : Nat)
    (h : n = 0 ∨ s.currentAddress + 2 * n ≤ 65536) :
    (writeWords cfg s ws n).spmLog
      = s.spmLog ++ (List.range n).map (fun i =>
          SpmOp.fill (s.currentAddress + 2 * i)
            (relocatedWord cfg (writeWords cfg s ws i) (ws i))) := by
  induction n with
  | zero => simp [writeWords]
  | succ k ih =>
    simp only [writeWords, writeWordToPageBuffer_spmLog]
    rw [ih (by omega), writeWords_currentAddress cfg s ws k (by omega)]
    simp [List.range_succ]

/-- The accumulator loop stages the first `min (length/2) slots` words and stops. -/
theorem usbFunctionWriteLoop_eq (cfg : Config) (data : Nat → Nat)
    (hBL : cfg.BOOTLOADER_ADDRESS ≤ 65534) :
    ∀ (fuel : Nat) (s : State) (pos len : Nat),
      len % 2 = 0 → 2 ≤ len → len < 256 → len / 2 ≤ fuel →
      usbFunctionWriteLoop cfg fuel s data pos len
        = some (writeWords cfg s (fun i => readWord data (pos + 2 * i))
            (min (len / 2) ((cfg.BOOTLOADER_ADDRESS - s.currentAddress + 1) / 2))) := by
  intro fuel
  induction fuel with
  | zero => intro s pos len h1 h2 h3 h4; omega
  | succ f ih =>
    intro s pos len h1 h2 h3 h4
    unfold usbFunctionWriteLoop
    by_cases hc : s.currentAddress ≥ cfg.BOOTLOADER_ADDRESS
    · have hz : min (len / 2) ((cfg.BOOTLOADER_ADDRESS - s.currentAddress + 1) / 2) = 0 := by
        omega
      simp [hc, hz, writeWords]
    · have hl : (len + 256 - 2) % 256 = len - 2 := by omega
      simp only [hc, if_false, hl]
      by_cases h0 : len - 2 ≠ 0
      · simp only [h0, ne_eq, not_false_eq_true, if_true]
        rw [ih _ _ _ (by omega) (by omega) (by omega) (by omega)]
        have hn : min (len / 2) ((cfg.BOOTLOADER_ADDRESS - s.currentAddress + 1) / 2)
            = min ((len - 2) / 2)
                ((cfg.BOOTLOADER_ADDRESS
                  - (writeWordToPageBuffer cfg s (readWord data pos)).currentAddress + 1) / 2)
              + 1 := by
          simp only [writeWordToPageBuffer_currentAddress]
          omega
        rw [hn, writeWords_succ_front]
        simp only [Nat.mul_zero, Nat.add_zero]
        congr 2
        funext i
        congr 1
        omega
      · have hn : min (len / 2) ((cfg.BOOTLOADER_ADDRESS - s.currentAddress + 1) / 2) = 1 := by
          omega
        simp [h0, hn, writeWords]

/-- Result of `usbFunctionWrite` for a data packet of even length. -/
theorem usbFunctionWrite_eq (cfg : Config) (s : State) (data : Nat → Nat) (L : Nat)
    (hBL : cfg.BOOTLOADER_ADDRESS ≤ 65534) (hev : L % 2 = 0) (h2 : 2 ≤ L) (h8 : L < 256) :
    usbFunctionWrite cfg s data L
      = some
          (if ((writeWords cfg s (fun i => readWord data (2 * i))
                (min (L / 2) ((cfg.BOOTLOADER_ADDRESS - s.currentAddress + 1) / 2))).currentAddress
                % 256) % cfg.SPM_PAGESIZE = 0 then 1 else 0,
           if ((writeWords cfg s (fun i => readWord data (2 * i))
                (min (L / 2) ((cfg.BOOTLOADER_ADDRESS - s.currentAddress + 1) / 2))).currentAddress
                % 256) % cfg.SPM_PAGESIZE = 0
           then { writeWords cfg s (fun i => readWord data (2 * i))
                (min (L / 2) ((cfg.BOOTLOADER_ADDRESS - s.currentAddress + 1) / 2))
                  with command := cmd_write_page }
           else writeWords cfg s (fun i => readWord data (2 * i))
                (min (L / 2) ((cfg.BOOTLOADER_ADDRESS - s.currentAddress + 1) / 2))) := by
  unfold usbFunctionWrite
  rw [Nat.mod_eq_of_lt h8,
    usbFunctionWriteLoop_eq cfg data hBL 16777216 s 0 L hev h2 h8 (by omega)]
  simp only [Nat.zero_add]
  split_ifs <;> simp_all

/-- At or beyond the bootloader the accumulator stages nothing. -/
theorem usbFunctionWrite_of_ge (cfg : Config) (s : State) (data : Nat → Nat) (L : Nat)
    (h : cfg.BOOTLOADER_ADDRESS ≤ s.currentAddress) :
    usbFunctionWrite cfg s data L
      = some (if (s.currentAddress % 256) % cfg.SPM_PAGESIZE = 0 then 1 else 0,
              if (s.currentAddress % 256) % cfg.SPM_PAGESIZE = 0
              then { s with command := cmd_write_page } else s) := by
  unfold usbFunctionWrite
  rw [show (16777216 : Nat) = 16777215 + 1 from rfl]
  unfold usbFunctionWriteLoop
  simp only [ge_iff_le, h, if_true]
  split_ifs <;> simp_all

theorem usbFunctionSetup_transfer (cfg : Config) (s : State) (a : Nat) :
    usbFunctionSetup cfg s ⟨1, a⟩
      = (USB_NO_MSG,
          { boot_page_fill_clear { s with idlePolls := s.idlePolls % 256 } with
            currentAddress := a % 65536 }) := by
  simp [usbFunctionSetup, cmd_device_info, cmd_transfer_page]

/-! ## Page arithmetic -/

theorem aligned_add_mod (P a x : Nat) (ha : a % P = 0) : (a + x) % P = x % P := by
  rw [Nat.add_mod, ha, Nat.zero_add, Nat.mod_mod]

theorem aligned_add_div (P a x : Nat) (ha : a % P = 0) (hx : x < P) :
    (a + x) / P = a / P := by
  have hP : 0 < P := by omega
  obtain ⟨k, rfl⟩ := Nat.dvd_of_mod_eq_zero ha
  rw [Nat.mul_add_div hP, Nat.mul_div_cancel_left _ hP, Nat.div_eq_of_lt hx, Nat.add_zero]

theorem aligned_add_le (P a B : Nat) (ha : a % P = 0) (hB : B % P = 0) (h : a < B) :
    a + P ≤ B := by
  obtain ⟨k, rfl⟩ := Nat.dvd_of_mod_eq_zero ha
  obtain ⟨m, rfl⟩ := Nat.dvd_of_mod_eq_zero hB
  have hkm : k < m := Nat.lt_of_mul_lt_mul_left h
  calc P * k + P = P * (k + 1) := by ring
    _ ≤ P * m := Nat.mul_le_mul_left P hkm

theorem aligned_div_eq (P a y : Nat) (ha : a % P = 0) (hP : 0 < P) :
    y / P = a / P ↔ a ≤ y ∧ y < a + P := by
  obtain ⟨k, rfl⟩ := Nat.dvd_of_mod_eq_zero ha
  rw [Nat.mul_div_cancel_left _ hP]
  constructor
  · intro h
    have h1 : k ≤ y / P := by omega
    have h2 : y / P < k + 1 := by omega
    rw [Nat.le_div_iff_mul_le hP] at h1
    rw [Nat.div_lt_iff_lt_mul hP] at h2
    constructor
    · calc P * k = k * P := by ring
        _ ≤ y := h1
    · calc y < (k + 1) * P := h2
        _ = P * k + P := by ring
  · rintro ⟨h1, h2⟩
    have h3 : k ≤ y / P := by
      rw [Nat.le_div_iff_mul_le hP]
      calc k * P = P * k := by ring
        _ ≤ y := h1
    have h4 : y / P < k + 1 := by
      rw [Nat.div_lt_iff_lt_mul hP]
      calc y < P * k + P := h2
        _ = (k + 1) * P := by ring
    omega

theorem lowByte_mod (P c : Nat) (hP : P ∣ 256) : (c % 256) % P = c % P :=
  Nat.mod_mod_of_dvd c hP

theorem pow_two_dvd_256 (e : Nat) (he : e ≤ 8) : 2 ^ e ∣ 256 := by
  have : (256 : Nat) = 2 ^ 8 := by norm_num
  rw [this]
  exact Nat.pow_dvd_pow 2 he

theorem aligned_even (P a : Nat) (hP : P % 2 = 0) (ha : a % P = 0) : a % 2 = 0 := by
  obtain ⟨k, rfl⟩ := Nat.dvd_of_mod_eq_zero ha
  obtain ⟨m, rfl⟩ := Nat.dvd_of_mod_eq_zero hP
  rw [Nat.mul_assoc]
  exact Nat.mul_mod_right 2 _

theorem aligned_slot (P a i : Nat) (ha : a % P = 0) (hi : 2 * i < P) :
    ((a + 2 * i) % P) / 2 = i := by
  rw [aligned_add_mod P a _ ha, Nat.mod_eq_of_lt hi]
  omega

/-! ## One data-phase call inside a page -/

theorem usbFunctionWrite_chunk (cfg : Config) (s : State) (data : Nat → Nat) (a j : Nat)
    (hBL : cfg.BOOTLOADER_ADDRESS ≤ 65534) (h256 : cfg.SPM_PAGESIZE ∣ 256)
    (ha : a % cfg.SPM_PAGESIZE = 0) (hcur : s.currentAddress = a + 8 * j)
    (hj : 8 * (j + 1) ≤ cfg.SPM_PAGESIZE)
    (haP : a + cfg.SPM_PAGESIZE ≤ cfg.BOOTLOADER_ADDRESS) :
    usbFunctionWrite cfg s data 8
      = some (if 8 * (j + 1) = cfg.SPM_PAGESIZE then 1 else 0,
              if 8 * (j + 1) = cfg.SPM_PAGESIZE
              then { writeWords cfg s (fun i => readWord data (2 * i)) 4 with
                      command := cmd_write_page }
              else writeWords cfg s (fun i => readWord data (2 * i)) 4) := by
  rw [usbFunctionWrite_eq cfg s data 8 hBL (by decide) (by decide) (by decide)]
  have hmin : min (8 / 2) ((cfg.BOOTLOADER_ADDRESS - s.currentAddress + 1) / 2) = 4 := by
    rw [hcur]; omega
  rw [hmin]
  have hc : (writeWords cfg s (fun i => readWord data (2 * i)) 4).currentAddress
      = a + (8 * j + 8) := by
    rw [writeWords_currentAddress cfg s _ 4 (by omega), hcur]; omega
  have hiff : ((writeWords cfg s (fun i => readWord data (2 * i)) 4).currentAddress % 256)
        % cfg.SPM_PAGESIZE = 0 ↔ 8 * (j + 1) = cfg.SPM_PAGESIZE := by
    rw [hc, lowByte_mod _ _ h256, aligned_add_mod _ _ _ ha]
    constructor
    · intro h
      by_contra hne
      have hlt : 8 * j + 8 < cfg.SPM_PAGESIZE := by omega
      rw [Nat.mod_eq_of_lt hlt] at h
      omega
    · intro h
      have : 8 * j + 8 = cfg.SPM_PAGESIZE := by omega
      rw [this, Nat.mod_self]
  by_cases hl : 8 * (j + 1) = cfg.SPM_PAGESIZE
  · simp only [hiff.mpr hl, hl, if_true]
  · have := mt hiff.mp hl
    simp only [this, hl, if_false]

/-! ## Contents of the page buffer and of flash after a page went through -/

theorem relocatedWord_plain (cfg : Config) (s : State) (w : Nat)
    (h1 : s.currentAddress ≠ cfg.RESET_VECTOR_OFFSET * 2)
    (h2 : s.currentAddress + cfg.TINYVECTOR_RESET_OFFSET ≠ cfg.BOOTLOADER_ADDRESS)
    (h3 : ¬ ((!cfg.OSCCAL_RESTORE && cfg.OSCCAL_16_5MHz) = true
            ∧ s.currentAddress + cfg.TINYVECTOR_OSCCAL_OFFSET = cfg.BOOTLOADER_ADDRESS)) :
    relocatedWord cfg s w = w := by
  have h2i : ¬ ((s.currentAddress : Int)
      = (cfg.BOOTLOADER_ADDRESS : Int) - (cfg.TINYVECTOR_RESET_OFFSET : Int)) := by omega
  have h3i : ¬ ((!cfg.OSCCAL_RESTORE && cfg.OSCCAL_16_5MHz) = true ∧ (s.currentAddress : Int)
      = (cfg.BOOTLOADER_ADDRESS : Int) - (cfg.TINYVECTOR_OSCCAL_OFFSET : Int)) := by
    rintro ⟨hx, hy⟩
    exact h3 ⟨hx, by omega⟩
  simp only [relocatedWord, h1, h2i, h3i, decide_False, if_false, Bool.false_eq_true]

theorem writeWords_pageBuffer (cfg : Config) (s : State) (ws : Nat → Nat) (a : Nat)
    (ha : a % cfg.SPM_PAGESIZE = 0) (hcur : s.currentAddress = a) :
    ∀ n, 2 * n ≤ cfg.SPM_PAGESIZE → a + 2 * n ≤ 65536 → ∀ i, i < n →
      (writeWords cfg s ws n).pageBuffer i
        = relocatedWord cfg (writeWords cfg s ws i) (ws i) := by
  intro n
  induction n with
  | zero => intro _ _ i hi; omega
  | succ k ih =>
    intro h1 h2 i hi
    simp only [writeWords, writeWordToPageBuffer_pageBuffer]
    rw [writeWords_currentAddress cfg s ws k (by omega), hcur,
      aligned_slot _ a k ha (by omega)]
    by_cases hik : i = k
    · subst hik; simp
    · simp only [hik, if_false]
      exact ih (by omega) (by omega) i (by omega)

theorem writeFlashPage_flash_inside (cfg : Config) (t : State) (a i : Nat)
    (hP2 : cfg.SPM_PAGESIZE % 2 = 0) (ha : a % cfg.SPM_PAGESIZE = 0)
    (hcur : t.currentAddress = a + cfg.SPM_PAGESIZE) (h16 : a + cfg.SPM_PAGESIZE ≤ 65535)
    (hi : 2 * i < cfg.SPM_PAGESIZE) :
    (writeFlashPage cfg t).flash (a / 2 + i) = t.pageBuffer i := by
  have hae := aligned_even _ a hP2 ha
  have h2w : 2 * (a / 2 + i) = a + 2 * i := by omega
  have hc : (a + cfg.SPM_PAGESIZE + 65536 - 2) % 65536 = a + (cfg.SPM_PAGESIZE - 2) := by omega
  simp only [writeFlashPage, boot_page_write, hcur, h2w, hc]
  rw [aligned_add_div _ a _ ha hi, aligned_add_div _ a _ ha (by omega),
    aligned_add_mod _ a _ ha, Nat.mod_eq_of_lt hi]
  simp

theorem writeFlashPage_flash_outside (cfg : Config) (t : State) (a w : Nat)
    (ha : a % cfg.SPM_PAGESIZE = 0) (hP : 2 ≤ cfg.SPM_PAGESIZE)
    (hcur : t.currentAddress = a + cfg.SPM_PAGESIZE) (h16 : a + cfg.SPM_PAGESIZE ≤ 65535)
    (hw : ¬ (a ≤ 2 * w ∧ 2 * w < a + cfg.SPM_PAGESIZE)) :
    (writeFlashPage cfg t).flash w = t.flash w := by
  have hc : (a + cfg.SPM_PAGESIZE + 65536 - 2) % 65536 = a + (cfg.SPM_PAGESIZE - 2) := by omega
  simp only [writeFlashPage, boot_page_write, hcur, hc]
  rw [aligned_add_div _ a _ ha (by omega)]
  have := (aligned_div_eq cfg.SPM_PAGESIZE a (2 * w) ha (by omega)).not.mpr hw
  simp [this]

theorem readWord_shift (bytes : Nat → Nat) (j i : Nat) :
    readWord (fun k => bytes (8 * j + k)) (2 * i) = readWord bytes (2 * (4 * j + i)) := by
  simp only [readWord]
  have h1 : 8 * j + 2 * i = 2 * (4 * j + i) := by omega
  have h2 : 8 * j + (2 * i + 1) = 2 * (4 * j + i) + 1 := by omega
  rw [h1, h2]

/-- One more data-phase call, in terms of the words staged since the transfer began. -/
theorem dataPhase_step (cfg : Config) (s0 : State) (bytes : Nat → Nat) (a j : Nat)
    (rs : List Nat)
    (hBL : cfg.BOOTLOADER_ADDRESS ≤ 65534) (h256 : cfg.SPM_PAGESIZE ∣ 256)
    (ha : a % cfg.SPM_PAGESIZE = 0) (hcur : s0.currentAddress = a)
    (hj : 8 * (j + 1) ≤ cfg.SPM_PAGESIZE)
    (haP : a + cfg.SPM_PAGESIZE ≤ cfg.BOOTLOADER_ADDRESS)
    (hprev : dataPhase cfg s0 bytes j
      = some (rs, writeWords cfg s0 (fun i => readWord bytes (2 * i)) (4 * j))) :
    dataPhase cfg s0 bytes (j + 1)
      = some (rs ++ [if 8 * (j + 1) = cfg.SPM_PAGESIZE then 1 else 0],
          if 8 * (j + 1) = cfg.SPM_PAGESIZE
          then { writeWords cfg s0 (fun i => readWord bytes (2 * i)) (4 * (j + 1)) with
                  command := cmd_write_page }
          else writeWords cfg s0 (fun i => readWord bytes (2 * i)) (4 * (j + 1))) := by
  have hc : (writeWords cfg s0 (fun i => readWord bytes (2 * i)) (4 * j)).currentAddress
      = a + 8 * j := by
    rw [writeWords_currentAddress cfg s0 _ (4 * j) (by omega), hcur]; omega
  have hw : writeWords cfg (writeWords cfg s0 (fun i => readWord bytes (2 * i)) (4 * j))
        (fun i => readWord (fun k => bytes (8 * j + k)) (2 * i)) 4
      = writeWords cfg s0 (fun i => readWord bytes (2 * i)) (4 * (j + 1)) := by
    rw [show 4 * (j + 1) = 4 * j + 4 by ring, writeWords_add]
    congr 1
    funext i
    exact readWord_shift bytes j i
  simp only [dataPhase, hprev]
  rw [usbFunctionWrite_chunk cfg _ _ a j hBL h256 ha hc hj haP, hw]

theorem dataPhase_inner (cfg : Config) (s0 : State) (bytes : Nat → Nat) (a : Nat)
    (hBL : cfg.BOOTLOADER_ADDRESS ≤ 65534) (h256 : cfg.SPM_PAGESIZE ∣ 256)
    (ha : a % cfg.SPM_PAGESIZE = 0) (hcur : s0.currentAddress = a)
    (haP : a + cfg.SPM_PAGESIZE ≤ cfg.BOOTLOADER_ADDRESS) :
    ∀ j, 8 * j < cfg.SPM_PAGESIZE →
      dataPhase cfg s0 bytes j
        = some (List.replicate j 0,
            writeWords cfg s0 (fun i => readWord bytes (2 * i)) (4 * j)) := by
  intro j
  induction j with
  | zero => intro _; rfl
  | succ k ih =>
    intro hk
    rw [dataPhase_step cfg s0 bytes a k _ hBL h256 ha hcur (by omega) haP (ih (by omega))]
    have hne : ¬ (8 * (k + 1) = cfg.SPM_PAGESIZE) := by omega
    simp only [hne, if_false, List.replicate_succ']

theorem dataPhase_full (cfg : Config) (s0 : State) (bytes : Nat → Nat) (a : Nat)
    (hBL : cfg.BOOTLOADER_ADDRESS ≤ 65534) (h256 : cfg.SPM_PAGESIZE ∣ 256)
    (h8 : 8 ∣ cfg.SPM_PAGESIZE) (hpos : 0 < cfg.SPM_PAGESIZE)
    (ha : a % cfg.SPM_PAGESIZE = 0) (hcur : s0.currentAddress = a)
    (haP : a + cfg.SPM_PAGESIZE ≤ cfg.BOOTLOADER_ADDRESS) :
    dataPhase cfg s0 bytes (cfg.SPM_PAGESIZE / 8)
      = some (List.replicate (cfg.SPM_PAGESIZE / 8 - 1) 0 ++ [1],
          { writeWords cfg s0 (fun i => readWord bytes (2 * i)) (cfg.SPM_PAGESIZE / 2) with
            command := cmd_write_page }) := by
  obtain ⟨m, hm⟩ := h8
  have hm1 : 1 ≤ m := by omega
  have hdiv : cfg.SPM_PAGESIZE / 8 = (m - 1) + 1 := by omega
  have hhalf : cfg.SPM_PAGESIZE / 2 = 4 * ((m - 1) + 1) := by omega
  rw [hdiv, hhalf,
    dataPhase_step cfg s0 bytes a (m - 1) _ hBL h256 ha hcur (by omega) haP
      (dataPhase_inner cfg s0 bytes a hBL h256 ha hcur haP (m - 1) (by omega))]
  have he : 8 * (m - 1 + 1) = cfg.SPM_PAGESIZE := by omega
  simp only [he, if_true, Nat.add_sub_cancel]

theorem pageSize_facts (P : Nat) (hP : ∃ e, 3 ≤ e ∧ e ≤ 8 ∧ P = 2 ^ e) :
    P ∣ 256 ∧ 8 ∣ P ∧ P % 2 = 0 ∧ 8 ≤ P ∧ P ≤ 256 := by
  obtain ⟨e, h3, h8, rfl⟩ := hP
  have hd : 2 ^ e ∣ 256 := pow_two_dvd_256 e h8
  have h8d : 8 ∣ 2 ^ e := by
    have : (8 : Nat) = 2 ^ 3 := by norm_num
    rw [this]
    exact Nat.pow_dvd_pow 2 h3
  have hle : 2 ^ e ≤ 256 := Nat.le_of_dvd (by norm_num) hd
  have hpos : 0 < 2 ^ e := pow_pos (by norm_num) e
  have hge : 8 ≤ 2 ^ e := Nat.le_of_dvd hpos h8d
  refine ⟨hd, h8d, ?_, hge, hle⟩
  obtain ⟨m, hm⟩ := h8d
  omega

theorem dispatch_write_page (cfg : Config) (s : State) (h : s.command = cmd_write_page) :
    dispatch cfg s = some (writeFlashPage cfg s) := by
  unfold dispatch
  rw [h]
  simp [cmd_write_page, cmd_erase_application]

theorem writeFlashPage_spmLog (cfg : Config) (s : State) :
    (writeFlashPage cfg s).spmLog
      = s.spmLog ++ [SpmOp.write ((s.currentAddress + 65536 - 2) % 65536)] := rfl

theorem tinyvectorWord_eq (cfg : Config) (v : Nat)
    (h : cfg.BOOTLOADER_ADDRESS ≤ cfg.FLASHEND + 1) :
    tinyvectorWord cfg v
      = (v + (cfg.FLASHEND + 1 - cfg.BOOTLOADER_ADDRESS) / 2 + 2 + cfg.RESET_VECTOR_OFFSET)
          % 65536 := by
  unfold tinyvectorWord
  rw [Int.tdiv_eq_ediv (by omega) (by norm_num)]
  omega

theorem rjmpTarget_eq (F pc word : Nat) (hF : F ∣ 4096) :
    rjmpTarget F pc word = (pc + 1 + word % 4096) % F := by
  obtain ⟨m, hm⟩ := hF
  have hcast : ((pc : Int) + 1 + ((word % 4096 : Nat) : Int))
      = ((pc + 1 + word % 4096 : Nat) : Int) := by push_cast; ring
  unfold rjmpTarget signed12
  split_ifs
  · rw [hcast, ← Int.ofNat_emod, Int.toNat_ofNat]
  · have h4096 : (4096 : Int) = (F : Int) * (m : Int) := by exact_mod_cast hm
    have : (pc : Int) + 1 + (((word % 4096 : Nat) : Int) - 4096)
        = ((pc + 1 + word % 4096 : Nat) : Int) + (F : Int) * (-(m : Int)) := by
      rw [← hcast, h4096]; ring
    rw [this, Int.add_mul_emod_self_left, ← Int.ofNat_emod, Int.toNat_ofNat]

/-! ## The erase loop -/

/-- The erase loop started at `n` pages erases them from the top page down to page 0. -/
theorem eraseLoop_eq (cfg : Config) (hP : 0 < cfg.SPM_PAGESIZE) :
    ∀ (n fuel : Nat) (s : State), n < fuel → n * cfg.SPM_PAGESIZE < 65536 →
      eraseLoop cfg fuel (n * cfg.SPM_PAGESIZE) s
        = some { s with
            flash := fun w => if 2 * w < n * cfg.SPM_PAGESIZE then 0xFFFF else s.flash w
            spmLog := s.spmLog ++ (List.range n).reverse.map
              (fun p => SpmOp.erase (p * cfg.SPM_PAGESIZE)) } := by
  intro n
  induction n with
  | zero =>
    intro fuel s hf _
    obtain ⟨f, rfl⟩ : ∃ f, fuel = f + 1 := ⟨fuel - 1, by omega⟩
    simp [eraseLoop]
  | succ k ih =>
    intro fuel s hf h16
    obtain ⟨f, rfl⟩ : ∃ f, fuel = f + 1 := ⟨fuel - 1, by omega⟩
    have hk : (k + 1) * cfg.SPM_PAGESIZE = k * cfg.SPM_PAGESIZE + cfg.SPM_PAGESIZE := by ring
    have hne : (k + 1) * cfg.SPM_PAGESIZE ≠ 0 := by omega
    have hptr : ((k + 1) * cfg.SPM_PAGESIZE + 65536 - cfg.SPM_PAGESIZE % 65536) % 65536
        = k * cfg.SPM_PAGESIZE := by omega
    unfold eraseLoop
    simp only [hne, ne_eq, not_false_eq_true, if_true, hptr]
    rw [ih f _ (by omega) (by omega)]
    congr 1
    ext w
    · rfl
    · rfl
    · rfl
    · rfl
    · rfl
    · simp only [boot_page_erase]
      have hmod : (k * cfg.SPM_PAGESIZE) % cfg.SPM_PAGESIZE = 0 := Nat.mul_mod_left _ _
      have hiff := aligned_div_eq cfg.SPM_PAGESIZE (k * cfg.SPM_PAGESIZE) (2 * w) hmod hP
      by_cases h1 : 2 * w < k * cfg.SPM_PAGESIZE
      · have h2 : 2 * w < (k + 1) * cfg.SPM_PAGESIZE := by omega
        simp [h1, h2]
      · by_cases h3 : 2 * w < (k + 1) * cfg.SPM_PAGESIZE
        · have := hiff.mpr ⟨by omega, by omega⟩
          simp [h1, h3, this]
        · have : ¬ (2 * w / cfg.SPM_PAGESIZE = k * cfg.SPM_PAGESIZE / cfg.SPM_PAGESIZE) := by
            intro h
            have := hiff.mp h
            omega
          simp [h1, h3, this]
    · rfl
    · rfl
    · simp [boot_page_erase, List.range_succ]
    · rfl

theorem writeFiller_eq (cfg : Config) : ∀ (n : Nat) (s : State),
    writeFiller cfg n s = writeWords cfg s (fun _ => 0xFFFF) n := by
  intro n
  induction n with
  | zero => intro s; rfl
  | succ k ih =>
    intro s
    rw [writeWords_succ_front]
    exact ih _

theorem eraseApplication_eq (cfg : Config) (s : State) (hP : 0 < cfg.SPM_PAGESIZE)
    (hBLP : cfg.BOOTLOADER_ADDRESS % cfg.SPM_PAGESIZE = 0)
    (hBL : cfg.BOOTLOADER_ADDRESS < 65536) :
    eraseApplication cfg s
      = some (writeFlashPage cfg (writeWords cfg
          { s with
            currentAddress := 0
            flash := fun w => if 2 * w < cfg.BOOTLOADER_ADDRESS then 0xFFFF else s.flash w
            spmLog := s.spmLog
              ++ (List.range (cfg.BOOTLOADER_ADDRESS / cfg.SPM_PAGESIZE)).reverse.map
                (fun p => SpmOp.erase (p * cfg.SPM_PAGESIZE)) }
          (fun _ => 0xFFFF) 8)) := by
  have hn : cfg.BOOTLOADER_ADDRESS / cfg.SPM_PAGESIZE * cfg.SPM_PAGESIZE
      = cfg.BOOTLOADER_ADDRESS := Nat.div_mul_cancel (Nat.dvd_of_mod_eq_zero hBLP)
  have hlt : cfg.BOOTLOADER_ADDRESS / cfg.SPM_PAGESIZE < 65537 := by
    have := Nat.div_le_self cfg.BOOTLOADER_ADDRESS cfg.SPM_PAGESIZE
    omega
  have h := eraseLoop_eq cfg hP (cfg.BOOTLOADER_ADDRESS / cfg.SPM_PAGESIZE) 65537 s hlt
    (by rw [hn]; exact hBL)
  rw [hn] at h
  unfold eraseApplication
  rw [Nat.mod_eq_of_lt hBL, h]
  simp only [writeFiller_eq]

theorem eraseApplication_spmLog (cfg : Config) (s : State) (hP : 0 < cfg.SPM_PAGESIZE)
    (hBLP : cfg.BOOTLOADER_ADDRESS % cfg.SPM_PAGESIZE = 0)
    (hBL : cfg.BOOTLOADER_ADDRESS < 65536) :
    ∃ s2 rest, eraseApplication cfg s = some s2
      ∧ s2.spmLog = s.spmLog
          ++ (List.range (cfg.BOOTLOADER_ADDRESS / cfg.SPM_PAGESIZE)).reverse.map
              (fun p => SpmOp.erase (p * cfg.SPM_PAGESIZE))
          ++ rest
      ∧ ∀ a, SpmOp.erase a ∉ rest := by
  have heq := eraseApplication_eq cfg s hP hBLP hBL
  obtain ⟨x0, hx0⟩ : ∃ x0 : State, x0 = { s with
      currentAddress := 0
      flash := fun w => if 2 * w < cfg.BOOTLOADER_ADDRESS then 0xFFFF else s.flash w
      spmLog := s.spmLog
        ++ (List.range (cfg.BOOTLOADER_ADDRESS / cfg.SPM_PAGESIZE)).reverse.map
          (fun p => SpmOp.erase (p * cfg.SPM_PAGESIZE)) } := ⟨_, rfl⟩
  rw [← hx0] at heq
  have hcur : x0.currentAddress = 0 := by rw [hx0]
  have hlog : x0.spmLog = s.spmLog
        ++ (List.range (cfg.BOOTLOADER_ADDRESS / cfg.SPM_PAGESIZE)).reverse.map
          (fun p => SpmOp.erase (p * cfg.SPM_PAGESIZE)) := by rw [hx0]
  refine ⟨_,
    (List.range 8).map (fun i => SpmOp.fill (x0.currentAddress + 2 * i)
        (relocatedWord cfg (writeWords cfg x0 (fun _ => 0xFFFF) i) 0xFFFF))
      ++ [SpmOp.write (((writeWords cfg x0 (fun _ => 0xFFFF) 8).currentAddress + 65536 - 2)
            % 65536)],
    heq, ?_, ?_⟩
  · rw [writeFlashPage_spmLog, writeWords_spmLog _ _ _ 8 (Or.inr (by omega)), hlog]
    simp only [List.append_assoc]
  · intro a
    simp

theorem range_reverse_two (n : Nat) (h : 2 ≤ n) :
    ∃ mid : List Nat, (List.range n).reverse = (n - 1) :: (mid ++ [0]) := by
  obtain ⟨m, rfl⟩ : ∃ m, n = m + 2 := ⟨n - 2, by omega⟩
  refine ⟨((List.range m).map Nat.succ).reverse, ?_⟩
  rw [List.range_succ, List.reverse_append, List.range_succ_eq_map]
  simp

theorem relocatedWord_reset (cfg : Config) (s : State) (w : Nat)
    (h1 : s.currentAddress = cfg.RESET_VECTOR_OFFSET * 2)
    (h2 : s.currentAddress + cfg.TINYVECTOR_RESET_OFFSET ≠ cfg.BOOTLOADER_ADDRESS)
    (h3 : ¬ ((!cfg.OSCCAL_RESTORE && cfg.OSCCAL_16_5MHz) = true
            ∧ s.currentAddress + cfg.TINYVECTOR_OSCCAL_OFFSET = cfg.BOOTLOADER_ADDRESS)) :
    relocatedWord cfg s w = (0xC000 + cfg.BOOTLOADER_ADDRESS / 2 - 1) % 65536 := by
  have h2i : ¬ ((s.currentAddress : Int)
      = (cfg.BOOTLOADER_ADDRESS : Int) - (cfg.TINYVECTOR_RESET_OFFSET : Int)) := by omega
  have h3i : ¬ ((!cfg.OSCCAL_RESTORE && cfg.OSCCAL_16_5MHz) = true ∧ (s.currentAddress : Int)
      = (cfg.BOOTLOADER_ADDRESS : Int) - (cfg.TINYVECTOR_OSCCAL_OFFSET : Int)) := by
    rintro ⟨hx, hy⟩
    exact h3 ⟨hx, by omega⟩
  unfold relocatedWord
  simp only [h2i, h3i, if_false]
  simp [h1]

/-! ## The scheduler -/

theorem usbFunctionWriteLoop_leaveCalls (cfg : Config) (data : Nat → Nat) :
    ∀ (fuel : Nat) (s s1 : State) (pos len : Nat),
      usbFunctionWriteLoop cfg fuel s data pos len = some s1 → s1.leaveCalls = s.leaveCalls := by
  intro fuel
  induction fuel with
  | zero => intro s s1 pos len h; simp [usbFunctionWriteLoop] at h
  | succ f ih =>
    intro s s1 pos len h
    unfold usbFunctionWriteLoop at h
    simp only at h
    split_ifs at h
    · cases h; rfl
    · rw [ih _ _ _ _ h]; rfl
    · cases h; rfl

theorem usbFunctionWrite_leaveCalls (cfg : Config) (s : State) (data : Nat → Nat) (L : Nat)
    (r : Nat × State) (h : usbFunctionWrite cfg s data L = some r) :
    r.2.leaveCalls = s.leaveCalls := by
  unfold usbFunctionWrite at h
  split at h
  · cases h
  · next s1 hs1 =>
    have := usbFunctionWriteLoop_leaveCalls cfg data _ _ _ _ _ hs1
    cases h
    simp only
    split_ifs <;> exact this

theorem usbFunctionSetup_leaveCalls (cfg : Config) (s : State) (rq : usbRequest) :
    (usbFunctionSetup cfg s rq).2.leaveCalls = s.leaveCalls := by
  unfold usbFunctionSetup
  simp only
  split_ifs <;> rfl

theorem eraseLoop_leaveCalls (cfg : Config) :
    ∀ (fuel ptr : Nat) (s s1 : State),
      eraseLoop cfg fuel ptr s = some s1 → s1.leaveCalls = s.leaveCalls := by
  intro fuel
  induction fuel with
  | zero => intro ptr s s1 h; simp [eraseLoop] at h
  | succ f ih =>
    intro ptr s s1 h
    unfold eraseLoop at h
    simp only at h
    split_ifs at h
    · rw [ih _ _ _ h]; rfl
    · cases h; rfl

theorem writeFiller_leaveCalls (cfg : Config) : ∀ (n : Nat) (s : State),
    (writeFiller cfg n s).leaveCalls = s.leaveCalls := by
  intro n
  induction n with
  | zero => intro s; rfl
  | succ k ih => intro s; rw [writeFiller, ih]; rfl

theorem writeFlashPage_leaveCalls (cfg : Config) (s : State) :
    (writeFlashPage cfg s).leaveCalls = s.leaveCalls := rfl

theorem eraseApplication_leaveCalls (cfg : Config) (s s1 : State)
    (h : eraseApplication cfg s = some s1) : s1.leaveCalls = s.leaveCalls := by
  unfold eraseApplication at h
  split at h
  · cases h
  · next s0 hs0 =>
    have := eraseLoop_leaveCalls cfg _ _ _ _ hs0
    cases h
    rw [writeFlashPage_leaveCalls, writeFiller_leaveCalls]
    exact this

theorem dispatch_leaveCalls (cfg : Config) (s s1 : State) (h : dispatch cfg s = some s1) :
    s1.leaveCalls = s.leaveCalls := by
  unfold dispatch at h
  split_ifs at h
  · exact eraseApplication_leaveCalls cfg _ _ h
  · cases h; rfl
  · cases h; rfl

theorem usbPoll_leaveCalls (cfg : Config) (s s1 : State) (ev : UsbEvent)
    (h : usbPoll cfg s ev = some s1) : s1.leaveCalls = s.leaveCalls := by
  cases ev with
  | idle => simp only [usbPoll] at h; cases h; rfl
  | setup rq =>
    simp only [usbPoll] at h
    cases h
    exact usbFunctionSetup_leaveCalls cfg s rq
  | write data len =>
    simp only [usbPoll] at h
    split at h
    · cases h
    · next r hr =>
      cases h
      exact usbFunctionWrite_leaveCalls cfg s data len r hr

theorem tick_result (cfg : Config) (s s1 : State) (ev : UsbEvent) (cont : Bool)
    (h : tick cfg s ev = some (s1, cont)) :
    cont = loopCondition cfg s1 ∧ s1.leaveCalls = s.leaveCalls := by
  unfold tick at h
  split at h
  · cases h
  · next s0 hs0 =>
    have h0 := usbPoll_leaveCalls cfg _ _ _ hs0
    split_ifs at h
    · cases h
      exact ⟨rfl, h0⟩
    · split at h
      · cases h
      · next s2 hs2 =>
        have h2 := dispatch_leaveCalls cfg _ _ hs2
        cases h
        exact ⟨rfl, by rw [h2]; exact h0⟩

theorem loopCondition_false_iff (cfg : Config) (s : State) :
    loopCondition cfg s = false
      ↔ s.command = cmd_exit ∧ pgm_read_byte s (resetVectorHighByteAddress cfg) ≠ 0xFF := by
  simp [loopCondition]

theorem tick_exit_request (cfg : Config) (s : State) (idx : Nat) :
    tick cfg s (UsbEvent.setup ⟨cmd_exit, idx⟩)
      = some ({ s with command := cmd_exit, idlePolls := (s.idlePolls % 256 + 1) % 65536 },
              decide (pgm_read_byte s (resetVectorHighByteAddress cfg) = 0xFF)) := by
  simp [tick, usbPoll, usbFunctionSetup, dispatch, loopCondition, cmd_exit, cmd_local_nop,
    cmd_device_info, cmd_transfer_page, cmd_erase_application, cmd_write_page, pgm_read_byte]

/-! ## Page transfers seen from the main loop -/

theorem command_reset_eq (s : State) (h : s.command = 0) :
    ({ s with command := cmd_local_nop } : State) = s := by
  cases s
  simp only [cmd_local_nop] at *
  subst h
  rfl

theorem tick_transfer_request (cfg : Config) (s : State) (a : Nat) :
    tick cfg s (UsbEvent.setup ⟨cmd_transfer_page, a⟩)
      = some ({ boot_page_fill_clear { s with command := 0, idlePolls := s.idlePolls % 256 } with
                currentAddress := a % 65536 }, true) := by
  simp [tick, usbPoll, usbFunctionSetup, loopCondition, cmd_exit, cmd_local_nop,
    cmd_device_info, cmd_transfer_page, boot_page_fill_clear]

theorem tick_write_inner (cfg : Config) (st : State) (data : Nat → Nat) (a j : Nat)
    (hBL : cfg.BOOTLOADER_ADDRESS ≤ 65534) (h256 : cfg.SPM_PAGESIZE ∣ 256)
    (ha : a % cfg.SPM_PAGESIZE = 0) (hcmd : st.command = 0)
    (hcur : st.currentAddress = a + 8 * j)
    (hj : 8 * (j + 1) < cfg.SPM_PAGESIZE)
    (haP : a + cfg.SPM_PAGESIZE ≤ cfg.BOOTLOADER_ADDRESS) :
    tick cfg st (UsbEvent.write data 8)
      = some (writeWords cfg st (fun i => readWord data (2 * i)) 4, true) := by
  have hne : ¬ (8 * (j + 1) = cfg.SPM_PAGESIZE) := by omega
  unfold tick
  rw [command_reset_eq st hcmd]
  simp only [usbPoll]
  rw [usbFunctionWrite_chunk cfg st data a j hBL h256 ha hcur (by omega) haP]
  simp only [hne, if_false, writeWords_command, hcmd, cmd_local_nop, if_true, loopCondition,
    cmd_exit]
  simp

theorem tick_write_last (cfg : Config) (st : State) (data : Nat → Nat) (a j : Nat)
    (hBL : cfg.BOOTLOADER_ADDRESS ≤ 65534) (h256 : cfg.SPM_PAGESIZE ∣ 256)
    (ha : a % cfg.SPM_PAGESIZE = 0) (hcmd : st.command = 0)
    (hcur : st.currentAddress = a + 8 * j)
    (hj : 8 * (j + 1) = cfg.SPM_PAGESIZE)
    (haP : a + cfg.SPM_PAGESIZE ≤ cfg.BOOTLOADER_ADDRESS) :
    tick cfg st (UsbEvent.write data 8)
      = some (writeFlashPage cfg
          { writeWords cfg st (fun i => readWord data (2 * i)) 4 with
            command := cmd_write_page
            idlePolls := ((writeWords cfg st (fun i => readWord data (2 * i)) 4).idlePolls + 1)
              % 65536 }, true) := by
  unfold tick
  rw [command_reset_eq st hcmd]
  simp only [usbPoll]
  rw [usbFunctionWrite_chunk cfg st data a j hBL h256 ha hcur (by omega) haP]
  simp only [hj, if_true]
  simp [cmd_write_page, cmd_local_nop, dispatch, cmd_erase_application, loopCondition, cmd_exit,
    writeFlashPage, boot_page_write]

theorem writeWords_chunk (cfg : Config) (s0 : State) (bytes : Nat → Nat) (j : Nat) :
    writeWords cfg (writeWords cfg s0 (fun i => readWord bytes (2 * i)) (4 * j))
        (fun i => readWord (fun k => bytes (8 * j + k)) (2 * i)) 4
      = writeWords cfg s0 (fun i => readWord bytes (2 * i)) (4 * (j + 1)) := by
  rw [show 4 * (j + 1) = 4 * j + 4 by ring, writeWords_add]
  congr 1
  funext i
  exact readWord_shift bytes j i

theorem mainLoop_cons_continue (cfg : Config) (s s1 : State) (ev : UsbEvent)
    (evs : List UsbEvent) (h : tick cfg s ev = some (s1, true)) :
    mainLoop cfg s (ev :: evs) = mainLoop cfg s1 evs := by
  simp only [mainLoop, h]

/-- The data packets of a page, fed to the main loop one per tick, end in the commit of the
page; the loop keeps running. -/
theorem mainLoop_writeEvents (cfg : Config) (s0 : State) (bytes : Nat → Nat) (a : Nat)
    (rest : List UsbEvent)
    (hBL : cfg.BOOTLOADER_ADDRESS ≤ 65534) (h256 : cfg.SPM_PAGESIZE ∣ 256)
    (ha : a % cfg.SPM_PAGESIZE = 0) (hcmd : s0.command = 0) (hcur : s0.currentAddress = a)
    (haP : a + cfg.SPM_PAGESIZE ≤ cfg.BOOTLOADER_ADDRESS) :
    ∀ k j, 8 * (j + k) = cfg.SPM_PAGESIZE → 1 ≤ k →
      mainLoop cfg (writeWords cfg s0 (fun i => readWord bytes (2 * i)) (4 * j))
          (writeEvents bytes j k ++ rest)
        = mainLoop cfg
            (writeFlashPage cfg
              { writeWords cfg s0 (fun i => readWord bytes (2 * i)) (cfg.SPM_PAGESIZE / 2) with
                command := cmd_write_page
                idlePolls :=
                  ((writeWords cfg s0 (fun i => readWord bytes (2 * i))
                    (cfg.SPM_PAGESIZE / 2)).idlePolls + 1) % 65536 })
            rest := by
  intro k
  induction k with
  | zero => intro j _ h; omega
  | succ m ih =>
    intro j hjk _
    have hc : (writeWords cfg s0 (fun i => readWord bytes (2 * i)) (4 * j)).currentAddress
        = a + 8 * j := by
      rw [writeWords_currentAddress cfg s0 _ (4 * j) (Or.inr (by omega)), hcur]; omega
    have hcm : (writeWords cfg s0 (fun i => readWord bytes (2 * i)) (4 * j)).command = 0 := by
      rw [writeWords_command, hcmd]
    by_cases hm : m = 0
    · subst hm
      have hlast : 8 * (j + 1) = cfg.SPM_PAGESIZE := by omega
      have hhalf : cfg.SPM_PAGESIZE / 2 = 4 * (j + 1) := by omega
      simp only [writeEvents, List.cons_append, List.nil_append]
      rw [mainLoop_cons_continue cfg _ _ _ _
        (tick_write_last cfg _ _ a j hBL h256 ha hcm hc hlast haP), writeWords_chunk, hhalf]
    · have hin : 8 * (j + 1) < cfg.SPM_PAGESIZE := by omega
      simp only [writeEvents, List.cons_append]
      rw [mainLoop_cons_continue cfg _ _ _ _
        (tick_write_inner cfg _ _ a j hBL h256 ha hcm hc hin haP), writeWords_chunk]
      exact ih (j + 1) (by omega) (by omega)

/-- A whole page transfer, fed to the main loop. -/
theorem mainLoop_pageEvents (cfg : Config) (s : State) (bytes : Nat → Nat) (a : Nat)
    (rest : List UsbEvent)
    (hBL : cfg.BOOTLOADER_ADDRESS ≤ 65534) (h256 : cfg.SPM_PAGESIZE ∣ 256)
    (h8 : 8 ∣ cfg.SPM_PAGESIZE) (hpos : 0 < cfg.SPM_PAGESIZE)
    (ha : a % cfg.SPM_PAGESIZE = 0)
    (haP : a + cfg.SPM_PAGESIZE ≤ cfg.BOOTLOADER_ADDRESS) :
    mainLoop cfg s (pageEvents cfg a bytes ++ rest)
      = mainLoop cfg
          (writeFlashPage cfg
            { writeWords cfg
                { boot_page_fill_clear { s with command := 0, idlePolls := s.idlePolls % 256 }
                  with currentAddress := a }
                (fun i => readWord bytes (2 * i)) (cfg.SPM_PAGESIZE / 2) with
              command := cmd_write_page
              idlePolls :=
                ((writeWords cfg
                  { boot_page_fill_clear { s with command := 0, idlePolls := s.idlePolls % 256 }
                    with currentAddress := a }
                  (fun i => readWord bytes (2 * i)) (cfg.SPM_PAGESIZE / 2)).idlePolls + 1)
                  % 65536 })
          rest := by
  obtain ⟨m, hm⟩ := h8
  have ha16 : a % 65536 = a := by omega
  simp only [pageEvents, List.cons_append]
  rw [mainLoop_cons_continue cfg _ _ _ _ (tick_transfer_request cfg s a), ha16]
  exact mainLoop_writeEvents cfg _ bytes a rest hBL h256 ha rfl rfl haP
    (cfg.SPM_PAGESIZE / 8) 0 (by omega) (by omega)

theorem writeWords_vectorTemp_above (cfg : Config) (s : State) (ws : Nat → Nat) (n : Nat)
    (h : cfg.RESET_VECTOR_OFFSET * 2 < s.currentAddress)
    (h16 : n = 0 ∨ s.currentAddress + 2 * n ≤ 65536) :
    (writeWords cfg s ws n).vectorTemp = s.vectorTemp := by
  induction n with
  | zero => rfl
  | succ k ih =>
    simp only [writeWords, writeWordToPageBuffer_vectorTemp]
    rw [writeWords_currentAddress cfg s ws k (by omega), if_neg (by omega)]
    exact ih (by omega)

theorem writeWords_vectorTemp_at (cfg : Config) (s : State) (ws : Nat → Nat) (n : Nat)
    (h : s.currentAddress = cfg.RESET_VECTOR_OFFSET * 2) (hn : 1 ≤ n)
    (h16 : s.currentAddress + 2 * n ≤ 65536) :
    (writeWords cfg s ws n).vectorTemp = ws 0 := by
  induction n with
  | zero => omega
  | succ k ih =>
    simp only [writeWords, writeWordToPageBuffer_vectorTemp]
    rw [writeWords_currentAddress cfg s ws k (by omega)]
    by_cases hk : k = 0
    · subst hk
      simp [h, writeWords]
    · rw [if_neg (by omega)]
      exact ih (by omega) (by omega)

theorem relocatedWord_tiny (cfg : Config) (s : State) (w : Nat)
    (h1 : s.currentAddress + cfg.TINYVECTOR_RESET_OFFSET = cfg.BOOTLOADER_ADDRESS)
    (h2 : s.currentAddress ≠ cfg.RESET_VECTOR_OFFSET * 2) :
    relocatedWord cfg s w = tinyvectorWord cfg s.vectorTemp := by
  have h1i : (s.currentAddress : Int)
      = (cfg.BOOTLOADER_ADDRESS : Int) - (cfg.TINYVECTOR_RESET_OFFSET : Int) := by omega
  simp only [relocatedWord, h1i, h2, if_true, decide_False, if_false, Bool.false_eq_true]

/-- Effect of one page transfer on the saved reset vector and on flash. -/
theorem page_transfer (cfg : Config) (s : State) (bytes : Nat → Nat) (a : Nat)
    (hBL : cfg.BOOTLOADER_ADDRESS ≤ 65534) (h256 : cfg.SPM_PAGESIZE ∣ 256)
    (h8 : 8 ∣ cfg.SPM_PAGESIZE) (hpos : 0 < cfg.SPM_PAGESIZE)
    (ha : a % cfg.SPM_PAGESIZE = 0)
    (haP : a + cfg.SPM_PAGESIZE ≤ cfg.BOOTLOADER_ADDRESS) :
    ∃ sF : State,
      (∀ rest, mainLoop cfg s (pageEvents cfg a bytes ++ rest) = mainLoop cfg sF rest)
      ∧ sF.leaveCalls = s.leaveCalls
      ∧ (cfg.RESET_VECTOR_OFFSET * 2 < a → sF.vectorTemp = s.vectorTemp)
      ∧ (a = cfg.RESET_VECTOR_OFFSET * 2 → sF.vectorTemp = readWord bytes 0)
      ∧ (∀ w, ¬ (a ≤ 2 * w ∧ 2 * w < a + cfg.SPM_PAGESIZE) → sF.flash w = s.flash w)
      ∧ (∀ i, 2 * i < cfg.SPM_PAGESIZE → cfg.RESET_VECTOR_OFFSET * 2 < a →
          a + 2 * i + cfg.TINYVECTOR_RESET_OFFSET = cfg.BOOTLOADER_ADDRESS →
          sF.flash (a / 2 + i) = tinyvectorWord cfg s.vectorTemp) := by
  obtain ⟨m, hm⟩ := h8
  have hP2 : cfg.SPM_PAGESIZE % 2 = 0 := by omega
  have hhalf : 2 * (cfg.SPM_PAGESIZE / 2) = cfg.SPM_PAGESIZE := by omega
  obtain ⟨s0, hs0⟩ : ∃ s0 : State, s0 =
      { boot_page_fill_clear { s with command := 0, idlePolls := s.idlePolls % 256 }
        with currentAddress := a } := ⟨_, rfl⟩
  have hcur : s0.currentAddress = a := by rw [hs0]
  have hvt : s0.vectorTemp = s.vectorTemp := by rw [hs0]; rfl
  have hfl : s0.flash = s.flash := by rw [hs0]; rfl
  have hlc : s0.leaveCalls = s.leaveCalls := by rw [hs0]; rfl
  obtain ⟨t, ht⟩ : ∃ t : State, t =
      writeWords cfg s0 (fun i => readWord bytes (2 * i)) (cfg.SPM_PAGESIZE / 2) := ⟨_, rfl⟩
  have htcur : t.currentAddress = a + cfg.SPM_PAGESIZE := by
    rw [ht, writeWords_currentAddress cfg s0 _ _ (Or.inr (by omega)), hcur, hhalf]
  obtain ⟨u, hu⟩ : ∃ u : State, u =
      { t with command := cmd_write_page, idlePolls := (t.idlePolls + 1) % 65536 } := ⟨_, rfl⟩
  have hucur : u.currentAddress = a + cfg.SPM_PAGESIZE := by rw [hu]; exact htcur
  have hupb : u.pageBuffer = t.pageBuffer := by rw [hu]
  have hufl : u.flash = s.flash := by
    rw [hu]; show t.flash = _; rw [ht, writeWords_flash, hfl]
  have huvt : u.vectorTemp = t.vectorTemp := by rw [hu]
  refine ⟨writeFlashPage cfg u, ?_, ?_, ?_, ?_, ?_, ?_⟩
  · intro rest
    rw [hu, ht, hs0]
    exact mainLoop_pageEvents cfg s bytes a rest hBL h256 ⟨m, hm⟩ hpos ha haP
  · show u.leaveCalls = _
    rw [hu]; show t.leaveCalls = _
    rw [ht]
    have : ∀ n, (writeWords cfg s0 (fun i => readWord bytes (2 * i)) n).leaveCalls
        = s0.leaveCalls := by
      intro n
      induction n with
      | zero => rfl
      | succ k ih => exact ih
    rw [this, hlc]
  · intro h
    show u.vectorTemp = _
    rw [huvt, ht, writeWords_vectorTemp_above cfg s0 _ _ (by rw [hcur]; exact h)
      (Or.inr (by omega)), hvt]
  · intro h
    show u.vectorTemp = _
    rw [huvt, ht, writeWords_vectorTemp_at cfg s0 _ _ (by rw [hcur]; exact h) (by omega)
      (by omega)]
  · intro w hw
    rw [writeFlashPage_flash_outside cfg u a w ha (by omega) hucur (by omega) hw, hufl]
  · intro i hi hR hT
    have hci : (writeWords cfg s0 (fun i => readWord bytes (2 * i)) i).currentAddress
        = a + 2 * i := by
      rw [writeWords_currentAddress cfg s0 _ _ (Or.inr (by omega)), hcur]
    rw [writeFlashPage_flash_inside cfg u a i hP2 ha hucur (by omega) hi, hupb, ht,
      writeWords_pageBuffer cfg s0 _ a ha hcur _ (by omega) (by omega) i (by omega),
      relocatedWord_tiny cfg _ _ (by rw [hci]; exact hT) (by rw [hci]; omega),
      writeWords_vectorTemp_above cfg s0 _ _ (by rw [hcur]; exact hR) (Or.inr (by omega)), hvt]

theorem dispatch_erase (cfg : Config) (x : State)
    (hP : 0 < cfg.SPM_PAGESIZE)
    (hBLP : cfg.BOOTLOADER_ADDRESS % cfg.SPM_PAGESIZE = 0)
    (hBL : cfg.BOOTLOADER_ADDRESS < 65536)
    (hxc : x.command = cmd_erase_application) :
    ∃ y, dispatch cfg x = some y ∧ loopCondition cfg y = true := by
  refine ⟨_, by unfold dispatch; rw [if_pos hxc]; exact eraseApplication_eq cfg x hP hBLP hBL, ?_⟩
  simp [loopCondition, writeFlashPage, boot_page_write, writeWords_command, hxc,
    cmd_erase_application, cmd_exit]

theorem tick_erase_request (cfg : Config) (s : State) (idx : Nat)
    (hP : 0 < cfg.SPM_PAGESIZE)
    (hBLP : cfg.BOOTLOADER_ADDRESS % cfg.SPM_PAGESIZE = 0)
    (hBL : cfg.BOOTLOADER_ADDRESS < 65536) :
    ∃ sE, tick cfg s (UsbEvent.setup ⟨cmd_erase_application, idx⟩) = some (sE, true)
      ∧ sE.leaveCalls = s.leaveCalls := by
  have hsetup : usbFunctionSetup cfg { s with command := cmd_local_nop }
        ⟨cmd_erase_application, idx⟩
      = (0, { s with command := cmd_erase_application, idlePolls := s.idlePolls % 256 }) := by
    simp [usbFunctionSetup, cmd_erase_application, cmd_device_info, cmd_transfer_page]
  obtain ⟨y, hy, hl⟩ := dispatch_erase cfg
    { s with command := cmd_erase_application, idlePolls := (s.idlePolls % 256 + 1) % 65536 }
    hP hBLP hBL rfl
  have ht : tick cfg s (UsbEvent.setup ⟨cmd_erase_application, idx⟩) = some (y, true) := by
    unfold tick
    simp only [usbPoll, hsetup]
    rw [if_neg (by simp [cmd_erase_application, cmd_local_nop])]
    simp only [hy, hl]
  exact ⟨_, ht, (tick_result cfg s _ _ _ ht).2⟩

/-- Pages `p .. p + m - 1`, the last of them adjacent to the bootloader, transferred in
ascending order: the tinyvector slot ends up holding the re-encoded saved reset vector. -/
theorem image_tail (cfg : Config) (image : Nat → Nat) (v : Nat)
    (hBL : cfg.BOOTLOADER_ADDRESS ≤ 65534) (h256 : cfg.SPM_PAGESIZE ∣ 256)
    (h8 : 8 ∣ cfg.SPM_PAGESIZE) (hpos : 0 < cfg.SPM_PAGESIZE)
    (hRVO : cfg.RESET_VECTOR_OFFSET = 0) (hTRO : cfg.TINYVECTOR_RESET_OFFSET = 4) :
    ∀ (m p : Nat) (st : State), 1 ≤ m → 1 ≤ p →
      (p + m) * cfg.SPM_PAGESIZE = cfg.BOOTLOADER_ADDRESS → st.vectorTemp = v →
      ∃ sF, mainLoop cfg st (imageEvents cfg image p m) = some sF
        ∧ sF.flash ((cfg.BOOTLOADER_ADDRESS - 4) / 2) = tinyvectorWord cfg v
        ∧ sF.leaveCalls = st.leaveCalls := by
  obtain ⟨q, hq⟩ := h8
  intro m
  induction m with
  | zero => intro p st h; omega
  | succ k ih =>
    intro p st _ hp hsum hv
    have e1 : (p + (k + 1)) * cfg.SPM_PAGESIZE
        = p * cfg.SPM_PAGESIZE + k * cfg.SPM_PAGESIZE + cfg.SPM_PAGESIZE := by ring
    have e2 : 1 * cfg.SPM_PAGESIZE ≤ p * cfg.SPM_PAGESIZE := Nat.mul_le_mul_right _ hp
    have ha : (p * cfg.SPM_PAGESIZE) % cfg.SPM_PAGESIZE = 0 := Nat.mul_mod_left _ _
    obtain ⟨s1, hloop, hlc, hvt, _, _, htiny⟩ :=
      page_transfer cfg st (fun i => image (p * cfg.SPM_PAGESIZE + i)) (p * cfg.SPM_PAGESIZE)
        hBL h256 ⟨q, hq⟩ hpos ha (by omega)
    have hvt1 : s1.vectorTemp = v := by rw [hvt (by omega), hv]
    by_cases hk : k = 0
    · subst hk
      refine ⟨s1, ?_, ?_, hlc⟩
      · have := hloop []
        simp only [imageEvents]
        rw [this]
        rfl
      · have hi := htiny ((cfg.SPM_PAGESIZE - 4) / 2) (by omega) (by omega) (by omega)
        rw [hv] at hi
        rw [← hi]
        congr 1
        have hev := aligned_even cfg.SPM_PAGESIZE (p * cfg.SPM_PAGESIZE) (by omega) ha
        omega
    · have e3 : (p + 1 + k) * cfg.SPM_PAGESIZE = cfg.BOOTLOADER_ADDRESS := by
        rw [← hsum]; ring
      obtain ⟨sF, hF, hfl, hlcF⟩ := ih (p + 1) s1 (by omega) (by omega) e3 hvt1
      refine ⟨sF, ?_, hfl, by rw [hlcF, hlc]⟩
      simp only [imageEvents]
      rw [hloop]
      exact hF

/-! ## The accumulator loop for every length byte -/

theorem writeWords_idlePolls (cfg : Config) (s : State) (ws : Nat → Nat) (n : Nat) :
    (writeWords cfg s ws n).idlePolls = s.idlePolls := by
  induction n with
  | zero => rfl
  | succ k ih =>
    show (writeWords cfg s ws k).idlePolls = _
    exact ih

/-- Whenever the accumulator loop returns, it has staged some number of successive words. -/
theorem usbFunctionWriteLoop_some (cfg : Config) (data : Nat → Nat) :
    ∀ (fuel : Nat) (s s1 : State) (pos len : Nat),
      usbFunctionWriteLoop cfg fuel s data pos len = some s1 →
      ∃ n, s1 = writeWords cfg s (fun i => readWord data (pos + 2 * i)) n := by
  intro fuel
  induction fuel with
  | zero => intro s s1 pos len h; simp [usbFunctionWriteLoop] at h
  | succ f ih =>
    intro s s1 pos len h
    unfold usbFunctionWriteLoop at h
    simp only at h
    split_ifs at h
    · cases h; exact ⟨0, rfl⟩
    · obtain ⟨n, hn⟩ := ih _ _ _ _ h
      refine ⟨n + 1, ?_⟩
      rw [hn, writeWords_succ_front]
      simp only [Nat.mul_zero, Nat.add_zero]
      congr 2
      funext i
      congr 1
      omega
    · cases h; exact ⟨1, rfl⟩

/-- The accumulator loop for an arbitrary length byte: an odd length never counts down to
zero, so only the bootloader bound stops the loop; length 0 wraps to 254 and allows 128
words; an even length `len` allows `len / 2` words. -/
theorem usbFunctionWriteLoop_any (cfg : Config) (data : Nat → Nat)
    (hBL : cfg.BOOTLOADER_ADDRESS ≤ 65534) :
    ∀ (fuel : Nat) (s : State) (pos len : Nat), len < 256 →
      (if len % 2 = 1 then (cfg.BOOTLOADER_ADDRESS - s.currentAddress + 1) / 2
        else min (if len = 0 then 128 else len / 2)
              ((cfg.BOOTLOADER_ADDRESS - s.currentAddress + 1) / 2)) < fuel →
      usbFunctionWriteLoop cfg fuel s data pos len
        = some (writeWords cfg s (fun i => readWord data (pos + 2 * i))
            (if len % 2 = 1 then (cfg.BOOTLOADER_ADDRESS - s.currentAddress + 1) / 2
              else min (if len = 0 then 128 else len / 2)
                    ((cfg.BOOTLOADER_ADDRESS - s.currentAddress + 1) / 2))) := by
  intro fuel
  induction fuel with
  | zero => intro s pos len _ h; omega
  | succ f ih =>
    intro s pos len hlen hf
    unfold usbFunctionWriteLoop
    by_cases hc : s.currentAddress ≥ cfg.BOOTLOADER_ADDRESS
    · have hz : (cfg.BOOTLOADER_ADDRESS - s.currentAddress + 1) / 2 = 0 := by omega
      simp [hc, hz, writeWords]
    · have hcur1 : (writeWordToPageBuffer cfg s (readWord data pos)).currentAddress
          = s.currentAddress + 2 := by
        simp only [writeWordToPageBuffer_currentAddress]; omega
      have hslots : (cfg.BOOTLOADER_ADDRESS - s.currentAddress + 1) / 2
          = (cfg.BOOTLOADER_ADDRESS - (s.currentAddress + 2) + 1) / 2 + 1 := by omega
      simp only [hc, if_false]
      by_cases h0 : (len + 256 - 2) % 256 ≠ 0
      · simp only [h0, ne_eq, not_false_eq_true, if_true]
        have hstep : (if len % 2 = 1 then (cfg.BOOTLOADER_ADDRESS - s.currentAddress + 1) / 2
              else min (if len = 0 then 128 else len / 2)
                    ((cfg.BOOTLOADER_ADDRESS - s.currentAddress + 1) / 2))
            = (if (len + 256 - 2) % 256 % 2 = 1
                then (cfg.BOOTLOADER_ADDRESS - (s.currentAddress + 2) + 1) / 2
                else min (if (len + 256 - 2) % 256 = 0 then 128 else (len + 256 - 2) % 256 / 2)
                    ((cfg.BOOTLOADER_ADDRESS - (s.currentAddress + 2) + 1) / 2)) + 1 := by
          split_ifs <;> omega
        rw [ih _ _ _ (by omega) (by rw [hcur1]; omega), hcur1, hstep, writeWords_succ_front]
        simp only [Nat.mul_zero, Nat.add_zero]
        congr 2
        funext i
        congr 1
        omega
      · have hn : (if len % 2 = 1 then (cfg.BOOTLOADER_ADDRESS - s.currentAddress + 1) / 2
              else min (if len = 0 then 128 else len / 2)
                    ((cfg.BOOTLOADER_ADDRESS - s.currentAddress + 1) / 2)) = 1 := by
          split_ifs <;> omega
        have h0' : (len + 256 - 2) % 256 = 0 := by omega
        rw [hn]
        simp only [h0', ne_eq, not_true_eq_false, if_false]
        rfl

theorem usbFunctionWriteLoop_idlePolls (cfg : Config) (data : Nat → Nat) (fuel : Nat)
    (s s1 : State) (pos len : Nat) (h : usbFunctionWriteLoop cfg fuel s data pos len = some s1) :
    s1.idlePolls = s.idlePolls := by
  obtain ⟨n, rfl⟩ := usbFunctionWriteLoop_some cfg data fuel s s1 pos len h
  exact writeWords_idlePolls cfg s _ n

theorem usbFunctionWriteLoop_flash (cfg : Config) (data : Nat → Nat) (fuel : Nat)
    (s s1 : State) (pos len : Nat) (h : usbFunctionWriteLoop cfg fuel s data pos len = some s1) :
    s1.flash = s.flash := by
  obtain ⟨n, rfl⟩ := usbFunctionWriteLoop_some cfg data fuel s s1 pos len h
  exact writeWords_flash cfg s _ n

theorem usbFunctionWriteLoop_command (cfg : Config) (data : Nat → Nat) (fuel : Nat)
    (s s1 : State) (pos len : Nat) (h : usbFunctionWriteLoop cfg fuel s data pos len = some s1) :
    s1.command = s.command := by
  obtain ⟨n, rfl⟩ := usbFunctionWriteLoop_some cfg data fuel s s1 pos len h
  exact writeWords_command cfg s _ n

/-! ## Further facts used by the later claims -/

/-- Result of `usbFunctionWrite` for every length byte, below a 16-bit bootloader address. -/
theorem usbFunctionWrite_any (cfg : Config) (s : State) (data : Nat → Nat) (L : Nat)
    (hBL : cfg.BOOTLOADER_ADDRESS ≤ 65534) :
    ∃ n s1, n ≤ (cfg.BOOTLOADER_ADDRESS - s.currentAddress + 1) / 2
      ∧ s1 = writeWords cfg s (fun i => readWord data (2 * i)) n
      ∧ usbFunctionWrite cfg s data L
          = some (if (s1.currentAddress % 256) % cfg.SPM_PAGESIZE = 0 then 1 else 0,
                  if (s1.currentAddress % 256) % cfg.SPM_PAGESIZE = 0
                  then { s1 with command := cmd_write_page } else s1) := by
  have hL : L % 256 < 256 := Nat.mod_lt _ (by norm_num)
  have h := usbFunctionWriteLoop_any cfg data hBL 16777216 s 0 (L % 256) hL
    (by split_ifs <;> omega)
  obtain ⟨n, hn⟩ : ∃ n, n = (if L % 256 % 2 = 1
      then (cfg.BOOTLOADER_ADDRESS - s.currentAddress + 1) / 2
      else min (if L % 256 = 0 then 128 else L % 256 / 2)
            ((cfg.BOOTLOADER_ADDRESS - s.currentAddress + 1) / 2)) := ⟨_, rfl⟩
  rw [← hn] at h
  refine ⟨n, writeWords cfg s (fun i => readWord data (2 * i)) n, ?_, rfl, ?_⟩
  · rw [hn]; split_ifs <;> omega
  · unfold usbFunctionWrite
    rw [h]
    simp only [Nat.zero_add]
    split_ifs <;> simp_all

/-- The first data packets of a page, fed to the main loop one per tick: words are staged,
nothing is committed, the loop keeps running. -/
theorem mainLoop_writeEvents_inner (cfg : Config) (s0 : State) (bytes : Nat → Nat) (a : Nat)
    (rest : List UsbEvent)
    (hBL : cfg.BOOTLOADER_ADDRESS ≤ 65534) (h256 : cfg.SPM_PAGESIZE ∣ 256)
    (ha : a % cfg.SPM_PAGESIZE = 0) (hcmd : s0.command = 0) (hcur : s0.currentAddress = a)
    (haP : a + cfg.SPM_PAGESIZE ≤ cfg.BOOTLOADER_ADDRESS) :
    ∀ k j, 8 * (j + k) < cfg.SPM_PAGESIZE →
      mainLoop cfg (writeWords cfg s0 (fun i => readWord bytes (2 * i)) (4 * j))
          (writeEvents bytes j k ++ rest)
        = mainLoop cfg (writeWords cfg s0 (fun i => readWord bytes (2 * i)) (4 * (j + k)))
            rest := by
  intro k
  induction k with
  | zero => intro j _; rfl
  | succ m ih =>
    intro j hjk
    have hc : (writeWords cfg s0 (fun i => readWord bytes (2 * i)) (4 * j)).currentAddress
        = a + 8 * j := by
      rw [writeWords_currentAddress cfg s0 _ (4 * j) (Or.inr (by omega)), hcur]; omega
    have hcm : (writeWords cfg s0 (fun i => readWord bytes (2 * i)) (4 * j)).command = 0 := by
      rw [writeWords_command, hcmd]
    simp only [writeEvents, List.cons_append]
    rw [mainLoop_cons_continue cfg _ _ _ _
      (tick_write_inner cfg _ _ a j hBL h256 ha hcm hc (by omega) haP), writeWords_chunk,
      ih (j + 1) (by omega), show j + 1 + m = j + (m + 1) by omega]

/-! ## Ticks that receive a control request -/

theorem resetVectorHighByteAddress_of_le (cfg : Config)
    (hT : cfg.TINYVECTOR_RESET_OFFSET ≤ cfg.BOOTLOADER_ADDRESS)
    (hBL : cfg.BOOTLOADER_ADDRESS < 65535 + cfg.TINYVECTOR_RESET_OFFSET) :
    resetVectorHighByteAddress cfg
      = cfg.BOOTLOADER_ADDRESS - cfg.TINYVECTOR_RESET_OFFSET + 1 := by
  unfold resetVectorHighByteAddress
  omega

theorem tick_idle (cfg : Config) (s : State) :
    tick cfg s UsbEvent.idle = some ({ s with command := cmd_local_nop }, true) := by
  simp [tick, usbPoll, loopCondition, cmd_local_nop, cmd_exit]

/-- A tick that receives a TransferPage request clears the page buffer and sets the
address. -/
theorem tick_setup_transfer (cfg : Config) (s : State) (rq : usbRequest)
    (h : rq.bRequest % 256 = 1) :
    tick cfg s (UsbEvent.setup rq)
      = some ({ boot_page_fill_clear { s with command := 0, idlePolls := s.idlePolls % 256 } with
                currentAddress := rq.wIndex % 65536 }, true) := by
  simp [tick, usbPoll, usbFunctionSetup, h, loopCondition, cmd_exit, cmd_local_nop,
    cmd_device_info, cmd_transfer_page, boot_page_fill_clear]

/-- A tick that receives a DeviceInfo request takes the fast path. -/
theorem tick_setup_info (cfg : Config) (s : State) (rq : usbRequest)
    (h : rq.bRequest % 256 = 0) :
    tick cfg s (UsbEvent.setup rq)
      = some ({ s with command := cmd_local_nop, idlePolls := s.idlePolls % 256,
                       usbMsgPtr := replyBuffer cfg }, true) := by
  simp [tick, usbPoll, usbFunctionSetup, h, cmd_device_info, loopCondition, cmd_local_nop,
    cmd_exit]

/-- A tick that receives a request with a code other than 0 and 1 stores the code, counts
the tick and dispatches. -/
theorem tick_setup_deferred (cfg : Config) (s : State) (rq : usbRequest)
    (h0 : rq.bRequest % 256 ≠ 0) (h1 : rq.bRequest % 256 ≠ 1) :
    tick cfg s (UsbEvent.setup rq)
      = (dispatch cfg { s with command := rq.bRequest % 256,
                               idlePolls := (s.idlePolls % 256 + 1) % 65536 }).map
          (fun y => (y, loopCondition cfg y)) := by
  have hsetup : usbFunctionSetup cfg { s with command := cmd_local_nop } rq
      = (0, { s with command := rq.bRequest % 256, idlePolls := s.idlePolls % 256 }) := by
    simp [usbFunctionSetup, cmd_device_info, cmd_transfer_page, h0, h1]
  unfold tick
  simp only [usbPoll, hsetup]
  rw [if_neg (by simp [cmd_local_nop, h0])]
  cases dispatch cfg { s with command := rq.bRequest % 256,
                              idlePolls := (s.idlePolls % 256 + 1) % 65536 } <;> rfl

/-- Result of the eraser seen from the dispatch: the command is kept, the address is 16,
every application word outside the page of address 14 reads 0xFFFF, and the trace has grown
by the erases, the eight fillers and the commit at 14. -/
theorem dispatch_erase_result (cfg : Config) (x : State)
    (hP : 0 < cfg.SPM_PAGESIZE)
    (hBLP : cfg.BOOTLOADER_ADDRESS % cfg.SPM_PAGESIZE = 0)
    (hBL : cfg.BOOTLOADER_ADDRESS < 65536)
    (hxc : x.command = cmd_erase_application) :
    ∃ y, dispatch cfg x = some y
      ∧ y.command = cmd_erase_application
      ∧ y.currentAddress = 16
      ∧ y.leaveCalls = x.leaveCalls
      ∧ (∀ w, 2 * w < cfg.BOOTLOADER_ADDRESS →
          2 * w / cfg.SPM_PAGESIZE ≠ 14 / cfg.SPM_PAGESIZE → y.flash w = 0xFFFF)
      ∧ y.spmLog = x.spmLog
          ++ (List.range (cfg.BOOTLOADER_ADDRESS / cfg.SPM_PAGESIZE)).reverse.map
              (fun p => SpmOp.erase (p * cfg.SPM_PAGESIZE))
          ++ (List.range 8).map (fun i => SpmOp.fill (2 * i)
              (relocatedWord cfg
                (writeWords cfg
                  { x with
                    currentAddress := 0
                    flash := fun w =>
                      if 2 * w < cfg.BOOTLOADER_ADDRESS then 0xFFFF else x.flash w
                    spmLog := x.spmLog
                      ++ (List.range (cfg.BOOTLOADER_ADDRESS / cfg.SPM_PAGESIZE)).reverse.map
                        (fun p => SpmOp.erase (p * cfg.SPM_PAGESIZE)) }
                  (fun _ => 0xFFFF) i) 0xFFFF))
          ++ [SpmOp.write 14] := by
  have heq := eraseApplication_eq cfg x hP hBLP hBL
  obtain ⟨x0, hx0⟩ : ∃ x0 : State, x0 = { x with
      currentAddress := 0
      flash := fun w => if 2 * w < cfg.BOOTLOADER_ADDRESS then 0xFFFF else x.flash w
      spmLog := x.spmLog
        ++ (List.range (cfg.BOOTLOADER_ADDRESS / cfg.SPM_PAGESIZE)).reverse.map
          (fun p => SpmOp.erase (p * cfg.SPM_PAGESIZE)) } := ⟨_, rfl⟩
  rw [← hx0] at heq ⊢
  have hcur : x0.currentAddress = 0 := by rw [hx0]
  have hlog : x0.spmLog = x.spmLog
      ++ (List.range (cfg.BOOTLOADER_ADDRESS / cfg.SPM_PAGESIZE)).reverse.map
        (fun p => SpmOp.erase (p * cfg.SPM_PAGESIZE)) := by rw [hx0]
  have hfl : ∀ w, x0.flash w = if 2 * w < cfg.BOOTLOADER_ADDRESS then 0xFFFF else x.flash w := by
    intro w; rw [hx0]
  have hc8 : (writeWords cfg x0 (fun _ => 0xFFFF) 8).currentAddress = 16 := by
    rw [writeWords_currentAddress _ _ _ 8 (Or.inr (by omega)), hcur]
  refine ⟨writeFlashPage cfg (writeWords cfg x0 (fun _ => 0xFFFF) 8), ?_, ?_, hc8, ?_, ?_, ?_⟩
  · unfold dispatch
    rw [if_pos hxc]
    exact heq
  · show (writeWords cfg x0 (fun _ => 0xFFFF) 8).command = _
    rw [writeWords_command, hx0]
    exact hxc
  · exact eraseApplication_leaveCalls cfg x _ heq
  · intro w hw hpage
    simp only [writeFlashPage, boot_page_write, hc8, writeWords_flash]
    rw [show (16 + 65536 - 2) % 65536 = 14 by norm_num, if_neg hpage, hfl, if_pos hw]
  · rw [writeFlashPage_spmLog, writeWords_spmLog _ _ _ 8 (Or.inr (by omega)), hc8, hcur, hlog]
    simp only [Nat.zero_add]

/-! ## After an erase, while no page is transferred -/

theorem erased_slot_byte (cfg : Config) (s : State)
    (hw : s.flash ((cfg.BOOTLOADER_ADDRESS - cfg.TINYVECTOR_RESET_OFFSET + 1) / 2) = 0xFFFF) :
    pgm_read_byte s (cfg.BOOTLOADER_ADDRESS - cfg.TINYVECTOR_RESET_OFFSET + 1) = 0xFF := by
  unfold pgm_read_byte
  rw [hw]
  split_ifs <;> rfl

/-- One tick in which nothing or a control request other than TransferPage arrives, started
with the address at 16 and the tinyvector word erased, in a page other than the one of
address 14: the loop continues and both facts still hold. -/
theorem tick_keeps_erased_slot (cfg : Config) (s : State) (ev : UsbEvent)
    (hP : 0 < cfg.SPM_PAGESIZE)
    (hBLP : cfg.BOOTLOADER_ADDRESS % cfg.SPM_PAGESIZE = 0)
    (hBL : cfg.BOOTLOADER_ADDRESS < 65536)
    (hT2 : 2 ≤ cfg.TINYVECTOR_RESET_OFFSET)
    (hTB : cfg.TINYVECTOR_RESET_OFFSET ≤ cfg.BOOTLOADER_ADDRESS)
    (hpage : 2 * ((cfg.BOOTLOADER_ADDRESS - cfg.TINYVECTOR_RESET_OFFSET + 1) / 2)
              / cfg.SPM_PAGESIZE ≠ 14 / cfg.SPM_PAGESIZE)
    (hev : ev = UsbEvent.idle
        ∨ ∃ rq, ev = UsbEvent.setup rq ∧ rq.bRequest % 256 ≠ cmd_transfer_page)
    (hcur : s.currentAddress = 16)
    (hw : s.flash ((cfg.BOOTLOADER_ADDRESS - cfg.TINYVECTOR_RESET_OFFSET + 1) / 2) = 0xFFFF) :
    ∃ s1, tick cfg s ev = some (s1, true)
      ∧ s1.currentAddress = 16
      ∧ s1.flash ((cfg.BOOTLOADER_ADDRESS - cfg.TINYVECTOR_RESET_OFFSET + 1) / 2) = 0xFFFF
      ∧ s1.leaveCalls = s.leaveCalls := by
  rcases hev with rfl | ⟨rq, rfl, h1⟩
  · exact ⟨_, tick_idle cfg s, hcur, hw, rfl⟩
  · by_cases h0 : rq.bRequest % 256 = 0
    · exact ⟨_, tick_setup_info cfg s rq h0, hcur, hw, rfl⟩
    · have ht := tick_setup_deferred cfg s rq h0 h1
      obtain ⟨x, hx⟩ : ∃ x : State, x = { s with
          command := rq.bRequest % 256
          idlePolls := (s.idlePolls % 256 + 1) % 65536 } := ⟨_, rfl⟩
      rw [← hx] at ht
      have hxc : x.command = rq.bRequest % 256 := by rw [hx]
      have hxcur : x.currentAddress = 16 := by rw [hx]; exact hcur
      have hxw : x.flash ((cfg.BOOTLOADER_ADDRESS - cfg.TINYVECTOR_RESET_OFFSET + 1) / 2)
          = 0xFFFF := by rw [hx]; exact hw
      have hxl : x.leaveCalls = s.leaveCalls := by rw [hx]
      by_cases h2 : rq.bRequest % 256 = 2
      · obtain ⟨y, hd, hyc, hycur, hyl, hyf, _⟩ := dispatch_erase_result cfg x hP hBLP hBL
          (by rw [hxc, h2]; rfl)
        have hcond : loopCondition cfg y = true := by
          simp [loopCondition, hyc, cmd_erase_application, cmd_exit]
        rw [hd] at ht
        simp only [Option.map_some', hcond] at ht
        exact ⟨y, ht, hycur, hyf _ (by omega) hpage, by rw [hyl, hxl]⟩
      · by_cases h64 : rq.bRequest % 256 = 64
        · have hd : dispatch cfg x = some (writeFlashPage cfg x) := by
            unfold dispatch
            rw [if_neg (by rw [hxc, h64]; decide), if_pos (by rw [hxc, h64]; rfl)]
          have hcond : loopCondition cfg (writeFlashPage cfg x) = true := by
            have : (writeFlashPage cfg x).command = 64 := by
              show x.command = 64
              rw [hxc, h64]
            simp [loopCondition, this, cmd_exit]
          rw [hd] at ht
          simp only [Option.map_some', hcond] at ht
          refine ⟨_, ht, hxcur, ?_, hxl⟩
          simp only [writeFlashPage, boot_page_write, hxcur]
          rw [show (16 + 65536 - 2) % 65536 = 14 by norm_num, if_neg hpage]
          exact hxw
        · have hd : dispatch cfg x = some x := by
            unfold dispatch
            rw [if_neg (by rw [hxc]; exact h2), if_neg (by rw [hxc]; exact h64)]
          have hb : pgm_read_byte x (resetVectorHighByteAddress cfg) = 0xFF := by
            rw [resetVectorHighByteAddress_of_le cfg hTB (by omega)]
            exact erased_slot_byte cfg x hxw
          have hcond : loopCondition cfg x = true := by
            simp [loopCondition, hb]
          rw [hd] at ht
          simp only [Option.map_some', hcond] at ht
          exact ⟨x, ht, hxcur, hxw, hxl⟩

/-- Every sequence of ticks in which nothing or a control request other than TransferPage
arrives, started with the address at 16 and the tinyvector word erased: the loop runs
through all of them, `leaveBootloader` is not entered, and both facts hold at the end. -/
theorem mainLoop_keeps_erased_slot (cfg : Config)
    (hP : 0 < cfg.SPM_PAGESIZE)
    (hBLP : cfg.BOOTLOADER_ADDRESS % cfg.SPM_PAGESIZE = 0)
    (hBL : cfg.BOOTLOADER_ADDRESS < 65536)
    (hT2 : 2 ≤ cfg.TINYVECTOR_RESET_OFFSET)
    (hTB : cfg.TINYVECTOR_RESET_OFFSET ≤ cfg.BOOTLOADER_ADDRESS)
    (hpage : 2 * ((cfg.BOOTLOADER_ADDRESS - cfg.TINYVECTOR_RESET_OFFSET + 1) / 2)
              / cfg.SPM_PAGESIZE ≠ 14 / cfg.SPM_PAGESIZE) :
    ∀ (evs : List UsbEvent) (s : State),
      (∀ ev ∈ evs, ev = UsbEvent.idle
        ∨ ∃ rq, ev = UsbEvent.setup rq ∧ rq.bRequest % 256 ≠ cmd_transfer_page) →
      s.currentAddress = 16 →
      s.flash ((cfg.BOOTLOADER_ADDRESS - cfg.TINYVECTOR_RESET_OFFSET + 1) / 2) = 0xFFFF →
      ∃ sX, mainLoop cfg s evs = some sX
        ∧ sX.leaveCalls = s.leaveCalls
        ∧ sX.flash ((cfg.BOOTLOADER_ADDRESS - cfg.TINYVECTOR_RESET_OFFSET + 1) / 2) = 0xFFFF := by
  intro evs
  induction evs with
  | nil => intro s _ _ hw; exact ⟨s, rfl, rfl, hw⟩
  | cons ev rest ih =>
    intro s hev hcur hw
    obtain ⟨s1, ht, hc1, hw1, hl1⟩ := tick_keeps_erased_slot cfg s ev hP hBLP hBL hT2 hTB hpage
      (hev ev (List.mem_cons_self _ _)) hcur hw
    obtain ⟨sX, h1, h2, h3⟩ := ih s1 (fun e he => hev e (List.mem_cons_of_mem _ he)) hc1 hw1
    exact ⟨sX, by rw [mainLoop_cons_continue cfg _ _ _ _ ht]; exact h1, by rw [h2, hl1], h3⟩

/-- What a data-phase call leaves alone: flash and the exit counter; the command is kept or
becomes `cmd_write_page`. -/
theorem usbPoll_write_facts (cfg : Config) (s s1 : State) (data : Nat → Nat) (L : Nat)
    (h : usbPoll cfg s (UsbEvent.write data L) = some s1) :
    s1.flash = s.flash ∧ s1.leaveCalls = s.leaveCalls
      ∧ (s1.command = s.command ∨ s1.command = cmd_write_page) := by
  simp only [usbPoll] at h
  unfold usbFunctionWrite at h
  cases hl : usbFunctionWriteLoop cfg 16777216 s data 0 (L % 256) with
  | none => rw [hl] at h; cases h
  | some s0 =>
    have hf := usbFunctionWriteLoop_flash cfg data _ _ _ _ _ hl
    have hc := usbFunctionWriteLoop_command cfg data _ _ _ _ _ hl
    have hlc := usbFunctionWriteLoop_leaveCalls cfg data _ _ _ _ _ hl
    rw [hl] at h
    by_cases hz : (s0.currentAddress % 256) % cfg.SPM_PAGESIZE = 0
    · simp [hz] at h
      subst h
      exact ⟨hf, hlc, Or.inr rfl⟩
    · simp [hz] at h
      subst h
      exact ⟨hf, hlc, Or.inl hc⟩

/-- Any tick, whatever arrives, that does not end in a page commit by the scheduler leaves
the tinyvector word as it was or erased. -/
theorem tick_without_commit (cfg : Config) (s s1 : State) (ev : UsbEvent) (cont : Bool)
    (hP : 0 < cfg.SPM_PAGESIZE)
    (hBLP : cfg.BOOTLOADER_ADDRESS % cfg.SPM_PAGESIZE = 0)
    (hBL : cfg.BOOTLOADER_ADDRESS < 65536)
    (hT2 : 2 ≤ cfg.TINYVECTOR_RESET_OFFSET)
    (hTB : cfg.TINYVECTOR_RESET_OFFSET ≤ cfg.BOOTLOADER_ADDRESS)
    (hpage : 2 * ((cfg.BOOTLOADER_ADDRESS - cfg.TINYVECTOR_RESET_OFFSET + 1) / 2)
              / cfg.SPM_PAGESIZE ≠ 14 / cfg.SPM_PAGESIZE)
    (ht : tick cfg s ev = some (s1, cont))
    (hnc : s1.command ≠ cmd_write_page) :
    s1.flash ((cfg.BOOTLOADER_ADDRESS - cfg.TINYVECTOR_RESET_OFFSET + 1) / 2)
        = s.flash ((cfg.BOOTLOADER_ADDRESS - cfg.TINYVECTOR_RESET_OFFSET + 1) / 2)
      ∨ s1.flash ((cfg.BOOTLOADER_ADDRESS - cfg.TINYVECTOR_RESET_OFFSET + 1) / 2) = 0xFFFF := by
  cases ev with
  | idle =>
    rw [tick_idle] at ht
    cases ht
    exact Or.inl rfl
  | setup rq =>
    by_cases h0 : rq.bRequest % 256 = 0
    · rw [tick_setup_info cfg s rq h0] at ht
      cases ht
      exact Or.inl rfl
    · by_cases h1 : rq.bRequest % 256 = 1
      · rw [tick_setup_transfer cfg s rq h1] at ht
        cases ht
        exact Or.inl rfl
      · have ht2 := tick_setup_deferred cfg s rq h0 h1
        obtain ⟨x, hx⟩ : ∃ x : State, x = { s with
            command := rq.bRequest % 256
            idlePolls := (s.idlePolls % 256 + 1) % 65536 } := ⟨_, rfl⟩
        rw [← hx] at ht2
        have hxc : x.command = rq.bRequest % 256 := by rw [hx]
        have hxf : x.flash = s.flash := by rw [hx]
        by_cases h2 : rq.bRequest % 256 = 2
        · obtain ⟨y, hd, _, _, _, hyf, _⟩ := dispatch_erase_result cfg x hP hBLP hBL
            (by rw [hxc, h2]; rfl)
          rw [hd, ht] at ht2
          simp only [Option.map_some', Option.some.injEq, Prod.mk.injEq] at ht2
          rw [ht2.1]
          exact Or.inr (hyf _ (by omega) hpage)
        · by_cases h64 : rq.bRequest % 256 = 64
          · have hd : dispatch cfg x = some (writeFlashPage cfg x) := by
              unfold dispatch
              rw [if_neg (by rw [hxc, h64]; decide), if_pos (by rw [hxc, h64]; rfl)]
            rw [hd, ht] at ht2
            simp only [Option.map_some', Option.some.injEq, Prod.mk.injEq] at ht2
            exfalso
            apply hnc
            rw [ht2.1]
            show x.command = cmd_write_page
            rw [hxc, h64]
            rfl
          · have hd : dispatch cfg x = some x := by
              unfold dispatch
              rw [if_neg (by rw [hxc]; exact h2), if_neg (by rw [hxc]; exact h64)]
            rw [hd, ht] at ht2
            simp only [Option.map_some', Option.some.injEq, Prod.mk.injEq] at ht2
            rw [ht2.1, hxf]
            exact Or.inl rfl
  | write data L =>
    unfold tick at ht
    cases hp : usbPoll cfg { s with command := cmd_local_nop } (UsbEvent.write data L) with
    | none => rw [hp] at ht; cases ht
    | some s0 =>
      obtain ⟨hf, _, hcmd⟩ := usbPoll_write_facts cfg _ s0 data L hp
      rw [hp] at ht
      simp only at ht
      rcases hcmd with h | h
      · rw [if_pos h] at ht
        cases ht
        rw [hf]
        exact Or.inl rfl
      · rw [if_neg (by rw [h]; decide)] at ht
        have hd : dispatch cfg { s0 with idlePolls := (s0.idlePolls + 1) % 65536 }
            = some (writeFlashPage cfg { s0 with idlePolls := (s0.idlePolls + 1) % 65536 }) := by
          unfold dispatch
          rw [if_neg (by show s0.command ≠ _; rw [h]; decide),
            if_pos (by show s0.command = _; exact h)]
        rw [hd] at ht
        simp only [Option.some.injEq, Prod.mk.injEq] at ht
        exfalso
        apply hnc
        rw [← ht.1]
        exact h

/-! ## Words staged since the last clear -/

theorem stagedFrom_append (l m : List SpmOp) : ∀ acc : List Nat,
    stagedFrom acc (l ++ m) = stagedFrom (stagedFrom acc l) m := by
  induction l with
  | nil => intro acc; rfl
  | cons op rest ih =>
    intro acc
    cases op <;> exact ih _

theorem stagedFrom_mem (m : List SpmOp) (hm : SpmOp.clear ∉ m) (x : Nat) :
    ∀ acc : List Nat, x ∈ stagedFrom acc m ↔ x ∈ acc ∨ ∃ d, SpmOp.fill x d ∈ m := by
  induction m with
  | nil => intro acc; simp [stagedFrom]
  | cons op rest ih =>
    intro acc
    have hrest : SpmOp.clear ∉ rest := fun h => hm (List.mem_cons_of_mem _ h)
    cases op with
    | clear => exact absurd (List.mem_cons_self _ _) hm
    | fill a d =>
      simp only [stagedFrom, ih hrest, List.mem_append, List.mem_cons, List.not_mem_nil,
        or_false, SpmOp.fill.injEq]
      constructor
      · rintro ((h | h) | ⟨d1, h⟩)
        · exact Or.inl h
        · exact Or.inr ⟨d, Or.inl ⟨h, rfl⟩⟩
        · exact Or.inr ⟨d1, Or.inr h⟩
      · rintro (h | ⟨d1, (⟨h, _⟩ | h)⟩)
        · exact Or.inl (Or.inl h)
        · exact Or.inl (Or.inr h)
        · exact Or.inr ⟨d1, h⟩
    | erase a =>
      simp only [stagedFrom, ih hrest, List.mem_cons]
      constructor
      · rintro (h | ⟨d1, h⟩)
        · exact Or.inl h
        · exact Or.inr ⟨d1, Or.inr h⟩
      · rintro (h | ⟨d1, (h | h)⟩)
        · exact Or.inl h
        · cases h
        · exact Or.inr ⟨d1, h⟩
    | write a =>
      simp only [stagedFrom, ih hrest, List.mem_cons]
      constructor
      · rintro (h | ⟨d1, h⟩)
        · exact Or.inl h
        · exact Or.inr ⟨d1, Or.inr h⟩
      · rintro (h | ⟨d1, (h | h)⟩)
        · exact Or.inl h
        · cases h
        · exact Or.inr ⟨d1, h⟩

/-- Appending trace entries without a clear keeps what was staged and adds the new fills. -/
theorem stagedAddresses_append (l m : List SpmOp) (hm : SpmOp.clear ∉ m) (x : Nat) :
    x ∈ stagedAddresses (l ++ m) ↔ x ∈ stagedAddresses l ∨ ∃ d, SpmOp.fill x d ∈ m := by
  unfold stagedAddresses
  rw [stagedFrom_append, stagedFrom_mem m hm]

theorem stagedAddresses_clear (l : List SpmOp) : stagedAddresses (l ++ [SpmOp.clear]) = [] := by
  unfold stagedAddresses
  rw [stagedFrom_append]
  rfl

/-- The cursor invariant only looks at the address and the trace. -/
theorem pageStaged_congr (cfg : Config) (s s1 : State)
    (hc : s1.currentAddress = s.currentAddress) (hl : s1.spmLog = s.spmLog)
    (h : pageStaged cfg s) : pageStaged cfg s1 := by
  unfold pageStaged at h ⊢
  rw [hc, hl]
  exact h

/-! ## The cursor invariant through the ticks of the main loop -/

/-- A data-phase call stages at least one word whenever the address is below the
bootloader, whatever the length byte. -/
theorem usbFunctionWrite_count (cfg : Config) (s : State) (data : Nat → Nat) (L : Nat)
    (hBL : cfg.BOOTLOADER_ADDRESS ≤ 65534) :
    ∃ n, n ≤ (cfg.BOOTLOADER_ADDRESS - s.currentAddress + 1) / 2
      ∧ (s.currentAddress < cfg.BOOTLOADER_ADDRESS → 1 ≤ n)
      ∧ usbFunctionWrite cfg s data L
          = some (if ((writeWords cfg s (fun i => readWord data (2 * i)) n).currentAddress
                        % 256) % cfg.SPM_PAGESIZE = 0 then 1 else 0,
                  if ((writeWords cfg s (fun i => readWord data (2 * i)) n).currentAddress
                        % 256) % cfg.SPM_PAGESIZE = 0
                  then { writeWords cfg s (fun i => readWord data (2 * i)) n with
                          command := cmd_write_page }
                  else writeWords cfg s (fun i => readWord data (2 * i)) n) := by
  have hL : L % 256 < 256 := Nat.mod_lt _ (by norm_num)
  have h := usbFunctionWriteLoop_any cfg data hBL 16777216 s 0 (L % 256) hL
    (by split_ifs <;> omega)
  obtain ⟨n, hn⟩ : ∃ n, n = (if L % 256 % 2 = 1
      then (cfg.BOOTLOADER_ADDRESS - s.currentAddress + 1) / 2
      else min (if L % 256 = 0 then 128 else L % 256 / 2)
            ((cfg.BOOTLOADER_ADDRESS - s.currentAddress + 1) / 2)) := ⟨_, rfl⟩
  rw [← hn] at h
  refine ⟨n, ?_, ?_, ?_⟩
  · rw [hn]; split_ifs <;> omega
  · intro hlt
    rw [hn]; split_ifs <;> omega
  · unfold usbFunctionWrite
    rw [h]
    simp only [Nat.zero_add]
    split_ifs <;> simp_all

/-- A tick that receives a data-phase call: the words are staged, and if the address has
reached the end of a page the page is committed in the same tick.  The loop continues. -/
theorem tick_write (cfg : Config) (s : State) (data : Nat → Nat) (L : Nat)
    (hBL : cfg.BOOTLOADER_ADDRESS ≤ 65534) :
    ∃ n W, n ≤ (cfg.BOOTLOADER_ADDRESS - s.currentAddress + 1) / 2
      ∧ (s.currentAddress < cfg.BOOTLOADER_ADDRESS → 1 ≤ n)
      ∧ W = writeWords cfg { s with command := cmd_local_nop }
              (fun i => readWord data (2 * i)) n
      ∧ tick cfg s (UsbEvent.write data L)
          = some (if (W.currentAddress % 256) % cfg.SPM_PAGESIZE = 0
                  then writeFlashPage cfg
                    { W with command := cmd_write_page,
                             idlePolls := (W.idlePolls + 1) % 65536 }
                  else W, true) := by
  obtain ⟨n, hn, hpos, hw⟩ := usbFunctionWrite_count cfg { s with command := cmd_local_nop }
    data L hBL
  refine ⟨n, writeWords cfg { s with command := cmd_local_nop }
    (fun i => readWord data (2 * i)) n, hn, hpos, rfl, ?_⟩
  obtain ⟨W, hW⟩ : ∃ W : State, W = writeWords cfg { s with command := cmd_local_nop }
    (fun i => readWord data (2 * i)) n := ⟨_, rfl⟩
  rw [← hW] at hw ⊢
  have hWc : W.command = 0 := by rw [hW, writeWords_command]; rfl
  unfold tick
  simp only [usbPoll, hw]
  by_cases hz : (W.currentAddress % 256) % cfg.SPM_PAGESIZE = 0
  · simp [hz, cmd_write_page, cmd_local_nop, dispatch, cmd_erase_application, loopCondition,
      cmd_exit, writeFlashPage, boot_page_write]
  · simp [hz, hWc, cmd_local_nop, loopCondition, cmd_exit]

/-- A TransferPage request for the start of a page below the bootloader establishes the
cursor invariant, from every state. -/
theorem pageStaged_transfer (cfg : Config) (s : State) (rq : usbRequest)
    (hP2 : cfg.SPM_PAGESIZE % 2 = 0) (hBL : cfg.BOOTLOADER_ADDRESS ≤ 65534)
    (h1 : rq.bRequest % 256 = 1)
    (ha : rq.wIndex % cfg.SPM_PAGESIZE = 0) (hlt : rq.wIndex < cfg.BOOTLOADER_ADDRESS) :
    ∃ s1, tick cfg s (UsbEvent.setup rq) = some (s1, true)
      ∧ pageStaged cfg s1
      ∧ s1.command = cmd_local_nop
      ∧ s1.spmLog = s.spmLog ++ [SpmOp.clear] := by
  have ha16 : rq.wIndex % 65536 = rq.wIndex := by omega
  have hev := aligned_even cfg.SPM_PAGESIZE rq.wIndex hP2 ha
  refine ⟨_, tick_setup_transfer cfg s rq h1, ?_, rfl, rfl⟩
  unfold pageStaged
  simp only [ha16]
  refine ⟨hev, by omega, rq.wIndex, le_refl _, ha, fun _ => hlt, ?_⟩
  intro x hx _ hbx
  omega

/-- An EraseApplication request establishes the cursor invariant, from every state: the
eight filler words are staged from address 0 and the address is left at 16. -/
theorem pageStaged_erase (cfg : Config) (s : State) (rq : usbRequest)
    (hP : 0 < cfg.SPM_PAGESIZE)
    (hBLP : cfg.BOOTLOADER_ADDRESS % cfg.SPM_PAGESIZE = 0)
    (hBL : cfg.BOOTLOADER_ADDRESS < 65536)
    (h2 : rq.bRequest % 256 = 2) :
    ∃ s1, tick cfg s (UsbEvent.setup rq) = some (s1, true)
      ∧ pageStaged cfg s1
      ∧ s1.command = cmd_erase_application
      ∧ ∃ new, s1.spmLog = s.spmLog ++ new := by
  have ht := tick_setup_deferred cfg s rq (by omega) (by omega)
  obtain ⟨x, hx⟩ : ∃ x : State, x = { s with
      command := rq.bRequest % 256
      idlePolls := (s.idlePolls % 256 + 1) % 65536 } := ⟨_, rfl⟩
  rw [← hx] at ht
  have hxlog : x.spmLog = s.spmLog := by rw [hx]
  obtain ⟨y, hd, hyc, hycur, _, _, hylog⟩ := dispatch_erase_result cfg x hP hBLP hBL
    (by rw [hx]; exact h2)
  have hcond : loopCondition cfg y = true := by
    simp [loopCondition, hyc, cmd_erase_application, cmd_exit]
  rw [hd] at ht
  simp only [Option.map_some', hcond] at ht
  rw [hxlog] at hylog
  obtain ⟨d, hlog⟩ : ∃ d : Nat → Nat, y.spmLog = s.spmLog
      ++ ((List.range (cfg.BOOTLOADER_ADDRESS / cfg.SPM_PAGESIZE)).reverse.map
            (fun p => SpmOp.erase (p * cfg.SPM_PAGESIZE))
          ++ ((List.range 8).map (fun i => SpmOp.fill (2 * i) (d i)) ++ [SpmOp.write 14])) :=
    ⟨_, by rw [hylog, List.append_assoc, List.append_assoc]⟩
  refine ⟨y, ht, ?_, hyc, ⟨_, hlog⟩⟩
  unfold pageStaged
  rw [hycur]
  refine ⟨by decide, by decide, 0, by omega, Nat.zero_mod _, fun h => by omega, ?_⟩
  intro w hw hwe _
  rw [hlog, stagedAddresses_append _ _ (by simp)]
  refine Or.inr ⟨d (w / 2), ?_⟩
  simp only [List.mem_append, List.mem_map, List.mem_range]
  refine Or.inr (Or.inl ⟨w / 2, by omega, ?_⟩)
  rw [show 2 * (w / 2) = w by omega]

/-- A data-phase call keeps the cursor invariant; the tick commits only when the address has
reached the end of a page, and then every word of the page that is committed has been
staged since the last clear. -/
theorem pageStaged_write (cfg : Config) (s : State) (data : Nat → Nat) (L : Nat)
    (h256 : cfg.SPM_PAGESIZE ∣ 256) (hP2 : cfg.SPM_PAGESIZE % 2 = 0)
    (hBL : cfg.BOOTLOADER_ADDRESS ≤ 65534) (hs : pageStaged cfg s) :
    ∃ s1 fills, tick cfg s (UsbEvent.write data L) = some (s1, true)
      ∧ pageStaged cfg s1
      ∧ (∀ op ∈ fills, ∃ a d, op = SpmOp.fill a d)
      ∧ ((s1.command = cmd_local_nop ∧ s1.spmLog = s.spmLog ++ fills)
        ∨ (s1.command = cmd_write_page
            ∧ s1.spmLog = s.spmLog ++ fills ++ [SpmOp.write (s1.currentAddress - 2)]
            ∧ ∀ x, x % 2 = 0 →
                x / cfg.SPM_PAGESIZE = (s1.currentAddress - 2) / cfg.SPM_PAGESIZE →
                x ∈ stagedAddresses (s.spmLog ++ fills))) := by
  obtain ⟨hev, h16, base, hb1, hb2, hb3, hcov⟩ := hs
  have hPpos : 0 < cfg.SPM_PAGESIZE := Nat.pos_of_dvd_of_pos h256 (by norm_num)
  obtain ⟨n, W, hn, hpos, hW, ht⟩ := tick_write cfg s data L hBL
  have hWcur : W.currentAddress = s.currentAddress + 2 * n := by
    rw [hW]
    exact writeWords_currentAddress cfg _ _ n (by
      show n = 0 ∨ s.currentAddress + 2 * n ≤ 65535
      omega)
  have hWcmd : W.command = cmd_local_nop := by rw [hW, writeWords_command]
  obtain ⟨dat, hdat⟩ : ∃ dat : Nat → Nat, W.spmLog = s.spmLog
      ++ (List.range n).map (fun i => SpmOp.fill (s.currentAddress + 2 * i) (dat i)) := by
    refine ⟨fun i => relocatedWord cfg
      (writeWords cfg { s with command := cmd_local_nop } (fun i => readWord data (2 * i)) i)
      (readWord data (2 * i)), ?_⟩
    rw [hW]
    exact writeWords_spmLog cfg _ _ n (by
      show n = 0 ∨ s.currentAddress + 2 * n ≤ 65536
      omega)
  obtain ⟨fills, hfills⟩ : ∃ fills : List SpmOp, fills
      = (List.range n).map (fun i => SpmOp.fill (s.currentAddress + 2 * i) (dat i)) :=
    ⟨_, rfl⟩
  rw [← hfills] at hdat
  have hfill : ∀ op ∈ fills, ∃ a d, op = SpmOp.fill a d := by
    intro op hop
    rw [hfills, List.mem_map] at hop
    obtain ⟨i, _, rfl⟩ := hop
    exact ⟨_, _, rfl⟩
  have hnoclear : SpmOp.clear ∉ fills := by
    intro h
    obtain ⟨a, d, had⟩ := hfill _ h
    cases had
  have hcovW : ∀ x, x < W.currentAddress → x % 2 = 0 → base ≤ x →
      x ∈ stagedAddresses (s.spmLog ++ fills) := by
    intro x hx hxe hbx
    rw [stagedAddresses_append _ _ hnoclear]
    by_cases hlt : x < s.currentAddress
    · exact Or.inl (hcov x hlt hxe hbx)
    · refine Or.inr ⟨dat ((x - s.currentAddress) / 2), ?_⟩
      rw [hfills, List.mem_map]
      refine ⟨(x - s.currentAddress) / 2, List.mem_range.mpr (by omega), ?_⟩
      rw [show s.currentAddress + 2 * ((x - s.currentAddress) / 2) = x by omega]
  have hneq : W.currentAddress = base → W.currentAddress < cfg.BOOTLOADER_ADDRESS := by
    intro h
    have h1 : s.currentAddress = base := by omega
    have h2 := hpos (hb3 h1)
    omega
  by_cases hz : (W.currentAddress % 256) % cfg.SPM_PAGESIZE = 0
  · -- the page is complete: the tick commits
    rw [if_pos hz] at ht
    have hmod : W.currentAddress % cfg.SPM_PAGESIZE = 0 := by
      rw [← lowByte_mod cfg.SPM_PAGESIZE _ h256]; exact hz
    have hgt : base < W.currentAddress := by
      rcases Nat.lt_or_ge base W.currentAddress with h | h
      · exact h
      · have h1 : W.currentAddress = base := by omega
        have h2 : s.currentAddress = base := by omega
        have h3 := hpos (hb3 h2)
        omega
    have hge := aligned_add_le cfg.SPM_PAGESIZE base W.currentAddress hb2 hmod hgt
    have hP2le : 2 ≤ cfg.SPM_PAGESIZE := by omega
    have hc : (W.currentAddress + 65536 - 2) % 65536 = W.currentAddress - 2 := by omega
    refine ⟨_, fills, ht, ?_, hfill, Or.inr ⟨rfl, ?_, ?_⟩⟩
    · show W.currentAddress % 2 = 0 ∧ W.currentAddress < 65536
        ∧ ∃ b, b ≤ W.currentAddress ∧ b % cfg.SPM_PAGESIZE = 0
          ∧ (W.currentAddress = b → W.currentAddress < cfg.BOOTLOADER_ADDRESS)
          ∧ ∀ x, x < W.currentAddress → x % 2 = 0 → b ≤ x →
              x ∈ stagedAddresses (W.spmLog
                ++ [SpmOp.write ((W.currentAddress + 65536 - 2) % 65536)])
      refine ⟨by omega, by omega, base, by omega, hb2, hneq, ?_⟩
      intro x hx hxe hbx
      rw [hdat, stagedAddresses_append _ _ (by simp)]
      exact Or.inl (hcovW x hx hxe hbx)
    · show W.spmLog ++ [SpmOp.write ((W.currentAddress + 65536 - 2) % 65536)] = _
      rw [hc, hdat]
      rfl
    · intro x hxe hxp
      have hxp1 : x / cfg.SPM_PAGESIZE = (W.currentAddress - 2) / cfg.SPM_PAGESIZE := hxp
      have ha : (W.currentAddress - cfg.SPM_PAGESIZE) % cfg.SPM_PAGESIZE = 0 :=
        Nat.sub_mod_eq_zero_of_mod_eq (by rw [hmod, Nat.mod_self])
      have hdiv : (W.currentAddress - 2) / cfg.SPM_PAGESIZE
          = (W.currentAddress - cfg.SPM_PAGESIZE) / cfg.SPM_PAGESIZE := by
        rw [show W.currentAddress - 2
            = (W.currentAddress - cfg.SPM_PAGESIZE) + (cfg.SPM_PAGESIZE - 2) by omega]
        exact aligned_add_div cfg.SPM_PAGESIZE _ _ ha (by omega)
      rw [hdiv] at hxp1
      have hrange := (aligned_div_eq cfg.SPM_PAGESIZE _ x ha hPpos).mp hxp1
      exact hcovW x (by omega) hxe (by omega)
  · -- inside a page: fast path
    rw [if_neg hz] at ht
    refine ⟨W, fills, ht, ?_, hfill, Or.inl ⟨hWcmd, hdat⟩⟩
    unfold pageStaged
    refine ⟨by omega, by omega, base, by omega, hb2, hneq, ?_⟩
    intro x hx hxe hbx
    rw [hdat]
    exact hcovW x hx hxe hbx

/-- A list that holds every word address of the page of `c` holds at least a page's worth
of addresses of that page. -/
theorem page_count (P c : Nat) (l : List Nat) (hP : 0 < P) (hP2 : P % 2 = 0)
    (hcov : ∀ x, x % 2 = 0 → x / P = c / P → x ∈ l) :
    P / 2 ≤ (l.filter (fun x => decide (x / P = c / P))).length := by
  have ha : (c / P * P) % P = 0 := Nat.mul_mod_left _ _
  have hq : (c / P * P) / P = c / P := Nat.mul_div_cancel _ hP
  have hae := aligned_even P (c / P * P) hP2 ha
  have hsub : (List.range (P / 2)).map (fun i => c / P * P + 2 * i)
      ⊆ l.filter (fun x => decide (x / P = c / P)) := by
    intro x hx
    rw [List.mem_map] at hx
    obtain ⟨i, hi, rfl⟩ := hx
    rw [List.mem_range] at hi
    have hpage : (c / P * P + 2 * i) / P = c / P := by
      rw [aligned_add_div P _ (2 * i) ha (by omega), hq]
    rw [List.mem_filter]
    exact ⟨hcov _ (by omega) hpage, by simpa using hpage⟩
  have hnd : ((List.range (P / 2)).map (fun i => c / P * P + 2 * i)).Nodup := by
    refine List.Nodup.map ?_ (List.nodup_range _)
    intro i j hij
    simp only at hij
    omega
  have hlen := (List.subperm_of_subset hnd hsub).length_le
  simpa using hlen

/-- One tick from a state that satisfies the cursor invariant, receiving nothing, a
data-phase call, or a control request other than the internal code 64 whose TransferPage
address is the start of a page below the bootloader. -/
theorem pageStaged_tick (cfg : Config) (s : State) (ev : UsbEvent)
    (h256 : cfg.SPM_PAGESIZE ∣ 256) (hP2 : cfg.SPM_PAGESIZE % 2 = 0)
    (hBLP : cfg.BOOTLOADER_ADDRESS % cfg.SPM_PAGESIZE = 0)
    (hBL : cfg.BOOTLOADER_ADDRESS ≤ 65534)
    (hs : pageStaged cfg s) (hev : protocolEvent cfg ev) :
    ∃ s1 cont new, tick cfg s ev = some (s1, cont)
      ∧ pageStaged cfg s1
      ∧ s1.spmLog = s.spmLog ++ new
      ∧ (s1.command = cmd_write_page →
          ∃ fills, new = fills ++ [SpmOp.write (s1.currentAddress - 2)]
            ∧ (∀ op ∈ fills, ∃ a d, op = SpmOp.fill a d)
            ∧ ∀ x, x % 2 = 0 →
                x / cfg.SPM_PAGESIZE = (s1.currentAddress - 2) / cfg.SPM_PAGESIZE →
                x ∈ stagedAddresses (s.spmLog ++ fills))
      ∧ (s1.command ≠ cmd_write_page → s1.command ≠ cmd_erase_application →
          ∀ c, SpmOp.write c ∉ new) := by
  have hPpos : 0 < cfg.SPM_PAGESIZE := Nat.pos_of_dvd_of_pos h256 (by norm_num)
  cases ev with
  | idle =>
    refine ⟨_, _, [], tick_idle cfg s, pageStaged_congr cfg s _ rfl rfl hs,
      (List.append_nil _).symm, ?_, ?_⟩
    · intro h
      exact absurd (show cmd_local_nop = cmd_write_page from h) (by decide)
    · intro _ _ c hc; cases hc
  | write data L =>
    obtain ⟨s1, fills, ht, hst, hfill, hcase⟩ := pageStaged_write cfg s data L h256 hP2 hBL hs
    rcases hcase with ⟨hcmd, hlog⟩ | ⟨hcmd, hlog, hcov⟩
    · refine ⟨s1, true, fills, ht, hst, hlog, ?_, ?_⟩
      · intro h; rw [hcmd] at h; exact absurd h (by decide)
      · intro _ _ c hc
        obtain ⟨a, d, had⟩ := hfill _ hc
        cases had
    · refine ⟨s1, true, fills ++ [SpmOp.write (s1.currentAddress - 2)], ht, hst,
        by rw [hlog, List.append_assoc], ?_, ?_⟩
      · intro _; exact ⟨fills, rfl, hfill, hcov⟩
      · intro h; exact absurd hcmd h
  | setup rq =>
    obtain ⟨h64, htr⟩ := hev
    by_cases h0 : rq.bRequest % 256 = 0
    · refine ⟨_, _, [], tick_setup_info cfg s rq h0, pageStaged_congr cfg s _ rfl rfl hs,
        (List.append_nil _).symm, ?_, ?_⟩
      · intro h
        exact absurd (show cmd_local_nop = cmd_write_page from h) (by decide)
      · intro _ _ c hc; cases hc
    · by_cases h1 : rq.bRequest % 256 = 1
      · obtain ⟨ha, hlt⟩ := htr h1
        obtain ⟨s1, ht, hst, hcmd, hlog⟩ := pageStaged_transfer cfg s rq hP2 hBL h1 ha hlt
        refine ⟨s1, true, [SpmOp.clear], ht, hst, hlog, ?_, ?_⟩
        · intro h; rw [hcmd] at h; exact absurd h (by decide)
        · intro _ _ c hc; simp at hc
      · by_cases h2 : rq.bRequest % 256 = 2
        · obtain ⟨s1, ht, hst, hcmd, new, hlog⟩ := pageStaged_erase cfg s rq hPpos hBLP
            (by omega) h2
          refine ⟨s1, true, new, ht, hst, hlog, ?_, ?_⟩
          · intro h; rw [hcmd] at h; exact absurd h (by decide)
          · intro _ h; exact absurd hcmd h
        · have ht := tick_setup_deferred cfg s rq h0 h1
          obtain ⟨x, hx⟩ : ∃ x : State, x = { s with
              command := rq.bRequest % 256
              idlePolls := (s.idlePolls % 256 + 1) % 65536 } := ⟨_, rfl⟩
          rw [← hx] at ht
          have hxc : x.command = rq.bRequest % 256 := by rw [hx]
          have hd : dispatch cfg x = some x := by
            unfold dispatch
            rw [if_neg (by rw [hxc]; exact h2), if_neg (by rw [hxc]; exact h64)]
          rw [hd] at ht
          simp only [Option.map_some'] at ht
          refine ⟨x, _, [], ht, pageStaged_congr cfg s x (by rw [hx]) (by rw [hx]) hs,
            by rw [hx, List.append_nil], ?_, ?_⟩
          · intro h; rw [hxc] at h; exact absurd h h64
          · intro _ _ c hc; cases hc

/-! # The claims -/

/-! ### C1: bootloader protection -/

/-- Claim C1, evaluated at a failing input.  On the ATtiny85 build (bootloader at 0x1800,
64-byte pages) a `TransferPage` request for address 0x1840, which lies beyond the bootloader
address, followed by one data-phase call, makes `usbFunctionWrite` stage nothing but report
the page as complete and set `command` to `cmd_write_page`; the dispatch then issues a commit
at 0x183E.  That address is not below the bootloader address and lies in the
bootloader page that starts at 0x1800. -/
theorem transfer_beyond_bootloader_commits_bootloader_page (s : State) (data : Nat → Nat) :
    (usbFunctionWrite attiny85 (usbFunctionSetup attiny85 s ⟨cmd_transfer_page, 0x1840⟩).2
        data 8).map (fun r => (r.1, r.2.command)) = some (1, cmd_write_page)
    ∧ ((usbFunctionWrite attiny85 (usbFunctionSetup attiny85 s ⟨cmd_transfer_page, 0x1840⟩).2
        data 8).bind (fun r => dispatch attiny85 r.2)).map State.spmLog
        = some (s.spmLog ++ [SpmOp.clear, SpmOp.write 0x183E])
    ∧ attiny85.BOOTLOADER_ADDRESS ≤ 0x1840
    ∧ attiny85.BOOTLOADER_ADDRESS ≤ 0x183E
    ∧ 0x183E / attiny85.SPM_PAGESIZE = attiny85.BOOTLOADER_ADDRESS / attiny85.SPM_PAGESIZE := by
  rw [show (⟨cmd_transfer_page, 0x1840⟩ : usbRequest) = ⟨1, 0x1840⟩ from rfl]
  have h2 : (usbFunctionSetup attiny85 s ⟨1, 0x1840⟩).2.currentAddress = 0x1840 := by
    rw [usbFunctionSetup_transfer]
  have h : attiny85.BOOTLOADER_ADDRESS
      ≤ (usbFunctionSetup attiny85 s ⟨1, 0x1840⟩).2.currentAddress := by
    rw [h2]; decide
  have h3 : attiny85.SPM_PAGESIZE = 64 := rfl
  rw [usbFunctionWrite_of_ge _ _ _ _ h, h2, h3]
  refine ⟨by norm_num, ?_, by decide, by decide, by decide⟩
  norm_num [dispatch, cmd_write_page, cmd_erase_application, writeFlashPage, boot_page_write,
    usbFunctionSetup_transfer, boot_page_fill_clear]

/-! ### C2: one call of the page accumulator -/

/-- Claim C2.  With the bootloader at a word-aligned 16-bit address (at most 65534), for
every state and every data buffer of even length `L`, `2 ≤ L ≤ 8`, `usbFunctionWrite` returns
and stages exactly the first `n = min (L/2) slots` words, where `slots` counts the addresses
`currentAddress, currentAddress + 2, ...` below the bootloader address: the log grows by `n`
fills, at consecutive addresses, each carrying the input word after the vector-relocator
rewrite, every address lies below the bootloader, `currentAddress` advances by `2n`, flash is
untouched, and at or beyond the bootloader nothing is staged and the address stays put. -/
theorem accumulator_per_call (cfg : Config) (s : State) (data : Nat → Nat) (L : Nat)
    (hBL : cfg.BOOTLOADER_ADDRESS ≤ 65534) (hev : L % 2 = 0) (h2 : 2 ≤ L) (h8 : L ≤ 8) :
    ∃ r s1,
      usbFunctionWrite cfg s data L = some (r, s1)
      ∧ s1.spmLog
          = s.spmLog
            ++ (List.range (min (L / 2) ((cfg.BOOTLOADER_ADDRESS - s.currentAddress + 1) / 2))).map
              (fun i => SpmOp.fill (s.currentAddress + 2 * i)
                (relocatedWord cfg (writeWords cfg s (fun j => readWord data (2 * j)) i)
                  (readWord data (2 * i))))
      ∧ (∀ i, i < min (L / 2) ((cfg.BOOTLOADER_ADDRESS - s.currentAddress + 1) / 2) →
          s.currentAddress + 2 * i < cfg.BOOTLOADER_ADDRESS)
      ∧ s1.currentAddress
          = s.currentAddress
            + 2 * min (L / 2) ((cfg.BOOTLOADER_ADDRESS - s.currentAddress + 1) / 2)
      ∧ s1.pageBuffer
          = (writeWords cfg s (fun j => readWord data (2 * j))
              (min (L / 2) ((cfg.BOOTLOADER_ADDRESS - s.currentAddress + 1) / 2))).pageBuffer
      ∧ s1.flash = s.flash
      ∧ (cfg.BOOTLOADER_ADDRESS ≤ s.currentAddress →
          s1.spmLog = s.spmLog ∧ s1.currentAddress = s.currentAddress
            ∧ s1.pageBuffer = s.pageBuffer) := by
  rw [usbFunctionWrite_eq cfg s data L hBL hev h2 (by omega)]
  refine ⟨_, _, rfl, ?_⟩
  generalize hn : min (L / 2) ((cfg.BOOTLOADER_ADDRESS - s.currentAddress + 1) / 2) = n
  have hbound : ∀ i, i < n → s.currentAddress + 2 * i < cfg.BOOTLOADER_ADDRESS := by
    intro i hi; omega
  have hcur : n = 0 ∨ s.currentAddress + 2 * n ≤ 65535 := by omega
  have hlog := writeWords_spmLog cfg s (fun j => readWord data (2 * j)) n (by omega)
  have hca : (writeWords cfg s (fun j => readWord data (2 * j)) n).currentAddress
      = s.currentAddress + 2 * n := by
    exact writeWords_currentAddress cfg s _ n hcur
  have hfl := writeWords_flash cfg s (fun j => readWord data (2 * j)) n
  have hz : cfg.BOOTLOADER_ADDRESS ≤ s.currentAddress → n = 0 := by intro h; omega
  split_ifs
  · refine ⟨hlog, hbound, hca, rfl, hfl, ?_⟩
    intro h
    have := hz h
    subst this
    exact ⟨rfl, rfl, rfl⟩
  · refine ⟨hlog, hbound, hca, rfl, hfl, ?_⟩
    intro h
    have := hz h
    subst this
    exact ⟨rfl, rfl, rfl⟩

/-- Witness for C2: one eight-byte packet on the ATtiny85 build from the blank state. -/
theorem accumulator_per_call_witness :
    attiny85.BOOTLOADER_ADDRESS ≤ 65534 ∧ 8 % 2 = 0 ∧ 2 ≤ 8 ∧ 8 ≤ 8
    ∧ (usbFunctionWrite attiny85 blankState (fun _ => 0) 8).map (fun r => r.2.currentAddress)
        = some 8 := by
  refine ⟨by decide, by decide, by decide, by decide, ?_⟩
  obtain ⟨r, s1, h, _, _, hc, _⟩ :=
    accumulator_per_call attiny85 blankState (fun _ => 0) 8 (by decide) (by decide) (by decide) (by decide)
  rw [h]
  simpa [blankState, attiny85] using hc

/-! ### C3: full-page round trip -/

/-- Claim C3.  Page size a power of two between 8 and 256, bootloader address a 16-bit
multiple of it, `a` a page-aligned address below the bootloader whose page is erased, any
prior state, any page contents `bytes`.  After `TransferPage(a)`, every data-phase call but
the last returns 0 and leaves `command` as it was; the last call returns 1 with `command`
equal to `cmd_write_page` and `currentAddress = a + pageSize`; the dispatch commits at
`a + pageSize - 2`, which lies in the page of `a`; flash outside that page is unchanged, and
every word of the page other than the reset-vector, tinyvector and (when enabled) calibration
slot reads back as supplied. -/
theorem full_page_round_trip (cfg : Config) (s : State) (a : Nat) (bytes : Nat → Nat)
    (hP : ∃ e, 3 ≤ e ∧ e ≤ 8 ∧ cfg.SPM_PAGESIZE = 2 ^ e)
    (hBLP : cfg.BOOTLOADER_ADDRESS % cfg.SPM_PAGESIZE = 0)
    (hBL : cfg.BOOTLOADER_ADDRESS < 65536)
    (haP : a % cfg.SPM_PAGESIZE = 0) (ha : a < cfg.BOOTLOADER_ADDRESS)
    (_herased : ∀ w, a ≤ 2 * w → 2 * w < a + cfg.SPM_PAGESIZE → s.flash w = 0xFFFF) :
    (∀ j, j < cfg.SPM_PAGESIZE / 8 →
      ∃ sj, dataPhase cfg (usbFunctionSetup cfg s ⟨cmd_transfer_page, a⟩).2 bytes j
              = some (List.replicate j 0, sj)
            ∧ sj.command = s.command)
    ∧ ∃ sLast sC,
        dataPhase cfg (usbFunctionSetup cfg s ⟨cmd_transfer_page, a⟩).2 bytes
            (cfg.SPM_PAGESIZE / 8)
          = some (List.replicate (cfg.SPM_PAGESIZE / 8 - 1) 0 ++ [1], sLast)
        ∧ sLast.command = cmd_write_page
        ∧ sLast.currentAddress = a + cfg.SPM_PAGESIZE
        ∧ dispatch cfg sLast = some sC
        ∧ sC.spmLog = sLast.spmLog ++ [SpmOp.write (a + cfg.SPM_PAGESIZE - 2)]
        ∧ (a + cfg.SPM_PAGESIZE - 2) / cfg.SPM_PAGESIZE = a / cfg.SPM_PAGESIZE
        ∧ (∀ w, ¬ (a ≤ 2 * w ∧ 2 * w < a + cfg.SPM_PAGESIZE) → sC.flash w = s.flash w)
        ∧ (∀ i, i < cfg.SPM_PAGESIZE / 2 →
            a + 2 * i ≠ cfg.RESET_VECTOR_OFFSET * 2 →
            a + 2 * i + cfg.TINYVECTOR_RESET_OFFSET ≠ cfg.BOOTLOADER_ADDRESS →
            ¬ ((!cfg.OSCCAL_RESTORE && cfg.OSCCAL_16_5MHz) = true
                ∧ a + 2 * i + cfg.TINYVECTOR_OSCCAL_OFFSET = cfg.BOOTLOADER_ADDRESS) →
            pgm_read_word sC (a + 2 * i) = readWord bytes (2 * i)) := by
  obtain ⟨h256, h8, hP2, hP8, hP256⟩ := pageSize_facts _ hP
  have haPB := aligned_add_le _ a _ haP hBLP ha
  have hBLe := aligned_even _ _ hP2 hBLP
  have hBL' : cfg.BOOTLOADER_ADDRESS ≤ 65534 := by omega
  have hae := aligned_even _ a hP2 haP
  rw [show (⟨cmd_transfer_page, a⟩ : usbRequest) = ⟨1, a⟩ from rfl, usbFunctionSetup_transfer]
  simp only
  generalize hs0 : ({ boot_page_fill_clear { s with idlePolls := s.idlePolls % 256 } with
      currentAddress := a % 65536 } : State) = s0
  have hcur : s0.currentAddress = a := by
    rw [← hs0]; show a % 65536 = a; omega
  have hcmd : s0.command = s.command := by rw [← hs0]; rfl
  have hfl : s0.flash = s.flash := by rw [← hs0]; rfl
  refine ⟨?_, ?_⟩
  · intro j hj
    have hj8 : 8 * j < cfg.SPM_PAGESIZE := by omega
    refine ⟨_, dataPhase_inner cfg s0 bytes a hBL' h256 haP hcur haPB j hj8, ?_⟩
    rw [writeWords_command, hcmd]
  · have hhalf : 2 * (cfg.SPM_PAGESIZE / 2) = cfg.SPM_PAGESIZE := by omega
    have hcl : (writeWords cfg s0 (fun i => readWord bytes (2 * i))
        (cfg.SPM_PAGESIZE / 2)).currentAddress = a + cfg.SPM_PAGESIZE := by
      rw [writeWords_currentAddress cfg s0 _ _ (by omega), hcur, hhalf]
    have hfull := dataPhase_full cfg s0 bytes a hBL' h256 h8 (by omega) haP hcur haPB
    obtain ⟨sL, hsL⟩ : ∃ sL : State, sL = { writeWords cfg s0 (fun i => readWord bytes (2 * i))
        (cfg.SPM_PAGESIZE / 2) with command := cmd_write_page } := ⟨_, rfl⟩
    rw [← hsL] at hfull
    have hLcur : sL.currentAddress = a + cfg.SPM_PAGESIZE := by rw [hsL]; exact hcl
    have hLcmd : sL.command = cmd_write_page := by rw [hsL]
    have hLfl : sL.flash = s.flash := by
      rw [hsL]
      show (writeWords cfg s0 _ _).flash = _
      rw [writeWords_flash, hfl]
    have hLpb : sL.pageBuffer = (writeWords cfg s0 (fun i => readWord bytes (2 * i))
        (cfg.SPM_PAGESIZE / 2)).pageBuffer := by rw [hsL]
    refine ⟨sL, writeFlashPage cfg sL, hfull, hLcmd, hLcur,
      dispatch_write_page cfg sL hLcmd, ?_, ?_, ?_, ?_⟩
    · rw [writeFlashPage_spmLog, hLcur,
        show (a + cfg.SPM_PAGESIZE + 65536 - 2) % 65536 = a + cfg.SPM_PAGESIZE - 2 by omega]
    · rw [show a + cfg.SPM_PAGESIZE - 2 = a + (cfg.SPM_PAGESIZE - 2) by omega]
      exact aligned_add_div _ a _ haP (by omega)
    · intro w hw
      rw [writeFlashPage_flash_outside cfg sL a w haP (by omega) hLcur (by omega) hw, hLfl]
    · intro i hi h1 h2 h3
      have hci : (writeWords cfg s0 (fun i => readWord bytes (2 * i)) i).currentAddress
          = a + 2 * i := by
        rw [writeWords_currentAddress cfg s0 _ _ (by omega), hcur]
      show (writeFlashPage cfg sL).flash ((a + 2 * i) / 2) = _
      rw [show (a + 2 * i) / 2 = a / 2 + i by omega,
        writeFlashPage_flash_inside cfg sL a i hP2 haP hLcur (by omega) (by omega), hLpb,
        writeWords_pageBuffer cfg s0 _ a haP hcur _ (by omega) (by omega) i hi,
        relocatedWord_plain cfg _ _ (by rw [hci]; exact h1) (by rw [hci]; exact h2)
          (by rw [hci]; exact h3)]

/-- Witness for C3: the page at address 64 of the ATtiny85 build. -/
theorem full_page_round_trip_witness :
    (dataPhase attiny85 (usbFunctionSetup attiny85 blankState ⟨cmd_transfer_page, 64⟩).2
        (fun _ => 0x5A) (attiny85.SPM_PAGESIZE / 8)).map Prod.fst
      = some [0, 0, 0, 0, 0, 0, 0, 1] := by
  obtain ⟨_, sL, sC, h, _⟩ := full_page_round_trip attiny85 blankState 64 (fun _ => 0x5A)
    ⟨6, by decide, by decide, rfl⟩ (by decide) (by decide) (by decide) (by decide)
    (fun _ _ _ => rfl)
  rw [h]
  rfl

/-! ### C4: reset-vector rewrite -/

/-- Counterexample to C4 as stated.  With the bootloader at address 4 (even, between 2 and
8192) and the tinyvector slot four bytes below it, address 0 is the tinyvector slot as well:
the word staged at `currentAddress = 0` then depends on the supplied word (0xC123 gives
0xD123, 0xC456 gives 0xD456) and is not `0xC000 + 4/2 - 1 = 0xC001`. -/
theorem reset_rewrite_overridden_at_address_zero :
    bootAtFour.RESET_VECTOR_OFFSET = 0 ∧ bootAtFour.BOOTLOADER_ADDRESS % 2 = 0
    ∧ 2 ≤ bootAtFour.BOOTLOADER_ADDRESS ∧ bootAtFour.BOOTLOADER_ADDRESS ≤ 8192
    ∧ blankState.currentAddress = 0
    ∧ (writeWordToPageBuffer bootAtFour blankState 0xC123).spmLog = [SpmOp.fill 0 0xD123]
    ∧ (writeWordToPageBuffer bootAtFour blankState 0xC456).spmLog = [SpmOp.fill 0 0xD456]
    ∧ 0xC000 + bootAtFour.BOOTLOADER_ADDRESS / 2 - 1 = 0xC001 := by
  refine ⟨rfl, rfl, by decide, by decide, rfl, ?_, ?_, rfl⟩
  · decide
  · rfl

/-- Claim C4, amended.  Reset-vector slot at address 0, bootloader address even and between
2 and 8192, and address 0 neither the tinyvector slot nor (when that feature is enabled) the
calibration slot.  Then `writeWordToPageBuffer` at `currentAddress = 0` saves the supplied
word in `vectorTemp` and stages `0xC000 + BOOTLOADER_ADDRESS/2 - 1` whatever the supplied word
is; that word is an `rjmp`, and from word address 0 its target `0 + 1 + k` is the word address
`BOOTLOADER_ADDRESS/2`. -/
theorem reset_vector_rewrite (cfg : Config) (s : State) (w : Nat)
    (hRVO : cfg.RESET_VECTOR_OFFSET = 0)
    (hev : cfg.BOOTLOADER_ADDRESS % 2 = 0) (h2 : 2 ≤ cfg.BOOTLOADER_ADDRESS)
    (h8192 : cfg.BOOTLOADER_ADDRESS ≤ 8192)
    (hcur : s.currentAddress = 0)
    (htiny : cfg.BOOTLOADER_ADDRESS ≠ cfg.TINYVECTOR_RESET_OFFSET)
    (hcal : ¬ ((!cfg.OSCCAL_RESTORE && cfg.OSCCAL_16_5MHz) = true
              ∧ cfg.BOOTLOADER_ADDRESS = cfg.TINYVECTOR_OSCCAL_OFFSET)) :
    (writeWordToPageBuffer cfg s w).vectorTemp = w
    ∧ (writeWordToPageBuffer cfg s w).spmLog
        = s.spmLog ++ [SpmOp.fill 0 (0xC000 + cfg.BOOTLOADER_ADDRESS / 2 - 1)]
    ∧ (writeWordToPageBuffer cfg s w).pageBuffer 0 = 0xC000 + cfg.BOOTLOADER_ADDRESS / 2 - 1
    ∧ isRjmp (0xC000 + cfg.BOOTLOADER_ADDRESS / 2 - 1)
    ∧ 0 + 1 + (0xC000 + cfg.BOOTLOADER_ADDRESS / 2 - 1) % 4096 = cfg.BOOTLOADER_ADDRESS / 2 := by
  have hrel : relocatedWord cfg s w = 0xC000 + cfg.BOOTLOADER_ADDRESS / 2 - 1 := by
    have h1 : ¬ ((s.currentAddress : Int)
        = (cfg.BOOTLOADER_ADDRESS : Int) - (cfg.TINYVECTOR_RESET_OFFSET : Int)) := by omega
    have h3 : ¬ ((!cfg.OSCCAL_RESTORE && cfg.OSCCAL_16_5MHz) = true ∧ (s.currentAddress : Int)
        = (cfg.BOOTLOADER_ADDRESS : Int) - (cfg.TINYVECTOR_OSCCAL_OFFSET : Int)) := by
      rintro ⟨hx, hy⟩
      exact hcal ⟨hx, by omega⟩
    have h0 : s.currentAddress = cfg.RESET_VECTOR_OFFSET * 2 := by omega
    simp only [relocatedWord, h0, h1, h3, decide_True, if_true, if_false]
    rw [h0] at h1 h3
    simp only [h1, h3, if_false]
    omega
  refine ⟨?_, ?_, ?_, ?_, ?_⟩
  · rw [writeWordToPageBuffer_vectorTemp, if_pos (by omega)]
  · rw [writeWordToPageBuffer_spmLog, hrel, hcur]
  · rw [writeWordToPageBuffer_pageBuffer, hrel, hcur]
    simp
  · unfold isRjmp; omega
  · omega

/-- Witness for C4: the ATtiny85 build stages 0xCBFF at address 0. -/
theorem reset_vector_rewrite_witness :
    (writeWordToPageBuffer attiny85 blankState 0x1234).vectorTemp = 0x1234
    ∧ (writeWordToPageBuffer attiny85 blankState 0x1234).pageBuffer 0 = 0xCBFF :=
  have h := reset_vector_rewrite attiny85 blankState 0x1234 rfl (by decide) (by decide) (by decide) rfl
    (by decide) (by decide)
  ⟨h.1, h.2.2.1⟩

/-! ### C5: tinyvector re-encoding -/

/-- Counterexample to C5 as stated.  ATtiny85 build (4096 words of flash, bootloader at
0x1800): for the saved relative jump `0xCFFF` the word staged at the tinyvector slot is
`0xCFFF + 1024 + 2 = 0xD401`, whose top nibble is 0xD. -/
theorem tinyvector_offset_overflow :
    attiny85.RESET_VECTOR_OFFSET = 0 ∧ attiny85.TINYVECTOR_RESET_OFFSET = 4
    ∧ attiny85.FLASHEND + 1 = 2 * 4096
    ∧ (0xCFFF = 0xC000 ||| 0xFFF)
    ∧ (writeWordToPageBuffer attiny85
        { blankState with currentAddress := attiny85.BOOTLOADER_ADDRESS - 4,
                          vectorTemp := 0xCFFF } 0).spmLog
        = [SpmOp.fill (attiny85.BOOTLOADER_ADDRESS - 4) 0xD401]
    ∧ ¬ isRjmp 0xD401 := by
  refine ⟨rfl, rfl, rfl, by decide, by decide, by decide⟩

/-- Claim C5, amended.  Reset-vector slot at word 0, tinyvector slot at byte address
`BOOTLOADER_ADDRESS - 4`, flash of `F = 2^e ≤ 4096` words holding the word-aligned bootloader
address.  If the saved reset vector (`vectorTemp` as the rule reads it) is `0xC000 + k` with
`k ≤ 0xFFF` and the adjusted offset still fits twelve bits,
`k + (F - BOOTLOADER_ADDRESS/2) + 2 ≤ 0xFFF`, then the word staged at the tinyvector slot is
`0xC000 + k + ((FLASHEND+1) - BOOTLOADER_ADDRESS)/2 + 2 + RESET_VECTOR_OFFSET`, it is an
`rjmp`, and its target from the tinyvector slot equals the target of the saved word from word
address 0 (signed offsets, modulo `F`). -/
theorem tinyvector_reencoding (cfg : Config) (s : State) (w k F e : Nat)
    (hRVO : cfg.RESET_VECTOR_OFFSET = 0) (hTRO : cfg.TINYVECTOR_RESET_OFFSET = 4)
    (hF : F = 2 ^ e) (he : e ≤ 12) (hFE : cfg.FLASHEND + 1 = 2 * F)
    (hBLe : cfg.BOOTLOADER_ADDRESS % 2 = 0) (hBLF : cfg.BOOTLOADER_ADDRESS ≤ 2 * F)
    (hcur : s.currentAddress + 4 = cfg.BOOTLOADER_ADDRESS)
    (hv : (writeWordToPageBuffer cfg s w).vectorTemp = 0xC000 + k) (hk : k ≤ 0xFFF)
    (hfit : k + (F - cfg.BOOTLOADER_ADDRESS / 2) + 2 ≤ 0xFFF) :
    (writeWordToPageBuffer cfg s w).spmLog
        = s.spmLog ++ [SpmOp.fill (cfg.BOOTLOADER_ADDRESS - 4)
            (0xC000 + k + ((cfg.FLASHEND + 1) - cfg.BOOTLOADER_ADDRESS) / 2 + 2
              + cfg.RESET_VECTOR_OFFSET)]
    ∧ isRjmp (0xC000 + k + ((cfg.FLASHEND + 1) - cfg.BOOTLOADER_ADDRESS) / 2 + 2
              + cfg.RESET_VECTOR_OFFSET)
    ∧ rjmpTarget F ((cfg.BOOTLOADER_ADDRESS - 4) / 2)
          (0xC000 + k + ((cfg.FLASHEND + 1) - cfg.BOOTLOADER_ADDRESS) / 2 + 2
              + cfg.RESET_VECTOR_OFFSET)
        = rjmpTarget F 0 (0xC000 + k) := by
  have hrel : relocatedWord cfg s w
      = 0xC000 + k + ((cfg.FLASHEND + 1) - cfg.BOOTLOADER_ADDRESS) / 2 + 2
          + cfg.RESET_VECTOR_OFFSET := by
    have h1 : (s.currentAddress : Int)
        = (cfg.BOOTLOADER_ADDRESS : Int) - (cfg.TINYVECTOR_RESET_OFFSET : Int) := by omega
    rw [writeWordToPageBuffer_vectorTemp] at hv
    simp only [relocatedWord, h1, decide_eq_true_eq, if_true]
    rw [hv, tinyvectorWord_eq cfg _ (by omega)]
    omega
  refine ⟨?_, ?_, ?_⟩
  · rw [writeWordToPageBuffer_spmLog, hrel,
      show s.currentAddress = cfg.BOOTLOADER_ADDRESS - 4 by omega]
  · unfold isRjmp; omega
  · have hdvd : F ∣ 4096 := by
      rw [hF, show (4096 : Nat) = 2 ^ 12 by norm_num]
      exact Nat.pow_dvd_pow 2 he
    rw [rjmpTarget_eq F _ _ hdvd, rjmpTarget_eq F _ _ hdvd]
    have h1 : (cfg.BOOTLOADER_ADDRESS - 4) / 2 + 1
        + (0xC000 + k + ((cfg.FLASHEND + 1) - cfg.BOOTLOADER_ADDRESS) / 2 + 2
            + cfg.RESET_VECTOR_OFFSET) % 4096 = (k + 1) + F := by omega
    have h2 : 0 + 1 + (0xC000 + k) % 4096 = k + 1 := by omega
    rw [h1, h2, Nat.add_mod_right]

/-- Witness for C5: saved vector 0xC00A on the ATtiny85 build. -/
theorem tinyvector_reencoding_witness :
    rjmpTarget 4096 ((attiny85.BOOTLOADER_ADDRESS - 4) / 2) 0xC40C
      = rjmpTarget 4096 0 (0xC000 + 10) :=
  (tinyvector_reencoding attiny85
    { blankState with currentAddress := attiny85.BOOTLOADER_ADDRESS - 4, vectorTemp := 0xC00A }
    0 10 4096 12 rfl rfl (by norm_num) (by decide) rfl (by decide) (by decide) rfl rfl
    (by decide) (by decide)).2.2

/-! ### C6: relocation across a session -/

/-- Claim C6.  Page size a power of two between 8 and 256 (pages travel in eight-byte
packets), at least two application pages, reset-vector slot at word 0, tinyvector slot at
`BOOTLOADER_ADDRESS - 4`, flash of `F = 2^e ≤ 4096` words holding the bootloader address.  For
an image whose reset-vector word is `0xC000 + k` with target `1 + k` below the tinyvector
slot, the main loop fed with `EraseApplication` and then every application page in ascending
order keeps running and leaves at the tinyvector slot the word computed from the host's reset
vector; that word is an `rjmp` and its target from the tinyvector slot is word `1 + k`. -/
theorem session_relocation (cfg : Config) (s : State) (image : Nat → Nat) (k F e : Nat)
    (hP : ∃ x, 3 ≤ x ∧ x ≤ 8 ∧ cfg.SPM_PAGESIZE = 2 ^ x)
    (hBLP : cfg.BOOTLOADER_ADDRESS % cfg.SPM_PAGESIZE = 0)
    (h2 : 2 * cfg.SPM_PAGESIZE ≤ cfg.BOOTLOADER_ADDRESS)
    (hRVO : cfg.RESET_VECTOR_OFFSET = 0) (hTRO : cfg.TINYVECTOR_RESET_OFFSET = 4)
    (hF : F = 2 ^ e) (he : e ≤ 12) (hFE : cfg.FLASHEND + 1 = 2 * F)
    (hBLF : cfg.BOOTLOADER_ADDRESS ≤ 2 * F)
    (hv : readWord image 0 = 0xC000 + k)
    (hk : 1 + k < (cfg.BOOTLOADER_ADDRESS - 4) / 2) :
    ∃ sF, mainLoop cfg s (sessionEvents cfg image) = some sF
      ∧ sF.leaveCalls = s.leaveCalls
      ∧ pgm_read_word sF (cfg.BOOTLOADER_ADDRESS - 4)
          = readWord image 0 + ((cfg.FLASHEND + 1) - cfg.BOOTLOADER_ADDRESS) / 2 + 2
              + cfg.RESET_VECTOR_OFFSET
      ∧ isRjmp (pgm_read_word sF (cfg.BOOTLOADER_ADDRESS - 4))
      ∧ rjmpTarget F ((cfg.BOOTLOADER_ADDRESS - 4) / 2)
          (pgm_read_word sF (cfg.BOOTLOADER_ADDRESS - 4)) = 1 + k := by
  obtain ⟨h256, h8, hP2, hP8, hP256⟩ := pageSize_facts _ hP
  have hdvd : F ∣ 4096 := by
    rw [hF, show (4096 : Nat) = 2 ^ 12 by norm_num]
    exact Nat.pow_dvd_pow 2 he
  have hF4096 : F ≤ 4096 := Nat.le_of_dvd (by norm_num) hdvd
  have hBL16 : cfg.BOOTLOADER_ADDRESS < 65536 := by omega
  have hBLe := aligned_even _ _ hP2 hBLP
  have hBL' : cfg.BOOTLOADER_ADDRESS ≤ 65534 := by omega
  have hpos : 0 < cfg.SPM_PAGESIZE := by omega
  have hn : cfg.BOOTLOADER_ADDRESS / cfg.SPM_PAGESIZE * cfg.SPM_PAGESIZE
      = cfg.BOOTLOADER_ADDRESS := Nat.div_mul_cancel (Nat.dvd_of_mod_eq_zero hBLP)
  have hn2 : 2 ≤ cfg.BOOTLOADER_ADDRESS / cfg.SPM_PAGESIZE := by
    rw [Nat.le_div_iff_mul_le hpos]; omega
  obtain ⟨n, hnn⟩ : ∃ n, cfg.BOOTLOADER_ADDRESS / cfg.SPM_PAGESIZE = n + 2 :=
    ⟨cfg.BOOTLOADER_ADDRESS / cfg.SPM_PAGESIZE - 2, by omega⟩
  rw [hnn] at hn
  -- the erase tick
  obtain ⟨sE, htE, hlcE⟩ := tick_erase_request cfg s 0 hpos hBLP hBL16
  -- page 0
  have hP0 : (0 * cfg.SPM_PAGESIZE) % cfg.SPM_PAGESIZE = 0 := by simp
  obtain ⟨s0, hloop0, hlc0, _, hvt0, _, _⟩ :=
    page_transfer cfg sE (fun i => image (0 * cfg.SPM_PAGESIZE + i)) (0 * cfg.SPM_PAGESIZE)
      hBL' h256 h8 hpos hP0 (by omega)
  have hv0 : s0.vectorTemp = readWord image 0 := by
    rw [hvt0 (by rw [hRVO]; simp)]
    simp [readWord]
  -- the remaining pages
  obtain ⟨sF, hF', hflF, hlcF⟩ :=
    image_tail cfg image (readWord image 0) hBL' h256 h8 hpos hRVO hTRO (n + 1) 1 s0
      (by omega) (by omega) (by rw [← hn]; ring) hv0
  have hword : tinyvectorWord cfg (readWord image 0)
      = readWord image 0 + ((cfg.FLASHEND + 1) - cfg.BOOTLOADER_ADDRESS) / 2 + 2
          + cfg.RESET_VECTOR_OFFSET := by
    rw [tinyvectorWord_eq cfg _ (by omega), hv]
    omega
  have hread : pgm_read_word sF (cfg.BOOTLOADER_ADDRESS - 4)
      = readWord image 0 + ((cfg.FLASHEND + 1) - cfg.BOOTLOADER_ADDRESS) / 2 + 2
          + cfg.RESET_VECTOR_OFFSET := by
    show sF.flash _ = _
    rw [hflF, hword]
  refine ⟨sF, ?_, by rw [hlcF, hlc0, hlcE], hread, ?_, ?_⟩
  · simp only [sessionEvents, hnn]
    rw [mainLoop_cons_continue cfg s sE _ _ htE]
    simp only [imageEvents]
    rw [hloop0]
    exact hF'
  · rw [hread, hv]
    unfold isRjmp
    omega
  · rw [hread, hv, rjmpTarget_eq F _ _ hdvd]
    have h1 : (cfg.BOOTLOADER_ADDRESS - 4) / 2 + 1
        + (0xC000 + k + ((cfg.FLASHEND + 1) - cfg.BOOTLOADER_ADDRESS) / 2 + 2
            + cfg.RESET_VECTOR_OFFSET) % 4096 = (1 + k) + F := by omega
    rw [h1, Nat.add_mod_right, Nat.mod_eq_of_lt (by omega)]

/-- Witness for C6: the demo image on the ATtiny85 build. -/
theorem session_relocation_witness :
    (mainLoop attiny85 blankState (sessionEvents attiny85 demoImage)).map
        (fun s => pgm_read_word s (attiny85.BOOTLOADER_ADDRESS - 4)) = some 0xC40C := by
  obtain ⟨sF, h, _, hw, _⟩ := session_relocation attiny85 blankState demoImage 10 4096 12
    ⟨6, by decide, by decide, rfl⟩ (by decide) (by decide) rfl rfl (by norm_num) (by decide)
    rfl (by decide) (by decide) (by decide)
  rw [h]
  exact congrArg some hw

/-! ### C7: flash after erase -/

/-- Counterexample to C7 as stated, at two inputs.  With a single 16-byte application page
the eight filler words reach the tinyvector slot, so after `eraseApplication` the application
word at address 12 reads 0x0FF9.  On the ATtiny85 build, started with a word left in slot 8
of the page buffer, the application word at address 16 reads that stale word 0x1234. -/
theorem erase_leaves_programmed_words :
    (16 ≤ singlePage.SPM_PAGESIZE
      ∧ singlePage.BOOTLOADER_ADDRESS % singlePage.SPM_PAGESIZE = 0
      ∧ 12 < singlePage.BOOTLOADER_ADDRESS ∧ 12 ≠ singlePage.RESET_VECTOR_OFFSET * 2
      ∧ (eraseApplication singlePage blankState).map (fun s => pgm_read_word s 12)
          = some 0x0FF9)
    ∧ (16 ≤ attiny85.SPM_PAGESIZE
      ∧ attiny85.BOOTLOADER_ADDRESS % attiny85.SPM_PAGESIZE = 0
      ∧ 16 < attiny85.BOOTLOADER_ADDRESS ∧ 16 ≠ attiny85.RESET_VECTOR_OFFSET * 2
      ∧ (eraseApplication attiny85 staleBufferState).map (fun s => pgm_read_word s 16)
          = some 0x1234) := by
  refine ⟨⟨by decide, by decide, by decide, by decide, by decide⟩,
    ⟨by decide, by decide, by decide, by decide, by decide⟩⟩

/-- Claim C7, amended.  Page size at least 16, bootloader address a 16-bit multiple of it,
tinyvector slot and (when enabled) calibration slot not among the first eight words of flash.
From every prior state `eraseApplication` returns, and then every word of every application
page other than page 0 reads 0xFFFF; of the first eight words of page 0 the reset-vector slot
holds `0xC000 + BOOTLOADER_ADDRESS/2 - 1` (in 16 bits) and the others read 0xFFFF; every word
at or above the bootloader address is unchanged. -/
theorem flash_after_erase (cfg : Config) (s : State) (hP16 : 16 ≤ cfg.SPM_PAGESIZE)
    (hBLP : cfg.BOOTLOADER_ADDRESS % cfg.SPM_PAGESIZE = 0)
    (hBL : cfg.BOOTLOADER_ADDRESS < 65536)
    (hT : cfg.TINYVECTOR_RESET_OFFSET + 16 ≤ cfg.BOOTLOADER_ADDRESS)
    (hO : (!cfg.OSCCAL_RESTORE && cfg.OSCCAL_16_5MHz) = true →
            cfg.TINYVECTOR_OSCCAL_OFFSET + 16 ≤ cfg.BOOTLOADER_ADDRESS) :
    ∃ s2, eraseApplication cfg s = some s2
      ∧ (∀ w, cfg.SPM_PAGESIZE ≤ 2 * w → 2 * w < cfg.BOOTLOADER_ADDRESS →
          s2.flash w = 0xFFFF)
      ∧ (∀ w, w < 8 →
          s2.flash w = if w = cfg.RESET_VECTOR_OFFSET
                       then (0xC000 + cfg.BOOTLOADER_ADDRESS / 2 - 1) % 65536 else 0xFFFF)
      ∧ (∀ w, cfg.BOOTLOADER_ADDRESS ≤ 2 * w → s2.flash w = s.flash w) := by
  have hBL0 : 0 < cfg.BOOTLOADER_ADDRESS := by omega
  have hP : 0 < cfg.SPM_PAGESIZE := by omega
  have hBLge : cfg.SPM_PAGESIZE ≤ cfg.BOOTLOADER_ADDRESS := by
    have := aligned_add_le cfg.SPM_PAGESIZE 0 cfg.BOOTLOADER_ADDRESS (Nat.zero_mod _) hBLP hBL0
    omega
  have heq := eraseApplication_eq cfg s hP hBLP hBL
  obtain ⟨x0, hx0⟩ : ∃ x0 : State, x0 = { s with
      currentAddress := 0
      flash := fun w => if 2 * w < cfg.BOOTLOADER_ADDRESS then 0xFFFF else s.flash w
      spmLog := s.spmLog
        ++ (List.range (cfg.BOOTLOADER_ADDRESS / cfg.SPM_PAGESIZE)).reverse.map
          (fun p => SpmOp.erase (p * cfg.SPM_PAGESIZE)) } := ⟨_, rfl⟩
  rw [← hx0] at heq
  have hcur : x0.currentAddress = 0 := by rw [hx0]
  have hfl : ∀ w, x0.flash w = if 2 * w < cfg.BOOTLOADER_ADDRESS then 0xFFFF else s.flash w := by
    intro w; rw [hx0]
  have hc8 : (writeWords cfg x0 (fun _ => 0xFFFF) 8).currentAddress = 16 := by
    rw [writeWords_currentAddress _ _ _ 8 (Or.inr (by omega)), hcur]
  have h14 : 14 / cfg.SPM_PAGESIZE = 0 := Nat.div_eq_of_lt (by omega)
  have hflash : ∀ w, (writeFlashPage cfg (writeWords cfg x0 (fun _ => 0xFFFF) 8)).flash w
      = if 2 * w / cfg.SPM_PAGESIZE = 0
        then (writeWords cfg x0 (fun _ => 0xFFFF) 8).pageBuffer
              ((2 * w % cfg.SPM_PAGESIZE) / 2)
        else x0.flash w := by
    intro w
    simp only [writeFlashPage, boot_page_write, hc8, writeWords_flash]
    rw [show (16 + 65536 - 2) % 65536 = 14 by norm_num, h14]
  have hhigh : ∀ w, cfg.SPM_PAGESIZE ≤ 2 * w → ¬ (2 * w / cfg.SPM_PAGESIZE = 0) := by
    intro w hw h0
    have : 1 ≤ 2 * w / cfg.SPM_PAGESIZE := by
      rw [Nat.le_div_iff_mul_le hP]; omega
    omega
  have hlow : ∀ w, w < 8 →
      (writeFlashPage cfg (writeWords cfg x0 (fun _ => 0xFFFF) 8)).flash w
        = relocatedWord cfg (writeWords cfg x0 (fun _ => 0xFFFF) w) 0xFFFF := by
    intro w hw
    have hlt : 2 * w < cfg.SPM_PAGESIZE := by omega
    rw [hflash, if_pos (Nat.div_eq_of_lt hlt), Nat.mod_eq_of_lt hlt,
      show 2 * w / 2 = w by omega,
      writeWords_pageBuffer cfg x0 _ 0 (Nat.zero_mod _) hcur 8 (by omega) (by omega) w hw]
  have hcw : ∀ w, w < 8 → (writeWords cfg x0 (fun _ => 0xFFFF) w).currentAddress = 2 * w := by
    intro w hw
    rw [writeWords_currentAddress _ _ _ w (Or.inr (by omega)), hcur]; omega
  refine ⟨_, heq, ?_, ?_, ?_⟩
  · intro w h1 h2
    rw [hflash, if_neg (hhigh w h1), hfl, if_pos h2]
  · intro w h8
    rw [hlow w h8]
    by_cases hw : w = cfg.RESET_VECTOR_OFFSET
    · rw [if_pos hw]
      exact relocatedWord_reset cfg _ _ (by rw [hcw w h8]; omega)
        (by rw [hcw w h8]; omega)
        (by rw [hcw w h8]; rintro ⟨he, hq⟩; have := hO he; omega)
    · rw [if_neg hw]
      exact relocatedWord_plain cfg _ _ (by rw [hcw w h8]; omega)
        (by rw [hcw w h8]; omega)
        (by rw [hcw w h8]; rintro ⟨he, hq⟩; have := hO he; omega)
  · intro w hw
    rw [hflash, if_neg (hhigh w (by omega)), hfl, if_neg (by omega)]

/-- Witness for C7: the ATtiny85 build, started from the state with a stale page buffer. -/
theorem flash_after_erase_witness :
    (eraseApplication attiny85 staleBufferState).map (fun s => s.flash 0) = some 0xCBFF := by
  obtain ⟨s2, h, _, h0, _⟩ := flash_after_erase attiny85 staleBufferState (by decide) (by decide) (by decide)
    (by decide) (by decide)
  rw [h]
  exact congrArg some (h0 0 (by decide))

/-! ### C8: erase sequence -/

/-- Claim C8.  For every page size `P > 0` and every 16-bit bootloader address that is a
multiple of `P`, the erase loop of `eraseApplication` terminates and `eraseApplication`
returns; the loop issues the erases of pages `BOOTLOADER_ADDRESS/P - 1, ..., 1, 0` in that
order and the rest of `eraseApplication` issues no erase.  These are `BOOTLOADER_ADDRESS/P`
erases, the `i`-th at `BOOTLOADER_ADDRESS - (i+1) P`, at strictly descending addresses, each
application page exactly once, each page ending at or below the bootloader address. -/
theorem erase_sequence (cfg : Config) (s : State) (hP : 0 < cfg.SPM_PAGESIZE)
    (hBLP : cfg.BOOTLOADER_ADDRESS % cfg.SPM_PAGESIZE = 0)
    (hBL : cfg.BOOTLOADER_ADDRESS < 65536) :
    (∃ s1, eraseLoop cfg 65537 (cfg.BOOTLOADER_ADDRESS % 65536) s = some s1
      ∧ s1.spmLog = s.spmLog
          ++ (List.range (cfg.BOOTLOADER_ADDRESS / cfg.SPM_PAGESIZE)).reverse.map
              (fun p => SpmOp.erase (p * cfg.SPM_PAGESIZE)))
    ∧ (∃ s2 rest, eraseApplication cfg s = some s2
      ∧ s2.spmLog = s.spmLog
          ++ (List.range (cfg.BOOTLOADER_ADDRESS / cfg.SPM_PAGESIZE)).reverse.map
              (fun p => SpmOp.erase (p * cfg.SPM_PAGESIZE))
          ++ rest
      ∧ ∀ a, SpmOp.erase a ∉ rest)
    ∧ ((List.range (cfg.BOOTLOADER_ADDRESS / cfg.SPM_PAGESIZE)).reverse.map
          (fun p => SpmOp.erase (p * cfg.SPM_PAGESIZE))).length
        = cfg.BOOTLOADER_ADDRESS / cfg.SPM_PAGESIZE
    ∧ (∀ i, i < cfg.BOOTLOADER_ADDRESS / cfg.SPM_PAGESIZE →
        ((List.range (cfg.BOOTLOADER_ADDRESS / cfg.SPM_PAGESIZE)).reverse.map
          (fun p => SpmOp.erase (p * cfg.SPM_PAGESIZE)))[i]?
          = some (SpmOp.erase (cfg.BOOTLOADER_ADDRESS - (i + 1) * cfg.SPM_PAGESIZE)))
    ∧ List.Pairwise (fun x y => y < x)
        ((List.range (cfg.BOOTLOADER_ADDRESS / cfg.SPM_PAGESIZE)).reverse.map
          (fun p => p * cfg.SPM_PAGESIZE))
    ∧ (∀ p, p < cfg.BOOTLOADER_ADDRESS / cfg.SPM_PAGESIZE →
        ((List.range (cfg.BOOTLOADER_ADDRESS / cfg.SPM_PAGESIZE)).reverse.map
          (fun p => SpmOp.erase (p * cfg.SPM_PAGESIZE))).count
            (SpmOp.erase (p * cfg.SPM_PAGESIZE)) = 1)
    ∧ (∀ p, p ∈ (List.range (cfg.BOOTLOADER_ADDRESS / cfg.SPM_PAGESIZE)).reverse →
        p * cfg.SPM_PAGESIZE + cfg.SPM_PAGESIZE ≤ cfg.BOOTLOADER_ADDRESS) := by
  have hn : cfg.BOOTLOADER_ADDRESS / cfg.SPM_PAGESIZE * cfg.SPM_PAGESIZE
      = cfg.BOOTLOADER_ADDRESS := Nat.div_mul_cancel (Nat.dvd_of_mod_eq_zero hBLP)
  have hlt : cfg.BOOTLOADER_ADDRESS / cfg.SPM_PAGESIZE < 65537 := by
    have := Nat.div_le_self cfg.BOOTLOADER_ADDRESS cfg.SPM_PAGESIZE
    omega
  have hinj : Function.Injective (fun p => SpmOp.erase (p * cfg.SPM_PAGESIZE)) := by
    intro p q h
    simp only [SpmOp.erase.injEq] at h
    exact Nat.eq_of_mul_eq_mul_right hP h
  refine ⟨?_, eraseApplication_spmLog cfg s hP hBLP hBL, by simp, ?_, ?_, ?_, ?_⟩
  · have h := eraseLoop_eq cfg hP (cfg.BOOTLOADER_ADDRESS / cfg.SPM_PAGESIZE) 65537 s hlt
      (by rw [hn]; exact hBL)
    rw [hn] at h
    rw [Nat.mod_eq_of_lt hBL]
    exact ⟨_, h, rfl⟩
  · intro i hi
    rw [List.getElem?_map, List.getElem?_reverse (by simpa using hi)]
    simp only [List.length_range]
    rw [List.getElem?_range (by omega)]
    simp only [Option.map_some']
    congr 2
    generalize cfg.BOOTLOADER_ADDRESS / cfg.SPM_PAGESIZE = n at hn hi
    rw [← hn, ← Nat.sub_mul]
    congr 1
    omega
  · rw [List.pairwise_map, List.pairwise_reverse]
    refine List.Pairwise.imp ?_ (List.pairwise_lt_range _)
    intro a b hab
    exact Nat.mul_lt_mul_of_pos_right hab hP
  · intro p hp
    apply List.count_eq_one_of_mem
    · exact (List.nodup_reverse.mpr (List.nodup_range _)).map hinj
    · exact List.mem_map.mpr ⟨p, by simpa using hp, rfl⟩
  · intro p hp
    have hp2 : p < cfg.BOOTLOADER_ADDRESS / cfg.SPM_PAGESIZE := by simpa using hp
    calc p * cfg.SPM_PAGESIZE + cfg.SPM_PAGESIZE = (p + 1) * cfg.SPM_PAGESIZE := by ring
      _ ≤ cfg.BOOTLOADER_ADDRESS / cfg.SPM_PAGESIZE * cfg.SPM_PAGESIZE :=
          Nat.mul_le_mul_right _ hp2
      _ = cfg.BOOTLOADER_ADDRESS := hn

/-- Witness for C8: on the ATtiny85 build the first erase is at 0x17C0. -/
theorem erase_sequence_witness :
    ((List.range (attiny85.BOOTLOADER_ADDRESS / attiny85.SPM_PAGESIZE)).reverse.map
        (fun p => SpmOp.erase (p * attiny85.SPM_PAGESIZE)))[0]?
      = some (SpmOp.erase (attiny85.BOOTLOADER_ADDRESS - (0 + 1) * attiny85.SPM_PAGESIZE)) :=
  (erase_sequence attiny85 blankState (by decide) (by decide) (by decide)).2.2.2.1 0 (by decide)

/-! ### C9: erase order -/

/-- Counterexample to C9 as stated.  On the ATtiny85 build (96 application pages) the first
operation of `eraseApplication` erases the page at `BOOTLOADER_ADDRESS - pageSize`, next to
the bootloader, and the last erase it issues is the one of page 0. -/
theorem erase_begins_next_to_bootloader :
    2 * attiny85.SPM_PAGESIZE ≤ attiny85.BOOTLOADER_ADDRESS
    ∧ (eraseApplication attiny85 blankState).map (fun s => s.spmLog.head?)
        = some (some (SpmOp.erase (attiny85.BOOTLOADER_ADDRESS - attiny85.SPM_PAGESIZE)))
    ∧ (eraseApplication attiny85 blankState).map
        (fun s => (s.spmLog.filter (fun op => op matches SpmOp.erase _)).getLast?)
        = some (some (SpmOp.erase 0)) := by
  refine ⟨by decide, by decide, by decide⟩

/-- Claim C9, amended.  For every page size `P > 0` and 16-bit bootloader address that is a
multiple of `P` with at least two application pages, the first page `eraseApplication` erases
is the one adjacent to the bootloader, at `BOOTLOADER_ADDRESS - P`, and the last page it
erases is the one at address 0; no erase follows. -/
theorem erase_order (cfg : Config) (s : State) (hP : 0 < cfg.SPM_PAGESIZE)
    (hBLP : cfg.BOOTLOADER_ADDRESS % cfg.SPM_PAGESIZE = 0)
    (hBL : cfg.BOOTLOADER_ADDRESS < 65536)
    (h2 : 2 * cfg.SPM_PAGESIZE ≤ cfg.BOOTLOADER_ADDRESS) :
    ∃ (s2 : State) (mid : List Nat) (rest : List SpmOp), eraseApplication cfg s = some s2
      ∧ s2.spmLog = s.spmLog
          ++ (SpmOp.erase (cfg.BOOTLOADER_ADDRESS - cfg.SPM_PAGESIZE)
              :: (mid.map (fun p => SpmOp.erase (p * cfg.SPM_PAGESIZE)) ++ [SpmOp.erase 0]))
          ++ rest
      ∧ ∀ a, SpmOp.erase a ∉ rest := by
  obtain ⟨s2, rest, heq, hlog, hrest⟩ := eraseApplication_spmLog cfg s hP hBLP hBL
  have hn : cfg.BOOTLOADER_ADDRESS / cfg.SPM_PAGESIZE * cfg.SPM_PAGESIZE
      = cfg.BOOTLOADER_ADDRESS := Nat.div_mul_cancel (Nat.dvd_of_mod_eq_zero hBLP)
  have hn2 : 2 ≤ cfg.BOOTLOADER_ADDRESS / cfg.SPM_PAGESIZE := by
    rw [Nat.le_div_iff_mul_le hP]; omega
  obtain ⟨mid, hmid⟩ := range_reverse_two _ hn2
  refine ⟨s2, mid, rest, heq, ?_, hrest⟩
  rw [hlog, hmid]
  have hfirst : (cfg.BOOTLOADER_ADDRESS / cfg.SPM_PAGESIZE - 1) * cfg.SPM_PAGESIZE
      = cfg.BOOTLOADER_ADDRESS - cfg.SPM_PAGESIZE := by
    rw [Nat.sub_mul, hn, Nat.one_mul]
  simp [hfirst]

/-- Witness for C9: the ATtiny85 build. -/
theorem erase_order_witness :
    (eraseApplication attiny85 blankState).isSome = true := by
  obtain ⟨s2, _, _, h, _⟩ := erase_order attiny85 blankState (by decide) (by decide) (by decide)
    (by decide)
  rw [h]
  rfl

/-! ### C10: exit gating -/

/-- Claim C10.  For every tick of the main loop that ends in state `s1`, the loop terminates
after it exactly when `command` is `cmd_exit` and the flash byte at
`BOOTLOADER_ADDRESS - TINYVECTOR_RESET_OFFSET + 1`, the 16-bit address that the loop condition
hands to `pgm_read_byte` (`resetVectorHighByteAddress`), differs from 0xFF.  The tick itself never
enters `leaveBootloader`; when the loop goes on, the remaining events are processed from `s1`;
when it terminates, `leaveBootloader` is entered once and nothing more happens.  An Exit
request arriving while that byte reads 0xFF is refused: the loop continues and
`leaveBootloader` is not entered; with any other byte value the loop ends and
`leaveBootloader` is entered exactly once.  Whenever the tinyvector offset does not exceed the
bootloader address and the difference plus one fits 16 bits, that 16-bit address is
`BOOTLOADER_ADDRESS - TINYVECTOR_RESET_OFFSET + 1` itself. -/
theorem exit_gating (cfg : Config) (s s1 : State) (ev : UsbEvent) (cont : Bool)
    (h : tick cfg s ev = some (s1, cont)) :
    (cont = false ↔
      s1.command = cmd_exit
      ∧ pgm_read_byte s1 (resetVectorHighByteAddress cfg) ≠ 0xFF)
    ∧ s1.leaveCalls = s.leaveCalls
    ∧ (∀ evs, cont = true → mainLoop cfg s (ev :: evs) = mainLoop cfg s1 evs)
    ∧ (∀ evs, cont = false →
        mainLoop cfg s (ev :: evs) = some (leaveBootloader s1)
        ∧ (leaveBootloader s1).leaveCalls = s.leaveCalls + 1)
    ∧ (∀ idx, pgm_read_byte s (resetVectorHighByteAddress cfg) = 0xFF →
        ∃ s2, tick cfg s (UsbEvent.setup ⟨cmd_exit, idx⟩) = some (s2, true)
          ∧ mainLoop cfg s [UsbEvent.setup ⟨cmd_exit, idx⟩] = some s2
          ∧ s2.leaveCalls = s.leaveCalls)
    ∧ (∀ idx evs,
        pgm_read_byte s (resetVectorHighByteAddress cfg) ≠ 0xFF →
        ∃ s2, tick cfg s (UsbEvent.setup ⟨cmd_exit, idx⟩) = some (s2, false)
          ∧ mainLoop cfg s (UsbEvent.setup ⟨cmd_exit, idx⟩ :: evs) = some (leaveBootloader s2)
          ∧ (leaveBootloader s2).leaveCalls = s.leaveCalls + 1)
    ∧ (cfg.TINYVECTOR_RESET_OFFSET ≤ cfg.BOOTLOADER_ADDRESS →
        cfg.BOOTLOADER_ADDRESS < 65535 + cfg.TINYVECTOR_RESET_OFFSET →
        resetVectorHighByteAddress cfg
          = cfg.BOOTLOADER_ADDRESS - cfg.TINYVECTOR_RESET_OFFSET + 1) := by
  obtain ⟨hc, hl⟩ := tick_result cfg s s1 ev cont h
  refine ⟨?_, hl, ?_, ?_, ?_, ?_, fun h1 h2 => resetVectorHighByteAddress_of_le cfg h1 h2⟩
  · rw [hc]
    exact loopCondition_false_iff cfg s1
  · intro evs hct
    subst hct
    simp only [mainLoop, h]
  · intro evs hcf
    subst hcf
    refine ⟨by simp only [mainLoop, h], ?_⟩
    show s1.leaveCalls + 1 = _
    rw [hl]
  · intro idx hb
    have ht := tick_exit_request cfg s idx
    have hd : decide (pgm_read_byte s (resetVectorHighByteAddress cfg) = 0xFF) = true :=
      decide_eq_true hb
    rw [hd] at ht
    exact ⟨_, ht, by simp only [mainLoop, ht], rfl⟩
  · intro idx evs hb
    have ht := tick_exit_request cfg s idx
    have hd : decide (pgm_read_byte s (resetVectorHighByteAddress cfg) = 0xFF) = false :=
      decide_eq_false hb
    rw [hd] at ht
    exact ⟨_, ht, by simp only [mainLoop, ht], rfl⟩

/-- Witness for C10: an Exit request on erased flash. -/
theorem exit_gating_witness :
    (tick attiny85 blankState (UsbEvent.setup ⟨cmd_exit, 0⟩)).map Prod.snd = some true
    ∧ ((tick attiny85 blankState (UsbEvent.setup ⟨cmd_exit, 0⟩)).map
        (fun r => r.1.leaveCalls)) = some 0 := by
  have ht := tick_exit_request attiny85 blankState 0
  have hd : decide (pgm_read_byte blankState (resetVectorHighByteAddress attiny85) = 0xFF)
      = true := by decide
  rw [hd] at ht
  have h := exit_gating attiny85 blankState _ (UsbEvent.setup ⟨cmd_exit, 0⟩) true ht
  rw [ht]
  exact ⟨rfl, congrArg some h.2.1⟩

/-! ### C11: erase then exit attempt -/

/-- Counterexample to C11 as stated.  The build with two application pages of 8 bytes: the
commit of the eraser, at address 14, rewrites the last application page, which holds the
tinyvector slot; after the tick that dispatched `EraseApplication` the byte at
`BOOTLOADER_ADDRESS - TINYVECTOR_RESET_OFFSET + 1` reads 0x0F, the next Exit request ends the
loop and `leaveBootloader` is entered, and the entry condition without a start condition is
false. -/
theorem erase_then_exit_accepted :
    2 * twoSmallPages.SPM_PAGESIZE ≤ twoSmallPages.BOOTLOADER_ADDRESS
    ∧ (tick twoSmallPages blankState (UsbEvent.setup ⟨cmd_erase_application, 0⟩)).map
        (fun r => (r.2, pgm_read_byte r.1
          (twoSmallPages.BOOTLOADER_ADDRESS - twoSmallPages.TINYVECTOR_RESET_OFFSET + 1),
          bootLoaderEntry twoSmallPages r.1 false))
      = some (true, 0x0F, false)
    ∧ (mainLoop twoSmallPages blankState
        [UsbEvent.setup ⟨cmd_erase_application, 0⟩, UsbEvent.setup ⟨cmd_exit, 0⟩]).map
        (fun s => s.leaveCalls)
      = some (blankState.leaveCalls + 1) := by
  refine ⟨by decide, by decide, by decide⟩

/-- Claim C11, amended.  Page size dividing the 16-bit bootloader address, and the word that
holds the byte at `BOOTLOADER_ADDRESS - TINYVECTOR_RESET_OFFSET + 1` lying in the application
area, in a page other than the one containing address 14, which the commit of the eraser
rewrites (so whenever the page size is at least 16, there are at least two application pages
and the tinyvector slot lies in the last of them).  From every prior state, the tick that
dispatches an `EraseApplication` request completes and the loop continues; afterwards that
byte reads 0xFF and the entry condition of `main` holds whatever the start condition.  As
long as no page is transferred, that is for every sequence of ticks in which nothing or a
control request with any code other than TransferPage arrives, the loop runs through them
all without entering `leaveBootloader`, so every Exit request among them is refused, and at
the end the byte still reads 0xFF and the entry condition still holds.  More generally,
whatever arrives in a tick, a `TransferPage` request or a data-phase call of an unfinished
transfer included: a tick that starts with the byte reading 0xFF and does not end in a page
commit by the scheduler leaves the byte at 0xFF, the loop running and `leaveBootloader` not
entered. -/
theorem erase_then_exit (cfg : Config) (s : State) (idx : Nat)
    (hP : 0 < cfg.SPM_PAGESIZE)
    (hBLP : cfg.BOOTLOADER_ADDRESS % cfg.SPM_PAGESIZE = 0)
    (hBL : cfg.BOOTLOADER_ADDRESS < 65536)
    (hT2 : 2 ≤ cfg.TINYVECTOR_RESET_OFFSET)
    (hTB : cfg.TINYVECTOR_RESET_OFFSET ≤ cfg.BOOTLOADER_ADDRESS)
    (hpage : 2 * ((cfg.BOOTLOADER_ADDRESS - cfg.TINYVECTOR_RESET_OFFSET + 1) / 2)
              / cfg.SPM_PAGESIZE ≠ 14 / cfg.SPM_PAGESIZE) :
    ∃ sE, tick cfg s (UsbEvent.setup ⟨cmd_erase_application, idx⟩) = some (sE, true)
      ∧ pgm_read_byte sE (cfg.BOOTLOADER_ADDRESS - cfg.TINYVECTOR_RESET_OFFSET + 1) = 0xFF
      ∧ (∀ start, bootLoaderEntry cfg sE start = true)
      ∧ (∀ evs : List UsbEvent,
          (∀ ev ∈ evs, ev = UsbEvent.idle
            ∨ ∃ rq, ev = UsbEvent.setup rq ∧ rq.bRequest % 256 ≠ cmd_transfer_page) →
          ∃ sX, mainLoop cfg sE evs = some sX
            ∧ sX.leaveCalls = s.leaveCalls
            ∧ pgm_read_byte sX (cfg.BOOTLOADER_ADDRESS - cfg.TINYVECTOR_RESET_OFFSET + 1)
                = 0xFF
            ∧ (∀ start, bootLoaderEntry cfg sX start = true))
      ∧ (∀ z ev z1 cont,
          pgm_read_byte z (cfg.BOOTLOADER_ADDRESS - cfg.TINYVECTOR_RESET_OFFSET + 1) = 0xFF →
          tick cfg z ev = some (z1, cont) → z1.command ≠ cmd_write_page →
          pgm_read_byte z1 (cfg.BOOTLOADER_ADDRESS - cfg.TINYVECTOR_RESET_OFFSET + 1) = 0xFF
            ∧ cont = true ∧ z1.leaveCalls = z.leaveCalls) := by
  have haddr := resetVectorHighByteAddress_of_le cfg hTB (by omega)
  have hentry : ∀ (z : State),
      z.flash ((cfg.BOOTLOADER_ADDRESS - cfg.TINYVECTOR_RESET_OFFSET + 1) / 2) = 0xFFFF →
      ∀ start, bootLoaderEntry cfg z start = true := by
    intro z hz start
    have := erased_slot_byte cfg z hz
    simp [bootLoaderEntry, haddr, this]
  have ht := tick_setup_deferred cfg s ⟨cmd_erase_application, idx⟩
    (show cmd_erase_application % 256 ≠ 0 by decide)
    (show cmd_erase_application % 256 ≠ 1 by decide)
  obtain ⟨x, hx⟩ : ∃ x : State, x = { s with
      command := cmd_erase_application % 256
      idlePolls := (s.idlePolls % 256 + 1) % 65536 } := ⟨_, rfl⟩
  rw [← hx] at ht
  have hxl : x.leaveCalls = s.leaveCalls := by rw [hx]
  obtain ⟨y, hd, hyc, hycur, hyl, hyf, _⟩ := dispatch_erase_result cfg x hP hBLP hBL
    (by rw [hx]; rfl)
  have hcond : loopCondition cfg y = true := by
    simp [loopCondition, hyc, cmd_erase_application, cmd_exit]
  rw [hd] at ht
  simp only [Option.map_some', hcond] at ht
  have hyw := hyf ((cfg.BOOTLOADER_ADDRESS - cfg.TINYVECTOR_RESET_OFFSET + 1) / 2)
    (by omega) hpage
  refine ⟨y, ht, erased_slot_byte cfg y hyw, hentry y hyw, ?_, ?_⟩
  · intro evs hevs
    obtain ⟨sX, h1, h2, h3⟩ := mainLoop_keeps_erased_slot cfg hP hBLP hBL hT2 hTB hpage evs y
      hevs hycur hyw
    exact ⟨sX, h1, by rw [h2, hyl, hxl], erased_slot_byte cfg sX h3, hentry sX h3⟩
  · intro z ev z1 cont hb htz hnc
    have hfl := tick_without_commit cfg z z1 ev cont hP hBLP hBL hT2 hTB hpage htz hnc
    have hb1 : pgm_read_byte z1
        (cfg.BOOTLOADER_ADDRESS - cfg.TINYVECTOR_RESET_OFFSET + 1) = 0xFF := by
      rcases hfl with h | h
      · unfold pgm_read_byte at hb ⊢
        rw [h]
        exact hb
      · exact erased_slot_byte cfg z1 h
    obtain ⟨hc, hl⟩ := tick_result cfg z z1 ev cont htz
    refine ⟨hb1, ?_, hl⟩
    rw [hc]
    simp [loopCondition, haddr, hb1]

/-- Witness for C11: the ATtiny85 build, from the state with a stale page buffer. -/
theorem erase_then_exit_witness :
    ∃ sE, tick attiny85 staleBufferState (UsbEvent.setup ⟨cmd_erase_application, 0⟩)
        = some (sE, true)
      ∧ pgm_read_byte sE (attiny85.BOOTLOADER_ADDRESS - attiny85.TINYVECTOR_RESET_OFFSET + 1)
          = 0xFF := by
  obtain ⟨sE, h1, h2, _⟩ := erase_then_exit attiny85 staleBufferState 0 (by decide) (by decide)
    (by decide) (by decide) (by decide) (by decide)
  exact ⟨sE, h1, h2⟩

/-! ### C12: device info reply -/

/-- Claim C12, failing input.  The build with 256-byte pages passes the page-size check of
the source (only `SPM_PAGESIZE > 256` is an error).  For every state, a request with code 0
returns length 4 and leaves `command`, `currentAddress`, `vectorTemp` and the page buffer
unchanged; the reply bytes are 0xF0, 0x00, 0, 5.  Bytes 0-1 decode big-endian to the
configured flash size, but byte 2 reads 0 and not the configured page size 256. -/
theorem device_info_page_size_truncated (s : State) (idx : Nat) :
    ¬ (page256.SPM_PAGESIZE > 256)
    ∧ page256.PROGMEM_SIZE < 65536
    ∧ (usbFunctionSetup page256 s ⟨cmd_device_info, idx⟩).1 = 4
    ∧ (usbFunctionSetup page256 s ⟨cmd_device_info, idx⟩).2.usbMsgPtr = [0xF0, 0x00, 0, 5]
    ∧ 256 * 0xF0 + 0x00 = page256.PROGMEM_SIZE
    ∧ (0 : Nat) ≠ page256.SPM_PAGESIZE
    ∧ (usbFunctionSetup page256 s ⟨cmd_device_info, idx⟩).2.command = s.command
    ∧ (usbFunctionSetup page256 s ⟨cmd_device_info, idx⟩).2.currentAddress = s.currentAddress
    ∧ (usbFunctionSetup page256 s ⟨cmd_device_info, idx⟩).2.vectorTemp = s.vectorTemp
    ∧ (usbFunctionSetup page256 s ⟨cmd_device_info, idx⟩).2.pageBuffer = s.pageBuffer := by
  refine ⟨by decide, by decide, rfl, rfl, by decide, by decide, rfl, rfl, rfl, rfl⟩

/-! ### C13: idle reset -/

/-- Counterexample to C13 as stated.  With the idle counter at 0x0105 a control request
leaves it at 5: only the high byte is cleared. -/
theorem idle_reset_keeps_low_byte :
    (usbFunctionSetup attiny85 { blankState with idlePolls := 0x0105 }
      ⟨cmd_device_info, 0⟩).2.idlePolls = 5 := by
  decide

/-- Claim C13, amended.  For every state and every control request, after
`usbFunctionSetup` the high byte of the idle counter is 0 and its low byte is unchanged:
the counter equals its previous value modulo 256, so it is below 256, and it is 0 exactly
when the low byte was 0. -/
theorem idle_reset_high_byte (cfg : Config) (s : State) (rq : usbRequest) :
    (usbFunctionSetup cfg s rq).2.idlePolls = s.idlePolls % 256
    ∧ (usbFunctionSetup cfg s rq).2.idlePolls / 256 = 0
    ∧ ((usbFunctionSetup cfg s rq).2.idlePolls = 0 ↔ s.idlePolls % 256 = 0) := by
  have h : (usbFunctionSetup cfg s rq).2.idlePolls = s.idlePolls % 256 := by
    unfold usbFunctionSetup
    simp only
    split_ifs <;> rfl
  rw [h]
  exact ⟨rfl, by omega, Iff.rfl⟩

/-! ### C14: idle counting per tick -/

/-- Counterexample to C14 as stated.  A tick in which no control request arrives but a
data-phase packet of a running transfer does: `command` is still no-op after the poll, the
tick takes the fast path, the idle counter is unchanged and the loop continues, yet
`currentAddress` has moved from 0 to 8. -/
theorem fast_path_moves_current_address :
    blankState.currentAddress = 0
    ∧ (tick attiny85 blankState (UsbEvent.write (fun _ => 0) 8)).map
        (fun r => (r.1.command, r.1.idlePolls, r.2, r.1.currentAddress))
      = some (cmd_local_nop, blankState.idlePolls, true, 8) := by
  refine ⟨by decide, by decide⟩

/-- Claim C14, amended.  Take a tick in which no control request arrives (nothing arrives,
or a data-phase packet does) and let `s1` be the state after the transport poll.  If
`command` is still no-op, the tick ends there and the loop continues, with the idle counter
and flash unchanged, and, when nothing had arrived, `currentAddress` unchanged too.
Otherwise the tick completes with the idle counter incremented by exactly 1 modulo 2^16. -/
theorem idle_counting (cfg : Config) (s s1 : State) (ev : UsbEvent)
    (hev : ∀ rq, ev ≠ UsbEvent.setup rq)
    (hpoll : usbPoll cfg { s with command := cmd_local_nop } ev = some s1) :
    (s1.command = cmd_local_nop →
        tick cfg s ev = some (s1, true)
        ∧ s1.idlePolls = s.idlePolls ∧ s1.flash = s.flash
        ∧ (ev = UsbEvent.idle → s1.currentAddress = s.currentAddress))
    ∧ (s1.command ≠ cmd_local_nop →
        tick cfg s ev
          = some (writeFlashPage cfg { s1 with idlePolls := (s.idlePolls + 1) % 65536 },
                  loopCondition cfg
                    (writeFlashPage cfg { s1 with idlePolls := (s.idlePolls + 1) % 65536 }))
        ∧ (writeFlashPage cfg { s1 with idlePolls := (s.idlePolls + 1) % 65536 }).idlePolls
            = (s.idlePolls + 1) % 65536) := by
  have hfacts : s1.idlePolls = s.idlePolls ∧ s1.flash = s.flash
      ∧ (s1.command = cmd_local_nop ∨ s1.command = cmd_write_page)
      ∧ (ev = UsbEvent.idle → s1.currentAddress = s.currentAddress) := by
    cases ev with
    | idle =>
      simp only [usbPoll, Option.some.injEq] at hpoll
      subst hpoll
      exact ⟨rfl, rfl, Or.inl rfl, fun _ => rfl⟩
    | setup rq => exact absurd rfl (hev rq)
    | write data len =>
      simp only [usbPoll] at hpoll
      unfold usbFunctionWrite at hpoll
      cases hl : usbFunctionWriteLoop cfg 16777216 { s with command := cmd_local_nop } data 0
          (len % 256) with
      | none => rw [hl] at hpoll; cases hpoll
      | some s0 =>
        have hi := usbFunctionWriteLoop_idlePolls cfg data _ _ _ _ _ hl
        have hf := usbFunctionWriteLoop_flash cfg data _ _ _ _ _ hl
        have hc := usbFunctionWriteLoop_command cfg data _ _ _ _ _ hl
        rw [hl] at hpoll
        by_cases hz : (s0.currentAddress % 256) % cfg.SPM_PAGESIZE = 0
        · simp [hz] at hpoll
          subst hpoll
          exact ⟨hi, hf, Or.inr rfl, fun h => by cases h⟩
        · simp [hz] at hpoll
          subst hpoll
          exact ⟨hi, hf, Or.inl hc, fun h => by cases h⟩
  obtain ⟨hi, hf, hcmd, hcur⟩ := hfacts
  constructor
  · intro h0
    refine ⟨?_, hi, hf, hcur⟩
    unfold tick
    rw [hpoll]
    simp only [h0, if_true, loopCondition, cmd_local_nop, cmd_exit]
    simp
  · intro hne
    have h64 : s1.command = cmd_write_page := by
      rcases hcmd with h | h
      · exact absurd h hne
      · exact h
    refine ⟨?_, rfl⟩
    unfold tick
    rw [hpoll]
    simp only [hne, if_false, hi]
    simp [dispatch, h64, cmd_write_page, cmd_erase_application]

/-- Witness for C14: an idle tick from the blank state. -/
theorem idle_counting_witness :
    tick attiny85 blankState UsbEvent.idle
      = some ({ blankState with command := cmd_local_nop }, true) :=
  ((idle_counting attiny85 blankState { blankState with command := cmd_local_nop }
    UsbEvent.idle (fun rq h => by cases h) rfl).1 rfl).1

/-! ### C15: bound on the current address -/

/-- Counterexample to C15 as stated, at three inputs.  On the ATtiny85 build (bootloader
at 0x1800) a `TransferPage` request for address 0x1840 sets `currentAddress` to 0x1840, above
the bootloader address.  A `TransferPage` request for the odd address 0x17FF keeps the bound,
but the next data-phase call stages one word there and leaves `currentAddress` at 0x1801.
On the build with the bootloader at address 4, `eraseApplication` leaves `currentAddress`
at 16. -/
theorem transfer_address_not_bounded :
    (blankState.currentAddress ≤ attiny85.BOOTLOADER_ADDRESS
      ∧ (usbFunctionSetup attiny85 blankState ⟨cmd_transfer_page, 0x1840⟩).2.currentAddress
          = 0x1840
      ∧ ¬ (0x1840 ≤ attiny85.BOOTLOADER_ADDRESS))
    ∧ ((usbFunctionSetup attiny85 blankState ⟨cmd_transfer_page, 0x17FF⟩).2.currentAddress
          ≤ attiny85.BOOTLOADER_ADDRESS
      ∧ (usbFunctionWrite attiny85
            (usbFunctionSetup attiny85 blankState ⟨cmd_transfer_page, 0x17FF⟩).2
            (fun _ => 0) 2).map (fun r => r.2.currentAddress) = some 0x1801
      ∧ ¬ (0x1801 ≤ attiny85.BOOTLOADER_ADDRESS))
    ∧ ((eraseApplication bootAtFour blankState).map (fun s => s.currentAddress) = some 16
      ∧ ¬ (16 ≤ bootAtFour.BOOTLOADER_ADDRESS)) := by
  refine ⟨⟨by decide, by decide, by decide⟩, ⟨by decide, by decide, by decide⟩,
    ⟨by decide, by decide⟩⟩

/-- Claim C15, amended.  With the bootloader address even, at least 16 and at most 65534,
and a multiple of the page size, "`currentAddress` is even and at most the bootloader
address" holds after every `eraseApplication` and is preserved by `usbFunctionWrite` with any
data and any length byte, by `writeFlashPage`, and by `usbFunctionSetup` with every request
code other than TransferPage; a TransferPage request establishes it when its address
parameter is even and at most the bootloader address (otherwise `currentAddress` is simply
the address parameter, see the counterexample). -/
theorem current_address_bound (cfg : Config)
    (hev : cfg.BOOTLOADER_ADDRESS % 2 = 0) (h16 : 16 ≤ cfg.BOOTLOADER_ADDRESS)
    (hBL : cfg.BOOTLOADER_ADDRESS ≤ 65534) (hP : 0 < cfg.SPM_PAGESIZE)
    (hBLP : cfg.BOOTLOADER_ADDRESS % cfg.SPM_PAGESIZE = 0) :
    (∀ s, ∃ s1, eraseApplication cfg s = some s1
        ∧ s1.currentAddress ≤ cfg.BOOTLOADER_ADDRESS ∧ s1.currentAddress % 2 = 0)
    ∧ (∀ s data L, s.currentAddress ≤ cfg.BOOTLOADER_ADDRESS → s.currentAddress % 2 = 0 →
        ∃ r, usbFunctionWrite cfg s data L = some r
          ∧ r.2.currentAddress ≤ cfg.BOOTLOADER_ADDRESS ∧ r.2.currentAddress % 2 = 0)
    ∧ (∀ s, s.currentAddress ≤ cfg.BOOTLOADER_ADDRESS → s.currentAddress % 2 = 0 →
        (writeFlashPage cfg s).currentAddress ≤ cfg.BOOTLOADER_ADDRESS
        ∧ (writeFlashPage cfg s).currentAddress % 2 = 0)
    ∧ (∀ s rq, rq.bRequest % 256 ≠ cmd_transfer_page →
        s.currentAddress ≤ cfg.BOOTLOADER_ADDRESS → s.currentAddress % 2 = 0 →
        (usbFunctionSetup cfg s rq).2.currentAddress ≤ cfg.BOOTLOADER_ADDRESS
        ∧ (usbFunctionSetup cfg s rq).2.currentAddress % 2 = 0)
    ∧ (∀ s rq, rq.bRequest % 256 = cmd_transfer_page →
        (usbFunctionSetup cfg s rq).2.currentAddress = rq.wIndex % 65536
        ∧ (rq.wIndex ≤ cfg.BOOTLOADER_ADDRESS → rq.wIndex % 2 = 0 →
            (usbFunctionSetup cfg s rq).2.currentAddress ≤ cfg.BOOTLOADER_ADDRESS
            ∧ (usbFunctionSetup cfg s rq).2.currentAddress % 2 = 0)) := by
  refine ⟨?_, ?_, ?_, ?_, ?_⟩
  · intro s
    have h := eraseApplication_eq cfg s hP hBLP (by omega)
    obtain ⟨x0, hx0⟩ : ∃ x0 : State, x0 = { s with
        currentAddress := 0
        flash := fun w => if 2 * w < cfg.BOOTLOADER_ADDRESS then 0xFFFF else s.flash w
        spmLog := s.spmLog
          ++ (List.range (cfg.BOOTLOADER_ADDRESS / cfg.SPM_PAGESIZE)).reverse.map
            (fun p => SpmOp.erase (p * cfg.SPM_PAGESIZE)) } := ⟨_, rfl⟩
    rw [← hx0] at h
    have hcur : x0.currentAddress = 0 := by rw [hx0]
    have hc : (writeFlashPage cfg (writeWords cfg x0 (fun _ => 0xFFFF) 8)).currentAddress
        = 16 := by
      show (writeWords cfg x0 (fun _ => 0xFFFF) 8).currentAddress = 16
      rw [writeWords_currentAddress _ _ _ 8 (Or.inr (by omega)), hcur]
    exact ⟨_, h, by rw [hc]; exact h16, by rw [hc]⟩
  · intro s data L hle h2
    obtain ⟨n, s1, hn, hs1, h⟩ := usbFunctionWrite_any cfg s data L hBL
    have hc : s1.currentAddress = s.currentAddress + 2 * n := by
      rw [hs1]
      exact writeWords_currentAddress cfg s _ n (by omega)
    refine ⟨_, h, ?_, ?_⟩
    · simp only
      split_ifs
      · show s1.currentAddress ≤ _
        omega
      · omega
    · simp only
      split_ifs
      · show s1.currentAddress % 2 = 0
        omega
      · omega
  · intro s hle h2
    exact ⟨hle, h2⟩
  · intro s rq hrq hle h2
    have hc : (usbFunctionSetup cfg s rq).2.currentAddress = s.currentAddress := by
      unfold usbFunctionSetup
      simp only
      split_ifs <;> rfl
    rw [hc]
    exact ⟨hle, h2⟩
  · intro s rq hrq
    have hc : (usbFunctionSetup cfg s rq).2.currentAddress = rq.wIndex % 65536 := by
      unfold usbFunctionSetup
      simp only
      rw [if_neg (by rw [hrq]; decide), if_pos hrq]
    rw [hc]
    exact ⟨rfl, fun hle h2 => ⟨by omega, by omega⟩⟩

/-- Witness for C15: the ATtiny85 build; a data-phase call from address 0x17F8. -/
theorem current_address_bound_witness :
    ∃ r, usbFunctionWrite attiny85 { blankState with currentAddress := 0x17F8 }
          (fun _ => 0) 8 = some r
      ∧ r.2.currentAddress ≤ attiny85.BOOTLOADER_ADDRESS ∧ r.2.currentAddress % 2 = 0 :=
  (current_address_bound attiny85 (by decide) (by decide) (by decide) (by decide)
    (by decide)).2.1 { blankState with currentAddress := 0x17F8 } (fun _ => 0) 8
    (by decide) (by decide)

/-! ### C16: commit only after a full page -/

/-- Counterexample to C16 as stated, at three inputs on the ATtiny85 build (64-byte pages,
32 words to a page, bootloader at 0x1800).  A host request with code 64 right after a
`TransferPage` request makes the scheduler commit with no word buffered since the clear.  A
`TransferPage` request for address 56, inside a page, followed by one data packet makes it
commit after four words.  A `TransferPage` request for the page-aligned address 0x1840,
beyond the bootloader address, followed by one data packet makes it commit with no word
buffered. -/
theorem commit_without_full_page :
    (mainLoop attiny85 blankState
        [UsbEvent.setup ⟨cmd_transfer_page, 0⟩, UsbEvent.setup ⟨64, 0⟩]).map
        (fun s => s.spmLog)
      = some [SpmOp.clear, SpmOp.write 65534]
    ∧ (mainLoop attiny85 blankState
        [UsbEvent.setup ⟨cmd_transfer_page, 56⟩, UsbEvent.write (fun _ => 0) 8]).map
        (fun s => s.spmLog)
      = some [SpmOp.clear, SpmOp.fill 56 0, SpmOp.fill 58 0, SpmOp.fill 60 0, SpmOp.fill 62 0,
              SpmOp.write 62]
    ∧ (mainLoop attiny85 blankState
        [UsbEvent.setup ⟨cmd_transfer_page, 0x1840⟩, UsbEvent.write (fun _ => 0) 8]).map
        (fun s => s.spmLog)
      = some [SpmOp.clear, SpmOp.write 0x183E] := by
  refine ⟨by decide, by decide, by decide⟩

/-- Claim C16, amended.  Page size a power of two from 2 to 256, bootloader address a
multiple of it and at most 65534.  Host events are ticks in which nothing arrives,
data-phase calls with any data and any length byte, and control requests with any request
code other than 64 and any address parameter, except that the address parameter of a
`TransferPage` request is the start of a page below the bootloader (`protocolEvent`).  From
every state, a `TransferPage` request of that kind, which clears the page buffer, and an
`EraseApplication` request establish the cursor invariant `pageStaged`; every tick with a
host event preserves it.  In every such tick the trace only grows.  If the tick ends with
`command = cmd_write_page`, the scheduler has issued exactly one commit, at
`currentAddress - 2` and after the words staged in this tick; by then every word address of
the page that is committed has been staged since the page buffer was last cleared, so at
least pageSize/2 of the words staged since the clear lie in that page.  A tick that ends
with any command other than `cmd_write_page` and `cmd_erase_application` issues no commit.
The same holds for the tick that follows any sequence of host events: the main loop runs
through the sequence, the invariant holds after it, and a commit issued in the next tick
comes after every word of its page has been staged since the last clear. -/
theorem commit_after_full_page (cfg : Config)
    (hP : ∃ e, 1 ≤ e ∧ e ≤ 8 ∧ cfg.SPM_PAGESIZE = 2 ^ e)
    (hBLP : cfg.BOOTLOADER_ADDRESS % cfg.SPM_PAGESIZE = 0)
    (hBL : cfg.BOOTLOADER_ADDRESS ≤ 65534) :
    (∀ s rq, rq.bRequest % 256 = cmd_transfer_page →
        rq.wIndex % cfg.SPM_PAGESIZE = 0 → rq.wIndex < cfg.BOOTLOADER_ADDRESS →
        ∃ s1, tick cfg s (UsbEvent.setup rq) = some (s1, true) ∧ pageStaged cfg s1
          ∧ stagedAddresses s1.spmLog = [])
    ∧ (∀ s rq, rq.bRequest % 256 = cmd_erase_application →
        ∃ s1, tick cfg s (UsbEvent.setup rq) = some (s1, true) ∧ pageStaged cfg s1)
    ∧ (∀ s ev, pageStaged cfg s → protocolEvent cfg ev →
        ∃ s1 cont new, tick cfg s ev = some (s1, cont)
          ∧ pageStaged cfg s1
          ∧ s1.spmLog = s.spmLog ++ new
          ∧ (s1.command = cmd_write_page →
              ∃ fills, new = fills ++ [SpmOp.write (s1.currentAddress - 2)]
                ∧ (∀ op ∈ fills, ∃ a d, op = SpmOp.fill a d)
                ∧ (∀ x, x % 2 = 0 →
                    x / cfg.SPM_PAGESIZE = (s1.currentAddress - 2) / cfg.SPM_PAGESIZE →
                    x ∈ stagedAddresses (s.spmLog ++ fills))
                ∧ cfg.SPM_PAGESIZE / 2
                    ≤ ((stagedAddresses (s.spmLog ++ fills)).filter (fun x =>
                        decide (x / cfg.SPM_PAGESIZE
                          = (s1.currentAddress - 2) / cfg.SPM_PAGESIZE))).length)
          ∧ (s1.command ≠ cmd_write_page → s1.command ≠ cmd_erase_application →
              ∀ c, SpmOp.write c ∉ new))
    ∧ (∀ pre ev s, pageStaged cfg s → (∀ e ∈ pre, protocolEvent cfg e) →
        protocolEvent cfg ev →
        ∃ sp s1 cont new, mainLoop cfg s pre = some sp
          ∧ pageStaged cfg sp
          ∧ tick cfg sp ev = some (s1, cont)
          ∧ s1.spmLog = sp.spmLog ++ new
          ∧ (s1.command = cmd_write_page →
              ∃ fills, new = fills ++ [SpmOp.write (s1.currentAddress - 2)]
                ∧ (∀ op ∈ fills, ∃ a d, op = SpmOp.fill a d)
                ∧ (∀ x, x % 2 = 0 →
                    x / cfg.SPM_PAGESIZE = (s1.currentAddress - 2) / cfg.SPM_PAGESIZE →
                    x ∈ stagedAddresses (sp.spmLog ++ fills))
                ∧ cfg.SPM_PAGESIZE / 2
                    ≤ ((stagedAddresses (sp.spmLog ++ fills)).filter (fun x =>
                        decide (x / cfg.SPM_PAGESIZE
                          = (s1.currentAddress - 2) / cfg.SPM_PAGESIZE))).length)) := by
  obtain ⟨e, he1, he8, hPe⟩ := hP
  have h256 : cfg.SPM_PAGESIZE ∣ 256 := by rw [hPe]; exact pow_two_dvd_256 e he8
  have hPpos : 0 < cfg.SPM_PAGESIZE := Nat.pos_of_dvd_of_pos h256 (by norm_num)
  have hP2 : cfg.SPM_PAGESIZE % 2 = 0 := by
    obtain ⟨k, rfl⟩ : ∃ k, e = k + 1 := ⟨e - 1, by omega⟩
    rw [hPe, pow_succ]
    exact Nat.mul_mod_left _ _
  refine ⟨?_, ?_, ?_, ?_⟩
  · intro s rq h1 ha hlt
    obtain ⟨s1, ht, hst, _, hlog⟩ := pageStaged_transfer cfg s rq hP2 hBL h1 ha hlt
    exact ⟨s1, ht, hst, by rw [hlog]; exact stagedAddresses_clear _⟩
  · intro s rq h2
    obtain ⟨s1, ht, hst, _⟩ := pageStaged_erase cfg s rq hPpos hBLP (by omega) h2
    exact ⟨s1, ht, hst⟩
  · intro s ev hs hev
    obtain ⟨s1, cont, new, ht, hst, hlog, hcommit, hnone⟩ :=
      pageStaged_tick cfg s ev h256 hP2 hBLP hBL hs hev
    refine ⟨s1, cont, new, ht, hst, hlog, ?_, hnone⟩
    intro hcmd
    obtain ⟨fills, hnew, hfill, hcov⟩ := hcommit hcmd
    exact ⟨fills, hnew, hfill, hcov, page_count cfg.SPM_PAGESIZE _ _ hPpos hP2 hcov⟩
  · have hseq : ∀ (pre : List UsbEvent) (s : State), pageStaged cfg s →
        (∀ e ∈ pre, protocolEvent cfg e) →
        ∃ sp, mainLoop cfg s pre = some sp ∧ pageStaged cfg sp := by
      intro pre
      induction pre with
      | nil => intro s hs _; exact ⟨s, rfl, hs⟩
      | cons e rest ih =>
        intro s hs hev
        obtain ⟨s1, cont, new, ht, hst, _⟩ :=
          pageStaged_tick cfg s e h256 hP2 hBLP hBL hs (hev e (List.mem_cons_self _ _))
        cases cont with
        | true =>
          obtain ⟨sX, h1, h2⟩ := ih s1 hst (fun x hx => hev x (List.mem_cons_of_mem _ hx))
          exact ⟨sX, by rw [mainLoop_cons_continue cfg _ _ _ _ ht]; exact h1, h2⟩
        | false =>
          refine ⟨leaveBootloader s1, by simp only [mainLoop, ht], ?_⟩
          exact pageStaged_congr cfg s1 _ rfl rfl hst
    intro pre ev s hs hpre hev
    obtain ⟨sp, hrun, hsp⟩ := hseq pre s hs hpre
    obtain ⟨s1, cont, new, ht, _, hlog, hcommit, _⟩ :=
      pageStaged_tick cfg sp ev h256 hP2 hBLP hBL hsp hev
    refine ⟨sp, s1, cont, new, hrun, hsp, ht, hlog, ?_⟩
    intro hcmd
    obtain ⟨fills, hnew, hfill, hcov⟩ := hcommit hcmd
    exact ⟨fills, hnew, hfill, hcov, page_count cfg.SPM_PAGESIZE _ _ hPpos hP2 hcov⟩

/-- Witness for C16: a `TransferPage` request for page 1 of the ATtiny85 build, from the
blank state. -/
theorem commit_after_full_page_witness :
    ∃ s1, tick attiny85 blankState (UsbEvent.setup ⟨cmd_transfer_page, 64⟩) = some (s1, true)
      ∧ pageStaged attiny85 s1 ∧ stagedAddresses s1.spmLog = [] :=
  (commit_after_full_page attiny85 ⟨6, by decide, by decide, rfl⟩ (by decide) (by decide)).1
    blankState ⟨cmd_transfer_page, 64⟩ (by decide) (by decide) (by decide)

/-! ### C17: deferred commands -/

/-- Claim C17.  For every request code `c` in 0..255 other than 0 and 1 and every state,
`usbFunctionSetup` returns 0 and changes nothing but `command`, which becomes `c`, and the
high byte of the idle counter.  The tick that receives the request then runs
`eraseApplication` when `c = 2`; when `c = 64` it issues one commit, at
`currentAddress - 2`, and nothing else; for every other `c` it leaves flash and the
programmer trace as they were. -/
theorem deferred_commands (cfg : Config) (s : State) (c idx : Nat)
    (hc : c < 256) (h0 : c ≠ 0) (h1 : c ≠ 1) :
    usbFunctionSetup cfg s ⟨c, idx⟩
      = (0, { s with command := c, idlePolls := s.idlePolls % 256 })
    ∧ (c = 2 →
        tick cfg s (UsbEvent.setup ⟨c, idx⟩)
          = (eraseApplication cfg
              { s with command := c, idlePolls := (s.idlePolls % 256 + 1) % 65536 }).map
              (fun y => (y, loopCondition cfg y)))
    ∧ (c = 64 →
        tick cfg s (UsbEvent.setup ⟨c, idx⟩)
          = some (boot_page_write cfg
                    { s with command := c, idlePolls := (s.idlePolls % 256 + 1) % 65536 }
                    ((s.currentAddress + 65536 - 2) % 65536),
                  loopCondition cfg (boot_page_write cfg
                    { s with command := c, idlePolls := (s.idlePolls % 256 + 1) % 65536 }
                    ((s.currentAddress + 65536 - 2) % 65536)))
        ∧ (boot_page_write cfg
              { s with command := c, idlePolls := (s.idlePolls % 256 + 1) % 65536 }
              ((s.currentAddress + 65536 - 2) % 65536)).spmLog
            = s.spmLog ++ [SpmOp.write ((s.currentAddress + 65536 - 2) % 65536)])
    ∧ (c ≠ 2 → c ≠ 64 →
        tick cfg s (UsbEvent.setup ⟨c, idx⟩)
          = some ({ s with command := c, idlePolls := (s.idlePolls % 256 + 1) % 65536 },
                  loopCondition cfg
                    { s with command := c, idlePolls := (s.idlePolls % 256 + 1) % 65536 })) := by
  have hmod : c % 256 = c := Nat.mod_eq_of_lt hc
  have hsetup : ∀ st : State, usbFunctionSetup cfg st ⟨c, idx⟩
      = (0, { st with command := c, idlePolls := st.idlePolls % 256 }) := by
    intro st
    simp [usbFunctionSetup, hmod, cmd_device_info, cmd_transfer_page, h0, h1]
  refine ⟨hsetup s, ?_, ?_, ?_⟩
  · intro h2
    unfold tick
    simp only [usbPoll, hsetup]
    rw [if_neg (by simp [cmd_local_nop, h0])]
    simp only [dispatch, cmd_erase_application, h2, if_true]
    cases eraseApplication cfg
      { s with command := 2, idlePolls := (s.idlePolls % 256 + 1) % 65536 } <;> rfl
  · intro h64
    refine ⟨?_, rfl⟩
    unfold tick
    simp only [usbPoll, hsetup]
    rw [if_neg (by simp [cmd_local_nop, h0])]
    simp [dispatch, cmd_erase_application, cmd_write_page, h64, writeFlashPage]
  · intro h2 h64
    unfold tick
    simp only [usbPoll, hsetup]
    rw [if_neg (by simp [cmd_local_nop, h0])]
    simp [dispatch, cmd_erase_application, cmd_write_page, h64, h2]

/-- Witness for C17: the request code 64 on the ATtiny85 build, from the blank state. -/
theorem deferred_commands_witness :
    usbFunctionSetup attiny85 blankState ⟨64, 0⟩
      = (0, { blankState with command := 64, idlePolls := blankState.idlePolls % 256 }) :=
  (deferred_commands attiny85 blankState 64 0 (by decide) (by decide) (by decide)).1

/-! ### C18: page-complete test -/

/-- Claim C18.  For every page size that is a power of two from 2 to 256, the test of the
code on the low byte of the address agrees with the test `currentAddress % pageSize = 0` of
the specification at every address; `usbFunctionWrite` is the accumulator loop followed by
the page-complete rule of the specification; and whenever it returns, it returns 1 with
`command = cmd_write_page` if the final address is a multiple of the page size, and
otherwise returns 0 with `command` as it was. -/
theorem page_complete_test (cfg : Config) (s : State) (data : Nat → Nat) (L e : Nat)
    (he1 : 1 ≤ e) (he8 : e ≤ 8) (hP : cfg.SPM_PAGESIZE = 2 ^ e) :
    (∀ cur : Nat, (cur % 256) % cfg.SPM_PAGESIZE = 0 ↔ cur % cfg.SPM_PAGESIZE = 0)
    ∧ usbFunctionWrite cfg s data L
        = (usbFunctionWriteLoop cfg 16777216 s data 0 (L % 256)).map (pageCompleteSpec cfg)
    ∧ (∀ r s1, usbFunctionWrite cfg s data L = some (r, s1) →
        (s1.currentAddress % cfg.SPM_PAGESIZE = 0 → r = 1 ∧ s1.command = cmd_write_page)
        ∧ (s1.currentAddress % cfg.SPM_PAGESIZE ≠ 0 → r = 0 ∧ s1.command = s.command)) := by
  have _ := he1
  have h256 : cfg.SPM_PAGESIZE ∣ 256 := by rw [hP]; exact pow_two_dvd_256 e he8
  have hlow : ∀ cur : Nat, (cur % 256) % cfg.SPM_PAGESIZE = cur % cfg.SPM_PAGESIZE :=
    fun cur => lowByte_mod cfg.SPM_PAGESIZE cur h256
  have heq : usbFunctionWrite cfg s data L
        = (usbFunctionWriteLoop cfg 16777216 s data 0 (L % 256)).map (pageCompleteSpec cfg) := by
    unfold usbFunctionWrite
    cases hl : usbFunctionWriteLoop cfg 16777216 s data 0 (L % 256) with
    | none => rfl
    | some s1 =>
      simp only [Option.map_some', pageCompleteSpec, hlow]
      split_ifs <;> simp_all
  refine ⟨fun cur => by rw [hlow], heq, ?_⟩
  intro r s1 h
  rw [heq] at h
  cases hl : usbFunctionWriteLoop cfg 16777216 s data 0 (L % 256) with
  | none => rw [hl] at h; cases h
  | some s0 =>
    have hcmd := usbFunctionWriteLoop_command cfg data _ _ _ _ _ hl
    rw [hl] at h
    simp only [Option.map_some', pageCompleteSpec, Option.some.injEq] at h
    by_cases hz : s0.currentAddress % cfg.SPM_PAGESIZE = 0
    · rw [if_pos hz] at h
      cases h
      exact ⟨fun _ => ⟨rfl, rfl⟩, fun hne => absurd hz hne⟩
    · rw [if_neg hz] at h
      cases h
      exact ⟨fun h0 => absurd h0 hz, fun _ => ⟨rfl, hcmd⟩⟩

/-- Witness for C18: the ATtiny85 build, page size 64. -/
theorem page_complete_test_witness :
    usbFunctionWrite attiny85 blankState demoImage 8
      = (usbFunctionWriteLoop attiny85 16777216 blankState demoImage 0 (8 % 256)).map
          (pageCompleteSpec attiny85) :=
  (page_complete_test attiny85 blankState demoImage 8 6 (by decide) (by decide) rfl).2.1

/-! ### C19: eraser redirect page -/

/-- Counterexample to C19 as stated.  On the ATtiny85 build the page size is 64 bytes, one
page's worth is 32 words; after the 96 page erases `eraseApplication` stages eight words, at
addresses 0 to 14, and commits with `currentAddress` at 16, not at 64. -/
theorem eraser_stages_eight_words :
    attiny85.SPM_PAGESIZE = 64
    ∧ (eraseApplication attiny85 blankState).map (fun s => s.currentAddress) = some 16
    ∧ (eraseApplication attiny85 blankState).map (fun s => s.spmLog.drop 96)
        = some [SpmOp.fill 0 0xCBFF, SpmOp.fill 2 0xFFFF, SpmOp.fill 4 0xFFFF,
                SpmOp.fill 6 0xFFFF, SpmOp.fill 8 0xFFFF, SpmOp.fill 10 0xFFFF,
                SpmOp.fill 12 0xFFFF, SpmOp.fill 14 0xFFFF, SpmOp.write 14] := by
  refine ⟨by decide, by decide, by decide⟩

/-- Claim C19, amended.  For every page size that divides the 16-bit bootloader address and
every prior state, after erasing, `eraseApplication` passes exactly eight filler words
0xFFFF through `writeWordToPageBuffer`, starting at address 0, so that `currentAddress`
equals 16 when it issues its commit, at address 14.  That is one page's worth exactly when
the page size is 16 bytes. -/
theorem eraser_filler_words (cfg : Config) (s : State) (hP : 0 < cfg.SPM_PAGESIZE)
    (hBLP : cfg.BOOTLOADER_ADDRESS % cfg.SPM_PAGESIZE = 0)
    (hBL : cfg.BOOTLOADER_ADDRESS < 65536) :
    ∃ x0 : State,
      x0.currentAddress = 0
      ∧ x0.spmLog = s.spmLog
          ++ (List.range (cfg.BOOTLOADER_ADDRESS / cfg.SPM_PAGESIZE)).reverse.map
              (fun p => SpmOp.erase (p * cfg.SPM_PAGESIZE))
      ∧ eraseApplication cfg s
          = some (writeFlashPage cfg (writeWords cfg x0 (fun _ => 0xFFFF) 8))
      ∧ (writeWords cfg x0 (fun _ => 0xFFFF) 8).currentAddress = 16
      ∧ (writeFlashPage cfg (writeWords cfg x0 (fun _ => 0xFFFF) 8)).currentAddress = 16
      ∧ (writeFlashPage cfg (writeWords cfg x0 (fun _ => 0xFFFF) 8)).spmLog
          = x0.spmLog
            ++ (List.range 8).map (fun i =>
                SpmOp.fill (2 * i)
                  (relocatedWord cfg (writeWords cfg x0 (fun _ => 0xFFFF) i) 0xFFFF))
            ++ [SpmOp.write 14]
      ∧ ((writeWords cfg x0 (fun _ => 0xFFFF) 8).currentAddress = cfg.SPM_PAGESIZE
          ↔ cfg.SPM_PAGESIZE = 16) := by
  have heq := eraseApplication_eq cfg s hP hBLP hBL
  obtain ⟨x0, hx0⟩ : ∃ x0 : State, x0 = { s with
      currentAddress := 0
      flash := fun w => if 2 * w < cfg.BOOTLOADER_ADDRESS then 0xFFFF else s.flash w
      spmLog := s.spmLog
        ++ (List.range (cfg.BOOTLOADER_ADDRESS / cfg.SPM_PAGESIZE)).reverse.map
          (fun p => SpmOp.erase (p * cfg.SPM_PAGESIZE)) } := ⟨_, rfl⟩
  rw [← hx0] at heq
  have hcur : x0.currentAddress = 0 := by rw [hx0]
  have hc8 : (writeWords cfg x0 (fun _ => 0xFFFF) 8).currentAddress = 16 := by
    rw [writeWords_currentAddress _ _ _ 8 (Or.inr (by omega)), hcur]
  refine ⟨x0, hcur, by rw [hx0], heq, hc8, hc8, ?_, ?_⟩
  · rw [writeFlashPage_spmLog, writeWords_spmLog _ _ _ 8 (Or.inr (by omega)), hc8, hcur]
    simp only [Nat.zero_add]
  · rw [hc8]
    exact ⟨fun h => h.symm, fun h => h.symm⟩

/-- Witness for C19: the ATtiny85 build, from the blank state. -/
theorem eraser_filler_words_witness :
    ∃ x0 : State, x0.currentAddress = 0
      ∧ eraseApplication attiny85 blankState
          = some (writeFlashPage attiny85 (writeWords attiny85 x0 (fun _ => 0xFFFF) 8))
      ∧ (writeWords attiny85 x0 (fun _ => 0xFFFF) 8).currentAddress = 16 := by
  obtain ⟨x0, h0, _, h1, h2, _⟩ := eraser_filler_words attiny85 blankState (by decide)
    (by decide) (by decide)
  exact ⟨x0, h0, h1, h2⟩

/-! ### C20: accumulator termination -/

/-- Claim C20.  For every 8-bit length value, 0 and odd values included, and every 16-bit
`currentAddress`, with the bootloader address even and at most 65534, the do-while loop of
`usbFunctionWrite` terminates.  It stages `n` words, one per iteration, where `n` is at most
max(128, number of word slots between `currentAddress` and the bootloader address); `n + 1`
passes through the loop body are enough for it to return (the pass after the last word may
only take the `break`), so `usbFunctionWrite` returns.  The address after `i` of the
iterations is `currentAddress + 2 * i`, below 2^16: it never wraps.  Every iteration that
stages a word starts below the bootloader address, so the loop has stopped by the time the
address has reached it; from an even address the final address is at most the bootloader
address. -/
theorem accumulator_terminates (cfg : Config) (s : State) (data : Nat → Nat) (len : Nat)
    (hlen : len < 256) (hcur : s.currentAddress < 65536)
    (hev : cfg.BOOTLOADER_ADDRESS % 2 = 0) (hBL : cfg.BOOTLOADER_ADDRESS ≤ 65534) :
    ∃ n,
      n ≤ max 128 ((cfg.BOOTLOADER_ADDRESS - s.currentAddress + 1) / 2)
      ∧ (∀ fuel, n < fuel →
          usbFunctionWriteLoop cfg fuel s data 0 len
            = some (writeWords cfg s (fun i => readWord data (2 * i)) n))
      ∧ (∃ r, usbFunctionWrite cfg s data len = some r)
      ∧ (∀ i, i ≤ n →
          (writeWords cfg s (fun i => readWord data (2 * i)) i).currentAddress
            = s.currentAddress + 2 * i
          ∧ s.currentAddress + 2 * i < 65536)
      ∧ (∀ i, i < n → s.currentAddress + 2 * i < cfg.BOOTLOADER_ADDRESS)
      ∧ (s.currentAddress % 2 = 0 → s.currentAddress ≤ cfg.BOOTLOADER_ADDRESS →
          s.currentAddress + 2 * n ≤ cfg.BOOTLOADER_ADDRESS) := by
  obtain ⟨n, hn⟩ : ∃ n, n = (if len % 2 = 1
      then (cfg.BOOTLOADER_ADDRESS - s.currentAddress + 1) / 2
      else min (if len = 0 then 128 else len / 2)
            ((cfg.BOOTLOADER_ADDRESS - s.currentAddress + 1) / 2)) := ⟨_, rfl⟩
  have hns : n ≤ (cfg.BOOTLOADER_ADDRESS - s.currentAddress + 1) / 2 := by
    rw [hn]; split_ifs <;> omega
  refine ⟨n, by omega, ?_, ?_, ?_, ?_, ?_⟩
  · intro fuel hf
    have h := usbFunctionWriteLoop_any cfg data hBL fuel s 0 len hlen (by rw [← hn]; exact hf)
    rw [← hn] at h
    simp only [Nat.zero_add] at h
    exact h
  · obtain ⟨m, s1, _, _, h⟩ := usbFunctionWrite_any cfg s data len hBL
    exact ⟨_, h⟩
  · intro i hi
    have hb : s.currentAddress + 2 * i < 65536 := by omega
    exact ⟨writeWords_currentAddress cfg s _ i (by omega), hb⟩
  · intro i hi
    omega
  · intro h2 hle
    omega

/-- Witness for C20: an odd length, 128 word slots below the bootloader. -/
theorem accumulator_terminates_witness :
    ∃ r, usbFunctionWrite attiny85 { blankState with currentAddress := 0x1700 }
      (fun _ => 0) 3 = some r := by
  obtain ⟨n, _, _, h, _⟩ := accumulator_terminates attiny85
    { blankState with currentAddress := 0x1700 } (fun _ => 0) 3 (by decide) (by decide)
    (by decide) (by decide)
  exact h

end Micronucleus
